import Mathlib

/-!
# Fee-dividend settlement of the dex built-in contract

A shallow embedding of `vm/contracts/dex/fund_dividend.go`
(`DoFeesDividend`, `DoOperatorFeesDividend`, `DivideByProportion`) and proofs of
properties of the settlement engine.

Conventions of the embedding.

* `*big.Int` values are `ℤ`; amounts kept in byte form (`[]byte` fed to
  `SetBytes`) are stored as the natural number they denote.
* A `*big.Float` of precision `prec` is represented by the exact value it holds,
  a fraction `num / den`; every operation rounds the exact result to `prec`
  mantissa bits, to nearest, ties to even (the default mode of `big.Float`). The
  exponent is unbounded, and a division by zero is a failure of the call.
* Go maps used only by key are partial functions; the one map whose size and
  enumeration matter (`feeSumMap`) is an association list. The order in which a
  `range` loop visits a map is an argument.
* The persisted state is split by key prefix into one store per record kind. The
  stores the source reads through helpers of the package hold decoded records; the
  two stores it iterates itself hold keys and values as bytes.
* A `return err` yields the state reached together with the error; a panic yields
  `none`. Failures of the storage engine itself are not modelled.
* Helpers, constants and types that `fund_dividend.go` uses and that are defined
  elsewhere in the repository are either parameters (the structure `Env`) or
  modelled from the spec, and then say so.
-/

namespace Dex

/-! ## Arbitrary-precision floats (`math/big.Float`) -/

/-- The exact value held by a `*big.Float`: the fraction `num / den`. -/
structure BigFloat where
  num : ℤ
  den : ℕ
deriving DecidableEq, Repr

/-- The rational number a `BigFloat` stands for. -/
def BigFloat.toRat (x : BigFloat) : ℚ := (x.num : ℚ) / (x.den : ℚ)

/-- Bit length with explicit fuel. -/
def bitLenAux : ℕ → ℕ → ℕ
  | 0, _ => 0
  | fuel + 1, n => if n = 0 then 0 else bitLenAux fuel (n / 2) + 1

/-- Number of bits of `n` (`big.Int.BitLen`): `0` for `0`, else `⌊log₂ n⌋ + 1`. -/
def bitLen (n : ℕ) : ℕ := bitLenAux n n

/-- The quotient `n / d` rounded to the nearest natural number, ties to even. -/
def rneDiv (n d : ℕ) : ℕ :=
  let q := n / d
  let r := n % d
  if 2 * r < d then q else if d < 2 * r then q + 1 else if q % 2 = 0 then q else q + 1

/-- The binary exponent `⌊log₂ (n / d)⌋` of a positive fraction. -/
def ilog2 (n d : ℕ) : ℤ :=
  let a : ℤ := (bitLen n : ℤ) - (bitLen d : ℤ)
  if d * 2 ^ a.toNat ≤ n * 2 ^ (-a).toNat then a else a - 1

/-- Rounding of an exact value to `prec` mantissa bits, to nearest, ties to even:
the mantissa `|x| / 2 ^ e` with `e = ⌊log₂ |x|⌋ + 1 - prec` is rounded to an
integer. -/
def roundPrec (prec : ℕ) (x : BigFloat) : BigFloat :=
  if x.num = 0 ∨ x.den = 0 then ⟨0, 1⟩ else
    let e : ℤ := ilog2 x.num.natAbs x.den + 1 - (prec : ℤ)
    let m : ℕ := rneDiv (x.num.natAbs * 2 ^ (-e).toNat) (x.den * 2 ^ e.toNat)
    ⟨x.num.sign * (m : ℤ) * 2 ^ e.toNat, 2 ^ (-e).toNat⟩

/-- The call `new(big.Float).SetPrec(prec).SetInt(x)`. -/
def BigFloat.SetInt (prec : ℕ) (x : ℤ) : BigFloat := roundPrec prec ⟨x, 1⟩

/-- The call `new(big.Float).SetPrec(prec).Quo(x, y)` for a non-zero `y`. -/
def BigFloat.Quo (prec : ℕ) (x y : BigFloat) : BigFloat :=
  roundPrec prec ⟨x.num * (y.den : ℤ) * y.num.sign, x.den * y.num.natAbs⟩

/-- The call `new(big.Float).SetPrec(prec).Mul(x, y)`. -/
def BigFloat.Mul (prec : ℕ) (x y : BigFloat) : BigFloat :=
  roundPrec prec ⟨x.num * y.num, x.den * y.den⟩

/-- Rounding to the nearest integer, halves upwards: `⌊x + 1/2⌋`. -/
def roundHalfUp (x : BigFloat) : ℤ := (2 * x.num + (x.den : ℤ)) / (2 * (x.den : ℤ))

/-- Modelled from the spec: `RoundAmount` is not among the sources; the spec requires
of it nearest-integer rounding (half-even or half-up, one of them throughout).
This is that requirement on a candidate `R`. -/
def NearestInt (R : BigFloat → ℤ) : Prop :=
  ∀ x : BigFloat, x.den ≠ 0 → |((R x : ℤ) : ℚ) - x.toRat| ≤ 1 / 2

/-! ## The proportional allocator -/

/-- What one call of `DivideByProportion` returns and leaves in its two
accumulators. -/
structure DivideResult where
  proportionAmt : ℤ
  finished : Bool
  dividedReferAmt : ℤ
  toDivideLeaveAmt : ℤ
deriving DecidableEq, Repr

/-- The tentative share of lines 190-191:
`RoundAmount (toDivideTotalAmt * (partReferAmt / totalReferAmt))` in floats of
precision `prec`. -/
def tentativeShare (prec : ℕ) (RoundAmount : BigFloat → ℤ)
    (totalReferAmt partReferAmt toDivideTotalAmt : ℤ) : ℤ :=
  let proportion :=
    BigFloat.Quo prec (BigFloat.SetInt prec partReferAmt) (BigFloat.SetInt prec totalReferAmt)
  RoundAmount (BigFloat.Mul prec (BigFloat.SetInt prec toDivideTotalAmt) proportion)

/-- The function `DivideByProportion`. `prec` is the constant `bigFloatPrec` and
`RoundAmount` the helper of that name, neither of which is among the sources.
With `totalReferAmt = 0` the quotient is infinite or not a number and no share
results: the call fails (`none`). -/
def DivideByProportion (prec : ℕ) (RoundAmount : BigFloat → ℤ)
    (totalReferAmt partReferAmt dividedReferAmt toDivideTotalAmt toDivideLeaveAmt : ℤ) :
    Option DivideResult :=
  let dividedReferAmt := dividedReferAmt + partReferAmt
  if totalReferAmt = 0 then none
  else
    let proportionAmt :=
      tentativeShare prec RoundAmount totalReferAmt partReferAmt toDivideTotalAmt
    let toDivideLeaveNewAmt := toDivideLeaveAmt - proportionAmt
    if toDivideLeaveNewAmt ≤ 0 ∨ dividedReferAmt ≥ totalReferAmt then
      some ⟨toDivideLeaveAmt, true, dividedReferAmt, 0⟩
    else
      some ⟨proportionAmt, false, dividedReferAmt, toDivideLeaveNewAmt⟩

/-! ## Persisted records -/

/-- A byte string. -/
abbrev Bytes := List ℕ

/-- An account address (`types.Address`), kept as its bytes. -/
abbrev Address := Bytes

/-- A token identifier (`types.TokenTypeId`), kept as its bytes. -/
abbrev TokenTypeId := Bytes

/-- The errors the settlement can return. -/
inductive DexError where
  | invalidTokenTypeId
  | invalidAddress
  | invalidVxFunds
  | invalidOperatorFees
  | updateFundFailed
deriving DecidableEq, Repr

/-- Modelled from the spec: the per-token fee record of one period (the type is
declared outside the sources): base fee amount, invite-bonus amount and
dividend pool amount. -/
structure FeeAccount where
  Token : Bytes
  BaseAmount : ℕ
  InviteBonusAmount : ℕ
  DividendPoolAmount : ℕ
deriving DecidableEq, Repr

/-- Modelled from the spec: the fees of one period with the flag telling that the
period has been settled. -/
structure DexFeesByPeriod where
  FeesForDividend : List FeeAccount
  FinishDividend : Bool
deriving DecidableEq, Repr

/-- One checkpoint of a stake history. -/
structure VxFundWithPeriod where
  Period : ℕ
  Amount : ℕ
deriving DecidableEq, Repr

/-- Modelled from the spec: a stake history, an ordered sequence of checkpoints. -/
structure VxFunds where
  Funds : List VxFundWithPeriod
deriving DecidableEq, Repr

/-- One per-market fee entry of an operator record. -/
structure MarketFee where
  MarketId : ℕ
  Amount : ℕ
deriving DecidableEq, Repr

/-- The per-market fees an operator earned in one token. -/
structure OperatorFeeAccount where
  Token : Bytes
  MarketFees : List MarketFee
deriving DecidableEq, Repr

/-- Modelled from the spec: the fee record of one operator for one period. -/
structure OperatorFeesByPeriod where
  OperatorFees : List OperatorFeeAccount
deriving DecidableEq, Repr

/-- The events the two settlements log. -/
inductive Event where
  | FeeDividend (address : Address) (token : TokenTypeId) (vxAmount : ℤ)
      (feeDividendAmount : ℤ)
  | OperatorFeeDividend (address : Address) (mkFee : MarketFee)
deriving DecidableEq, Repr

/-- The persisted state behind `vm_db.VmDb`, one store per key prefix:
the fee records by period, the global stake sum, the per-address stake records
(key without the prefix, value, in key order), the operator fee records (whole
key, value, in key order), the fund ledger and the event log. -/
structure VmDb where
  dexFees : ℕ → Option DexFeesByPeriod
  vxSumFunds : Option VxFunds
  vxFunds : List (Bytes × Bytes)
  operatorFees : List (Bytes × Bytes)
  fund : Address → TokenTypeId → ℤ
  events : List Event

/-- The helpers and constants of the package that are not among the sources and
that the spec leaves open, taken as parameters. -/
structure Env where
  bigFloatPrec : ℕ
  RoundAmount : BigFloat → ℤ
  VxDividendThreshold : ℤ
  splitDividendPool : FeeAccount → ℤ × ℤ
  BytesToTokenTypeId : Bytes → Except DexError TokenTypeId
  DeSerializeVxFunds : Bytes → Except DexError VxFunds
  SerializeVxFunds : VxFunds → Bytes
  DeSerializeOperatorFees : Bytes → Except DexError OperatorFeesByPeriod
  operatorFeesKeyPrefix : Bytes

/-- The order in which a `range` loop visits the entries of a Go map. -/
abbrev MapOrder := List (ℕ × DexFeesByPeriod) → List (ℕ × DexFeesByPeriod)

/-- A map order visits every entry exactly once. -/
def IsMapOrder (ord : MapOrder) : Prop := ∀ l, (ord l).Perm l

/-! ## Helpers of the package, modelled from the spec -/

/-- Modelled from the spec: `address.SetBytes` of the types package is not among the
sources; an address has 21 bytes, any other length is an error. -/
def Address.SetBytes (b : Bytes) : Except DexError Address :=
  if b.length = 21 then .ok b else .error .invalidAddress

/-- Modelled from the spec: `types.BytesToAddress`, as `Address.SetBytes`. -/
def BytesToAddress (b : Bytes) : Except DexError Address := Address.SetBytes b

/-- Modelled from the spec: `Uint64ToBytes`, the 8-byte big-endian form of a period. -/
def Uint64ToBytes (n : ℕ) : Bytes :=
  (List.range 8).map (fun i => n / 256 ^ (7 - i) % 256)

/-- Modelled from the spec: `GetNotFinishDividendDexFeesByPeriodMap` collects every
fee record with finished = false and period at most `periodId`. -/
def GetNotFinishDividendDexFeesByPeriodMap (db : VmDb) (periodId : ℕ) :
    List (ℕ × DexFeesByPeriod) :=
  (List.range (periodId + 1)).filterMap (fun p =>
    match db.dexFees p with
    | some fee => if fee.FinishDividend then none else some (p, fee)
    | none => none)

/-- Modelled from the spec: `GetVxSumFunds` reads the global stake sum, if present. -/
def GetVxSumFunds (db : VmDb) : Option VxFunds := db.vxSumFunds

/-- Modelled from the spec: `SaveVxSumFunds` persists the global stake sum. -/
def SaveVxSumFunds (db : VmDb) (vxSumFunds : VxFunds) : VmDb :=
  { db with vxSumFunds := some vxSumFunds }

/-- Modelled from the spec: `MarkDexFeesFinishDividend` marks the period finished. -/
def MarkDexFeesFinishDividend (db : VmDb) (fee : DexFeesByPeriod) (pId : ℕ) : VmDb :=
  { db with dexFees := Function.update db.dexFees pId (some { fee with FinishDividend := true }) }

/-- Modelled from the spec: the storage write `put(key, bytes)`, on a store kept in
key order. -/
def storePut (k v : Bytes) : List (Bytes × Bytes) → List (Bytes × Bytes)
  | [] => [(k, v)]
  | (k', v') :: rest =>
    if k = k' then (k, v) :: rest
    else if k < k' then (k, v) :: (k', v') :: rest
    else (k', v') :: storePut k v rest

/-- Modelled from the spec: the storage write `delete(key)`. -/
def storeDelete (k : Bytes) (store : List (Bytes × Bytes)) : List (Bytes × Bytes) :=
  store.filter (fun kv => decide (kv.1 ≠ k))

/-- Modelled from the spec: `DeleteVxFunds` deletes the stake record of an address. -/
def DeleteVxFunds (db : VmDb) (address : Bytes) : VmDb :=
  { db with vxFunds := storeDelete address db.vxFunds }

/-- Modelled from the spec: `SaveVxFunds` persists the stake record of an address. -/
def SaveVxFunds (env : Env) (db : VmDb) (address : Bytes) (vxFunds : VxFunds) : VmDb :=
  { db with vxFunds := storePut address (env.SerializeVxFunds vxFunds) db.vxFunds }

/-- Modelled from the spec: `DeleteOperatorFeesByKey` deletes an operator record. -/
def DeleteOperatorFeesByKey (db : VmDb) (key : Bytes) : VmDb :=
  { db with operatorFees := storeDelete key db.operatorFees }

/-- Modelled from the spec: `IsValidVxAmountForDividend` holds of a stake that is
not below the threshold of dividend eligibility. -/
def IsValidVxAmountForDividend (env : Env) (amount : ℤ) : Bool :=
  decide (env.VxDividendThreshold ≤ amount)

/-- Modelled from the spec: `UpdateFund` credits the amounts to the balances of the
address, adding to what is there. -/
def UpdateFund (db : VmDb) (address : Address) (accounts : TokenTypeId → Option ℤ) :
    Except DexError VmDb :=
  .ok { db with fund := fun a t =>
          if a = address then db.fund a t + (accounts t).getD 0 else db.fund a t }

/-- Modelled from the spec: `AddFeeDividendEvent` logs one fee-dividend event. -/
def AddFeeDividendEvent (db : VmDb) (address : Address) (token : TokenTypeId)
    (vxAmount feeDividendAmount : ℤ) : VmDb :=
  { db with events := db.events ++ [Event.FeeDividend address token vxAmount feeDividendAmount] }

/-- Modelled from the spec: `AddOperatorFeeDividendEvent` logs one operator event. -/
def AddOperatorFeeDividendEvent (db : VmDb) (address : Address) (mkFee : MarketFee) : VmDb :=
  { db with events := db.events ++ [Event.OperatorFeeDividend address mkFee] }

/-- The four facts `MatchVxFundsByPeriod` returns, and the stake history as the
call leaves it. -/
structure MatchResult where
  found : Bool
  amount : ℕ
  needUpdate : Bool
  needDelete : Bool
  vxFunds : VxFunds
deriving DecidableEq, Repr

/-- The last checkpoint with period at most `periodId`, with its index. -/
def findLastCheckpoint : List VxFundWithPeriod → ℕ → Option (ℕ × VxFundWithPeriod)
  | [], _ => none
  | f :: rest, periodId =>
    match findLastCheckpoint rest periodId with
    | some (i, g) => some (i + 1, g)
    | none => if f.Period ≤ periodId then some (0, f) else none

/-- Modelled from the spec: `MatchVxFundsByPeriod` finds the last checkpoint with
period at most `periodId`; none is "not found". A destructive match drops the
checkpoints before the matched one, reports "needs update" when any was dropped and
"needs delete" when the matched amount is zero and it is the last one left. A
non-destructive match never mutates, and reports the same compaction hint. -/
def MatchVxFundsByPeriod (vxFunds : VxFunds) (periodId : ℕ) (checkDelete : Bool) :
    MatchResult :=
  match findLastCheckpoint vxFunds.Funds periodId with
  | none => ⟨false, 0, false, false, vxFunds⟩
  | some (matchIndex, fund) =>
    let left := vxFunds.Funds.drop matchIndex
    ⟨true, fund.Amount, decide (0 < matchIndex),
      checkDelete && decide (fund.Amount = 0) && decide (left.length = 1),
      if checkDelete then ⟨left⟩ else vxFunds⟩

/-! ## The merged fee pool -/

/-- The Go map `feeSumMap`, with its entries in the order of insertion. -/
abbrev FeeSumMap := List (TokenTypeId × ℤ)

/-- Map lookup `m[t]`. -/
def FeeSumMap.get : FeeSumMap → TokenTypeId → Option ℤ
  | [], _ => none
  | (k, v) :: rest, t => if k = t then some v else FeeSumMap.get rest t

/-- Map assignment `m[t] = v`. -/
def FeeSumMap.set : FeeSumMap → TokenTypeId → ℤ → FeeSumMap
  | [], t, v => [(t, v)]
  | (k, w) :: rest, t, v => if k = t then (k, v) :: rest else (k, w) :: FeeSumMap.set rest t v

/-- The builtin `delete(m, t)`. -/
def FeeSumMap.delete (m : FeeSumMap) (t : TokenTypeId) : FeeSumMap :=
  m.filter (fun kv => decide (kv.1 ≠ t))

/-- An entry of the slice the scan runs over: a token, its pool amount and the
flag set once the token is exhausted. -/
structure AmountWithToken where
  Token : TokenTypeId
  Amount : ℤ
  Deleted : Bool
deriving DecidableEq, Repr

/-- Modelled from the spec: `MapToAmountWithTokens` lists the tokens of the merged
pool, each once with its pool amount, none deleted. The entries are shared with the
loop that flags them (a slice of pointers). -/
def MapToAmountWithTokens (m : FeeSumMap) : List AmountWithToken :=
  m.map (fun kv => ⟨kv.1, kv.2, false⟩)

/-- The inner loop of lines 41-52: the fee accounts of one period are added to the
pool; an undecodable token returns the error. -/
def mergeFeeAccounts (env : Env) : List FeeAccount → FeeSumMap → Except DexError FeeSumMap
  | [], feeSumMap => .ok feeSumMap
  | feeAccount :: rest, feeSumMap =>
    match env.BytesToTokenTypeId feeAccount.Token with
    | .error err => .error err
    | .ok tokenId =>
      let toDividendAmt := (env.splitDividendPool feeAccount).1
      match feeSumMap.get tokenId with
      | none => mergeFeeAccounts env rest (feeSumMap.set tokenId toDividendAmt)
      | some amt => mergeFeeAccounts env rest (feeSumMap.set tokenId (amt + toDividendAmt))

/-- The loop of lines 40-54 over the collected periods, in the order given: each
period is merged into the pool and then marked finished; an error returns at once. -/
def mergeLoop (env : Env) :
    List (ℕ × DexFeesByPeriod) → VmDb → FeeSumMap → VmDb × FeeSumMap × Option DexError
  | [], db, feeSumMap => (db, feeSumMap, none)
  | (pId, fee) :: rest, db, feeSumMap =>
    match mergeFeeAccounts env fee.FeesForDividend feeSumMap with
    | .error err => (db, feeSumMap, some err)
    | .ok feeSumMap' => mergeLoop env rest (MarkDexFeesFinishDividend db fee pId) feeSumMap'

/-! ## The stakeholder scan -/

/-- The variables the loop over the tokens reads and writes. -/
structure TokenLoopState where
  db : VmDb
  feeSumMap : FeeSumMap
  feeSumLeavedMap : TokenTypeId → Option ℤ
  dividedVxAmtMap : TokenTypeId → Option ℤ
  userFeeDividend : TokenTypeId → Option ℤ

/-- The body of the loop of lines 114-129 for a token that is not exhausted (lines
118-128): the accumulators of the token are set up on first use, the share is
allocated by `DivideByProportion`, the token is flagged and removed from the pool
when the call finishes it, and an event is logged. `none` is a panic. -/
def allocateToken (env : Env) (vxSumAmt userVxAmount : ℤ) (address : Address)
    (feeSumWtTk : AmountWithToken) (st : TokenLoopState) :
    Option (AmountWithToken × TokenLoopState) :=
  let fresh := (st.feeSumLeavedMap feeSumWtTk.Token).isNone
  let leaved := if fresh then
      Function.update st.feeSumLeavedMap feeSumWtTk.Token (some feeSumWtTk.Amount)
    else st.feeSumLeavedMap
  let divided := if fresh then
      Function.update st.dividedVxAmtMap feeSumWtTk.Token (some 0)
    else st.dividedVxAmtMap
  match divided feeSumWtTk.Token, leaved feeSumWtTk.Token with
  | some dividedReferAmt, some toDivideLeaveAmt =>
    match DivideByProportion env.bigFloatPrec env.RoundAmount vxSumAmt userVxAmount
        dividedReferAmt feeSumWtTk.Amount toDivideLeaveAmt with
    | none => none
    | some r =>
      some (if r.finished then { feeSumWtTk with Deleted := true } else feeSumWtTk,
        { db := AddFeeDividendEvent st.db address feeSumWtTk.Token userVxAmount r.proportionAmt
          feeSumMap := if r.finished then st.feeSumMap.delete feeSumWtTk.Token
            else st.feeSumMap
          feeSumLeavedMap := Function.update leaved feeSumWtTk.Token (some r.toDivideLeaveAmt)
          dividedVxAmtMap := Function.update divided feeSumWtTk.Token (some r.dividedReferAmt)
          userFeeDividend := Function.update st.userFeeDividend feeSumWtTk.Token
            (some r.proportionAmt) })
  | _, _ => none

/-- The loop of lines 114-129 for one address over the slice of tokens: exhausted
tokens are skipped, the others allocated. The result is the slice with its flags
and the variables; `none` is a panic. -/
def tokenLoop (env : Env) (vxSumAmt userVxAmount : ℤ) (address : Address) :
    List AmountWithToken → TokenLoopState → Option (List AmountWithToken × TokenLoopState)
  | [], st => some ([], st)
  | feeSumWtTk :: rest, st =>
    if feeSumWtTk.Deleted then
      (tokenLoop env vxSumAmt userVxAmount address rest st).map
        (fun r => (feeSumWtTk :: r.1, r.2))
    else
      match allocateToken env vxSumAmt userVxAmount address feeSumWtTk st with
      | none => none
      | some (feeSumWtTk', st') =>
        (tokenLoop env vxSumAmt userVxAmount address rest st').map
          (fun r => (feeSumWtTk' :: r.1, r.2))

/-- The variables of the scan of lines 70-133. -/
structure ScanState where
  db : VmDb
  feeSumMap : FeeSumMap
  feeSumWithTokens : List AmountWithToken
  feeSumLeavedMap : TokenTypeId → Option ℤ
  dividedVxAmtMap : TokenTypeId → Option ℤ

/-- The housekeeping of lines 102-106 on the stake record of the address. -/
def housekeep (env : Env) (db : VmDb) (address : Address) (m : MatchResult) : VmDb :=
  if m.needDelete then DeleteVxFunds db address
  else if m.needUpdate then SaveVxFunds env db address m.vxFunds
  else db

/-- The scan of lines 70-134 over the stake records the iterator yields, in key
order. The result is the state reached and the error returned; `none` is a
panic. -/
def scanLoop (env : Env) (periodId : ℕ) (vxSumAmt : ℤ) :
    List (Bytes × Bytes) → ScanState → Option (VmDb × Option DexError)
  | [], st => some (st.db, none)
  | (userVxFundsKey, userVxFundsBytes) :: rest, st =>
    if st.feeSumMap.length = 0 then some (st.db, none)
    else if userVxFundsBytes.length = 0 then scanLoop env periodId vxSumAmt rest st
    else
      match Address.SetBytes userVxFundsKey with
      | .error err => some (st.db, some err)
      | .ok address =>
        match env.DeSerializeVxFunds userVxFundsBytes with
        | .error err => some (st.db, some err)
        | .ok userVxFunds =>
          let m := MatchVxFundsByPeriod userVxFunds periodId true
          if !m.found then scanLoop env periodId vxSumAmt rest st
          else
            let db := housekeep env st.db address m
            let userVxAmount : ℤ := (m.amount : ℤ)
            if !IsValidVxAmountForDividend env userVxAmount then
              scanLoop env periodId vxSumAmt rest { st with db := db }
            else
              match tokenLoop env vxSumAmt userVxAmount address st.feeSumWithTokens
                  ⟨db, st.feeSumMap, st.feeSumLeavedMap, st.dividedVxAmtMap, fun _ => none⟩ with
              | none => none
              | some (tokens, tl) =>
                match UpdateFund tl.db address tl.userFeeDividend with
                | .error err => some (tl.db, some err)
                | .ok db' =>
                  scanLoop env periodId vxSumAmt rest
                    ⟨db', tl.feeSumMap, tokens, tl.feeSumLeavedMap, tl.dividedVxAmtMap⟩

/-- The function `DoFeesDividend`. `ord` is the order in which the `range` loop of
line 40 visits the collected periods. The result is the state reached and the
error returned (`none` for `nil`); the outer `none` is a panic. -/
def DoFeesDividend (env : Env) (ord : MapOrder) (db : VmDb) (periodId : ℕ) :
    Option (VmDb × Option DexError) :=
  let dexFeesByPeriodMap := GetNotFinishDividendDexFeesByPeriodMap db periodId
  if dexFeesByPeriodMap.length = 0 then some (db, none)
  else
    match GetVxSumFunds db with
    | none => some (db, none)
    | some vxSumFunds =>
      let m := MatchVxFundsByPeriod vxSumFunds periodId false
      if !m.found then some (db, none)
      else
        let db := if m.needUpdate then SaveVxSumFunds db m.vxFunds else db
        let vxSumAmt : ℤ := (m.amount : ℤ)
        if vxSumAmt ≤ 0 then some (db, none)
        else
          match mergeLoop env (ord dexFeesByPeriodMap) db [] with
          | (db, _, some err) => some (db, some err)
          | (db, feeSumMap, none) =>
            scanLoop env periodId vxSumAmt db.vxFunds
              ⟨db, feeSumMap, MapToAmountWithTokens feeSumMap, fun _ => none, fun _ => none⟩

/-! ## The operator fee settlement -/

/-- The loop of lines 174-181 over the market fees of one token. -/
def marketFeesLoop (addr : Address) (tokenId : TokenTypeId) :
    List MarketFee → VmDb → (TokenTypeId → Option ℤ) → VmDb × (TokenTypeId → Option ℤ)
  | [], db, userFund => (db, userFund)
  | mkFee :: rest, db, userFund =>
    let userFund' := match userFund tokenId with
      | some fd => Function.update userFund tokenId (some (fd + (mkFee.Amount : ℤ)))
      | none => Function.update userFund tokenId (some (mkFee.Amount : ℤ))
    marketFeesLoop addr tokenId rest (AddOperatorFeeDividendEvent db addr mkFee) userFund'

/-- The loop of lines 169-182 over the tokens of one operator record; `none` is the
panic on an undecodable token. -/
def operatorFeesLoop (env : Env) (addr : Address) :
    List OperatorFeeAccount → VmDb → (TokenTypeId → Option ℤ) →
      Option (VmDb × (TokenTypeId → Option ℤ))
  | [], db, userFund => some (db, userFund)
  | feeAcc :: rest, db, userFund =>
    match env.BytesToTokenTypeId feeAcc.Token with
    | .error _ => none
    | .ok tokenId =>
      let r := marketFeesLoop addr tokenId feeAcc.MarketFees db userFund
      operatorFeesLoop env addr rest r.1 r.2

/-- The loop of lines 143-184 over the operator records the iterator yields; `none`
is a panic. -/
def operatorLoop (env : Env) : List (Bytes × Bytes) → VmDb → Option VmDb
  | [], db => some db
  | (operatorFeesKey, operatorFeesBytes) :: rest, db =>
    if operatorFeesBytes.length = 0 then operatorLoop env rest db
    else if operatorFeesKey.length ≠ 32 then none
    else
      let db := DeleteOperatorFeesByKey db operatorFeesKey
      match env.DeSerializeOperatorFees operatorFeesBytes with
      | .error _ => none
      | .ok operatorFeesByPeriod =>
        match BytesToAddress (operatorFeesKey.drop 11) with
        | .error _ => none
        | .ok addr =>
          match operatorFeesLoop env addr operatorFeesByPeriod.OperatorFees db
              (fun _ => none) with
          | none => none
          | some (db, userFund) =>
            match UpdateFund db addr userFund with
            | .error _ => operatorLoop env rest db
            | .ok db' => operatorLoop env rest db'

/-- Modelled from the spec: the records a storage iterator created for a key prefix
yields, those whose key starts with the prefix, in key order (for the operator
records: every record whose key encodes exactly the period). -/
def iterate (start : Bytes) (store : List (Bytes × Bytes)) : List (Bytes × Bytes) :=
  store.filter (fun kv => start.isPrefixOf kv.1)

/-- The function `DoOperatorFeesDividend`; it returns `nil` whenever it returns, and
`none` is a panic. -/
def DoOperatorFeesDividend (env : Env) (db : VmDb) (periodId : ℕ) : Option VmDb :=
  operatorLoop env (iterate (env.operatorFeesKeyPrefix ++ Uint64ToBytes periodId) db.operatorFees)
    db

/-! ## Quantities the properties are stated with -/

/-- The dividend amount the fee accounts of one period hold for token `t`: the sum
of the first component of `splitDividendPool` over the accounts whose token
decodes to `t`. -/
def dividendPoolOf (env : Env) (accounts : List FeeAccount) (t : TokenTypeId) : ℤ :=
  (accounts.map (fun feeAccount =>
    match env.BytesToTokenTypeId feeAccount.Token with
    | .ok t' => if t' = t then (env.splitDividendPool feeAccount).1 else 0
    | .error _ => 0)).sum

/-- The sum over the periods of a list of their dividend amount for token `t`. -/
def mergedPool (env : Env) (periods : List (ℕ × DexFeesByPeriod)) (t : TokenTypeId) : ℤ :=
  (periods.map (fun pf => dividendPoolOf env pf.2.FeesForDividend t)).sum

/-- Every token of the fee accounts decodes. -/
def GoodAccounts (env : Env) (accounts : List FeeAccount) : Prop :=
  ∀ feeAccount ∈ accounts, ∃ t, env.BytesToTokenTypeId feeAccount.Token = .ok t

/-- The global stake sum resolved at the period: the amount of the non-destructive
match, `0` when the sum is absent or has no checkpoint at or before the period. -/
def stakeSumAt (db : VmDb) (periodId : ℕ) : ℤ :=
  match GetVxSumFunds db with
  | none => 0
  | some vxSumFunds => ((MatchVxFundsByPeriod vxSumFunds periodId false).amount : ℤ)

/-- The sum of the shares the fee-dividend events of a log record for token `t`. -/
def sharesOf (t : TokenTypeId) (events : List Event) : ℤ :=
  (events.map (fun e =>
    match e with
    | .FeeDividend _ t' _ amt => if t' = t then amt else 0
    | .OperatorFeeDividend _ _ => 0)).sum

/-- The stake with which a stake record takes part in the scan of a period: its
resolved amount when the record is non-empty, decodes, has a checkpoint at or
before the period and is not below the threshold; `0` otherwise. -/
def eligibleStakeOf (env : Env) (periodId : ℕ) (entry : Bytes × Bytes) : ℤ :=
  if entry.2.length = 0 then 0
  else
    match env.DeSerializeVxFunds entry.2 with
    | .error _ => 0
    | .ok userVxFunds =>
      let m := MatchVxFundsByPeriod userVxFunds periodId true
      if m.found && IsValidVxAmountForDividend env (m.amount : ℤ) then (m.amount : ℤ) else 0

/-- The total stake of the eligible stakeholders among the records. -/
def eligibleStake (env : Env) (periodId : ℕ) (entries : List (Bytes × Bytes)) : ℤ :=
  (entries.map (eligibleStakeOf env periodId)).sum

/-- The sum of the amounts of a list of per-market fees. -/
def marketFeesTotal (fees : List MarketFee) : ℤ :=
  (fees.map (fun mkFee => (mkFee.Amount : ℤ))).sum

/-- The sum of all per-market fee amounts an operator record lists for token `t`. -/
def recordTotal (env : Env) (accounts : List OperatorFeeAccount) (t : TokenTypeId) : ℤ :=
  (accounts.map (fun feeAcc =>
    match env.BytesToTokenTypeId feeAcc.Token with
    | .ok t' => if t' = t then marketFeesTotal feeAcc.MarketFees else 0
    | .error _ => 0)).sum

/-- The sum of all per-market fee amounts a stored operator record lists for token
`t`; an empty value lists none. -/
def entryTotal (env : Env) (entry : Bytes × Bytes) (t : TokenTypeId) : ℤ :=
  if entry.2.length = 0 then 0
  else
    match env.DeSerializeOperatorFees entry.2 with
    | .ok operatorFeesByPeriod => recordTotal env operatorFeesByPeriod.OperatorFees t
    | .error _ => 0

/-- The operator records of a period: what the iterator of `DoOperatorFeesDividend`
yields. -/
def operatorRecords (env : Env) (db : VmDb) (periodId : ℕ) : List (Bytes × Bytes) :=
  iterate (env.operatorFeesKeyPrefix ++ Uint64ToBytes periodId) db.operatorFees

/-- The variables of token `t` agree in two states of the token loop: the shares
logged, the two accumulators and the presence in the pool. -/
def SameTokenView (t : TokenTypeId) (st st' : TokenLoopState) : Prop :=
  sharesOf t st'.db.events = sharesOf t st.db.events ∧
  st'.feeSumLeavedMap t = st.feeSumLeavedMap t ∧
  st'.dividedVxAmtMap t = st.dividedVxAmtMap t ∧
  (t ∈ st'.feeSumMap.map Prod.fst ↔ t ∈ st.feeSumMap.map Prod.fst)

/-- The allocation of one share of token `t`, of pool amount `amount`, from state
`st` to state `st'`: the accumulators are those of `st`, or zero and the pool
amount on first use; `r` is what `DivideByProportion` returned from them. -/
def AllocatedShare (env : Env) (vxSumAmt userVxAmount : ℤ) (t : TokenTypeId) (amount : ℤ)
    (st st' : TokenLoopState) (r : DivideResult) : Prop :=
  ∃ dv lv,
    ((st.feeSumLeavedMap t = none ∧ dv = 0 ∧ lv = amount) ∨
      (st.feeSumLeavedMap t = some lv ∧ st.dividedVxAmtMap t = some dv)) ∧
    DivideByProportion env.bigFloatPrec env.RoundAmount vxSumAmt userVxAmount dv amount lv
      = some r ∧
    sharesOf t st'.db.events = sharesOf t st.db.events + r.proportionAmt ∧
    st'.feeSumLeavedMap t = some r.toDivideLeaveAmt ∧
    st'.dividedVxAmtMap t = some r.dividedReferAmt ∧
    (t ∈ st'.feeSumMap.map Prod.fst ↔ (t ∈ st.feeSumMap.map Prod.fst ∧ r.finished = false))

/-- The invariant of the scan for token `t` of pool amount `amount`: `base` is the
sum of the shares logged before the scan and `k` the stake of the eligible
stakeholders visited so far. Once the token is flagged its shares add up to the
pool amount; until then the token is in the pool, the shares and what is left add
up to the pool amount, and the stake visited is below the global stake sum. -/
def TokenInv (t : TokenTypeId) (amount base vxSumAmt k : ℤ) (st : ScanState) : Prop :=
  (st.feeSumWithTokens.map (fun tk => tk.Token)).Nodup ∧
  ∃ tk ∈ st.feeSumWithTokens, tk.Token = t ∧ tk.Amount = amount ∧
    (tk.Deleted = true → sharesOf t st.db.events = base + amount) ∧
    (tk.Deleted = false → t ∈ st.feeSumMap.map Prod.fst ∧
      ((st.feeSumLeavedMap t = none ∧ sharesOf t st.db.events = base ∧ k = 0) ∨
        ∃ lv dv, st.feeSumLeavedMap t = some lv ∧ st.dividedVxAmtMap t = some dv ∧
          sharesOf t st.db.events = base + amount - lv ∧ dv = k ∧ dv < vxSumAmt))

/-! ## Concrete environments and states -/

/-- Decoding of a flat list `period, amount, period, amount, ...`. -/
def pairUp : List ℕ → Option (List VxFundWithPeriod)
  | [] => some []
  | [_] => none
  | p :: a :: rest => (pairUp rest).map (fun l => ⟨p, a⟩ :: l)

/-- An environment with 120-bit floats, halves rounded upwards, a threshold of 10,
the whole dividend pool amount distributed, tokens of 10 bytes, and flat codecs. -/
def demoEnv : Env where
  bigFloatPrec := 120
  RoundAmount := roundHalfUp
  VxDividendThreshold := 10
  splitDividendPool := fun fa => ((fa.DividendPoolAmount : ℤ), 0)
  BytesToTokenTypeId := fun b => if b.length = 10 then .ok b else .error .invalidTokenTypeId
  DeSerializeVxFunds := fun b =>
    match pairUp b with
    | some l => .ok ⟨l⟩
    | none => .error .invalidVxFunds
  SerializeVxFunds := fun v => (v.Funds.map (fun c => [c.Period, c.Amount])).flatten
  DeSerializeOperatorFees := fun b =>
    match b with
    | [] => .error .invalidOperatorFees
    | t :: amounts => .ok ⟨[⟨List.replicate 10 t, amounts.map (fun a => ⟨0, a⟩)⟩]⟩
  operatorFeesKeyPrefix := [1, 2, 3]

/-- The environment `demoEnv` with a threshold of 50. -/
def strictEnv : Env := { demoEnv with VxDividendThreshold := 50 }

/-- A token. -/
def tokenX : TokenTypeId := List.replicate 10 7

/-- The address of stakeholder A. -/
def addrA : Address := List.replicate 21 1

/-- The address of stakeholder B. -/
def addrB : Address := List.replicate 21 2

/-- A state with one unsettled period holding 1,000,000 of `tokenX`, a global stake
sum of 100, and the stakes A = 60 and B = 40. -/
def demoDb : VmDb where
  dexFees := fun p => if p = 1 then some ⟨[⟨tokenX, 0, 0, 1000000⟩], false⟩ else none
  vxSumFunds := some ⟨[⟨0, 100⟩]⟩
  vxFunds := [(addrA, [0, 60]), (addrB, [0, 40])]
  operatorFees := []
  fund := fun _ _ => 0
  events := []

/-- The state `demoDb` after the settlement of period 1. -/
def demoDbSettled : VmDb :=
  ((DoFeesDividend demoEnv id demoDb 1).map Prod.fst).getD demoDb

/-- The state `demoDb` without a global stake sum. -/
def noSumDb : VmDb := { demoDb with vxSumFunds := none }

/-- The key of the operator record of A for period 1. -/
def operatorKeyA : Bytes := [1, 2, 3] ++ Uint64ToBytes 1 ++ addrA

/-- A state with one operator record for period 1: operator A, token `tokenX`, two
market fees of 5 and 6. -/
def operatorDb : VmDb := { demoDb with operatorFees := [(operatorKeyA, [7, 5, 6])] }

/-- The state `operatorDb` after the operator settlement of period 1. -/
def operatorDbSettled : VmDb := (DoOperatorFeesDividend demoEnv operatorDb 1).getD operatorDb

/-- A sequence of calls of `DivideByProportion` for one token, one call for each
reference stake of the list, with the two accumulators carried from call to call
as the in-place updates of the function leave them. The result lists what the
calls returned; `none` is a failed call. -/
def callSequence (prec : ℕ) (RoundAmount : BigFloat → ℤ) (totalReferAmt toDivideTotalAmt : ℤ) :
    List ℤ → ℤ → ℤ → Option (List DivideResult)
  | [], _, _ => some []
  | partReferAmt :: rest, dividedReferAmt, toDivideLeaveAmt =>
    match DivideByProportion prec RoundAmount totalReferAmt partReferAmt dividedReferAmt
        toDivideTotalAmt toDivideLeaveAmt with
    | none => none
    | some r =>
      (callSequence prec RoundAmount totalReferAmt toDivideTotalAmt rest r.dividedReferAmt
        r.toDivideLeaveAmt).map (fun rs => r :: rs)

/-- The pool remaining after a sequence of calls that started with `start`. -/
def remainingAfter : ℤ → List DivideResult → ℤ
  | start, [] => start
  | _, r :: rs => remainingAfter r.toDivideLeaveAmt rs

/-- Whether an event is a fee-dividend event for token `t`. -/
def isFeeDividendFor (t : TokenTypeId) : Event → Bool
  | .FeeDividend _ t' _ _ => decide (t' = t)
  | .OperatorFeeDividend _ _ => false

/-- The two accumulator maps are set up together: a token with a remaining pool
has a divided stake. -/
def AccumulatorsPaired (feeSumLeavedMap dividedVxAmtMap : TokenTypeId → Option ℤ) : Prop :=
  ∀ t, (feeSumLeavedMap t).isSome = true → (dividedVxAmtMap t).isSome = true

/-- A second token. -/
def tokenY : TokenTypeId := List.replicate 10 8

/-- The variables of the token loop at the first stakeholder of a scan over a pool of
1 of `tokenY` and 1,000,000 of `tokenX`. -/
def demoLoopState : TokenLoopState where
  db := demoDb
  feeSumMap := [(tokenY, 1), (tokenX, 1000000)]
  feeSumLeavedMap := fun _ => none
  dividedVxAmtMap := fun _ => none
  userFeeDividend := fun _ => none

/-- The slice and the variables after the token loop of a stakeholder with 60 of the
100 staked: the single unit of `tokenY` goes to this stakeholder. -/
def demoLoopResult : List AmountWithToken × TokenLoopState :=
  (tokenLoop demoEnv 100 60 addrA [⟨tokenY, 1, false⟩, ⟨tokenX, 1000000, false⟩]
    demoLoopState).getD ([], demoLoopState)

/-- The state `demoDb` with two unsettled periods: period 0 holds 5 of `tokenX` and 7
of `tokenY`, period 1 holds 1,000,000 of `tokenX`. -/
def catchUpDb : VmDb :=
  { demoDb with dexFees := fun p =>
      if p = 0 then some ⟨[⟨tokenX, 0, 0, 5⟩, ⟨tokenY, 0, 0, 7⟩], false⟩
      else if p = 1 then some ⟨[⟨tokenX, 0, 0, 1000000⟩], false⟩
      else none }

/-- The state `demoDb` with two unsettled periods: period 0 holds 5 of `tokenX`,
period 1 a fee account whose token, of three bytes, does not decode. -/
def badTokenDb : VmDb :=
  { demoDb with dexFees := fun p =>
      if p = 0 then some ⟨[⟨tokenX, 0, 0, 5⟩], false⟩
      else if p = 1 then some ⟨[⟨[1, 2, 3], 0, 0, 9⟩], false⟩
      else none }

/-! # Theorems -/

/-! ## Facts about the float model -/

theorem bitLenAux_spec (fuel : ℕ) : ∀ n : ℕ, n ≤ fuel → n ≠ 0 →
    2 ^ bitLenAux fuel n ≤ 2 * n ∧ n < 2 ^ bitLenAux fuel n := by
  induction fuel with
  | zero => intro n h hn; omega
  | succ fuel ih =>
    intro n h hn
    simp only [bitLenAux, if_neg hn]
    by_cases h2 : n / 2 = 0
    · have h1 : n = 1 := by omega
      subst h1
      cases fuel <;> simp [bitLenAux]
    · obtain ⟨ha, hb⟩ := ih (n / 2) (by omega) h2
      rw [pow_succ]
      constructor <;> omega

theorem bitLen_spec (n : ℕ) (hn : n ≠ 0) : 2 ^ bitLen n ≤ 2 * n ∧ n < 2 ^ bitLen n :=
  bitLenAux_spec n n le_rfl hn

theorem two_zpow_split (a : ℤ) :
    (2 : ℚ) ^ a = (2 : ℚ) ^ a.toNat / (2 : ℚ) ^ (-a).toNat := by
  rcases le_total 0 a with h | h
  · lift a to ℕ using h
    simp
  · obtain ⟨b, rfl⟩ : ∃ b : ℕ, a = -(b : ℤ) := ⟨a.natAbs, by omega⟩
    simp

theorem ilog2_spec (n d : ℕ) (hn : n ≠ 0) (hd : d ≠ 0) :
    (2 : ℚ) ^ ilog2 n d ≤ (n : ℚ) / d ∧ (n : ℚ) / d < (2 : ℚ) ^ (ilog2 n d + 1) := by
  have hdq : (0 : ℚ) < d := by exact_mod_cast Nat.pos_of_ne_zero hd
  have hnq : (0 : ℚ) < n := by exact_mod_cast Nat.pos_of_ne_zero hn
  obtain ⟨hn1, hn2⟩ := bitLen_spec n hn
  obtain ⟨hd1, hd2⟩ := bitLen_spec d hd
  have hn1q : (2 : ℚ) ^ (bitLen n) ≤ 2 * n := by exact_mod_cast hn1
  have hn2q : (n : ℚ) < 2 ^ (bitLen n) := by exact_mod_cast hn2
  have hd1q : (2 : ℚ) ^ (bitLen d) ≤ 2 * d := by exact_mod_cast hd1
  have hd2q : (d : ℚ) < 2 ^ (bitLen d) := by exact_mod_cast hd2
  set a : ℤ := (bitLen n : ℤ) - (bitLen d : ℤ) with ha
  have hpa : (2 : ℚ) ^ a = (2 : ℚ) ^ (bitLen n) / (2 : ℚ) ^ (bitLen d) := by
    rw [ha, zpow_sub₀ (by norm_num)]; simp
  have hpd : (0 : ℚ) < 2 ^ (bitLen d) := by positivity
  have hpn : (0 : ℚ) < 2 ^ (bitLen n) := by positivity
  -- coarse bounds
  have hlo : (2 : ℚ) ^ (a - 1) ≤ (n : ℚ) / d := by
    rw [zpow_sub₀ (by norm_num), hpa, zpow_one, div_div, div_le_div_iff₀ (by positivity) hdq]
    nlinarith
  have hhi : (n : ℚ) / d < (2 : ℚ) ^ (a + 1) := by
    rw [zpow_add₀ (by norm_num), hpa, zpow_one, div_lt_iff₀ hdq, div_mul_eq_mul_div,
      div_mul_eq_mul_div, lt_div_iff₀ hpd]
    nlinarith
  have htest : (d * 2 ^ a.toNat ≤ n * 2 ^ (-a).toNat) ↔ (2 : ℚ) ^ a ≤ (n : ℚ) / d := by
    rw [two_zpow_split a, le_div_iff₀ hdq, div_mul_eq_mul_div, div_le_iff₀ (by positivity)]
    constructor
    · intro h
      have : ((d * 2 ^ a.toNat : ℕ) : ℚ) ≤ ((n * 2 ^ (-a).toNat : ℕ) : ℚ) := by exact_mod_cast h
      push_cast at this
      linarith
    · intro h
      have : ((d * 2 ^ a.toNat : ℕ) : ℚ) ≤ ((n * 2 ^ (-a).toNat : ℕ) : ℚ) := by
        push_cast; linarith
      exact_mod_cast this
  unfold ilog2
  simp only [← ha]
  split_ifs with h
  · exact ⟨htest.1 h, hhi⟩
  · refine ⟨hlo, ?_⟩
    rw [sub_add_cancel]
    exact not_le.1 (fun h' => h (htest.2 h'))

theorem rneDiv_spec (n d : ℕ) (hd : d ≠ 0) :
    |((rneDiv n d : ℕ) : ℚ) - (n : ℚ) / d| ≤ 1 / 2 := by
  have hdq : (0 : ℚ) < d := by exact_mod_cast Nat.pos_of_ne_zero hd
  have hdm := Nat.div_add_mod n d
  have hr := Nat.mod_lt n (Nat.pos_of_ne_zero hd)
  have hq : (n : ℚ) = d * ((n / d : ℕ) : ℚ) + ((n % d : ℕ) : ℚ) := by exact_mod_cast hdm.symm
  have hrq : ((n % d : ℕ) : ℚ) < d := by exact_mod_cast hr
  have hr0 : (0 : ℚ) ≤ ((n % d : ℕ) : ℚ) := by positivity
  have key : ∀ m : ℚ, |m * d - n| ≤ d / 2 → |m - (n : ℚ) / d| ≤ 1 / 2 := by
    intro m hm
    have : m - (n : ℚ) / d = (m * d - n) / d := by field_simp
    rw [this, abs_div, abs_of_pos hdq, div_le_iff₀ hdq]
    linarith
  unfold rneDiv
  simp only
  split_ifs with h1 h2 h3
  · apply key
    have : (2 * ((n % d : ℕ) : ℚ)) < d := by exact_mod_cast h1
    rw [abs_le]; constructor <;> nlinarith
  · apply key
    have : (d : ℚ) < 2 * ((n % d : ℕ) : ℚ) := by exact_mod_cast h2
    push_cast
    rw [abs_le]; constructor <;> nlinarith
  · apply key
    have : (2 * ((n % d : ℕ) : ℚ)) = d := by
      have : 2 * (n % d) = d := by omega
      exact_mod_cast this
    rw [abs_le]; constructor <;> nlinarith
  · apply key
    have : (2 * ((n % d : ℕ) : ℚ)) = d := by
      have : 2 * (n % d) = d := by omega
      exact_mod_cast this
    push_cast
    rw [abs_le]; constructor <;> nlinarith

theorem rneDiv_one (n : ℕ) : rneDiv n 1 = n := by
  simp [rneDiv, Nat.mod_one]

theorem cast_sign_mul_natAbs (x : ℤ) : (x.sign : ℚ) * (x.natAbs : ℚ) = (x : ℚ) := by
  have h := Int.sign_mul_natAbs x
  calc (x.sign : ℚ) * (x.natAbs : ℚ) = ((x.sign * (x.natAbs : ℤ) : ℤ) : ℚ) := by
        rw [Int.cast_mul, Int.cast_natCast]
    _ = (x : ℚ) := by rw [h]

theorem roundPrec_den_ne_zero (prec : ℕ) (x : BigFloat) : (roundPrec prec x).den ≠ 0 := by
  unfold roundPrec
  split_ifs with h
  · simp
  · simp

theorem roundPrec_err (prec : ℕ) (x : BigFloat) (hd : x.den ≠ 0) :
    |(roundPrec prec x).toRat - x.toRat| ≤ |x.toRat| / 2 ^ prec := by
  by_cases h0 : x.num = 0
  · simp [roundPrec, h0, BigFloat.toRat]
  have hN : x.num.natAbs ≠ 0 := by simpa using h0
  have hdq : (0 : ℚ) < x.den := by exact_mod_cast Nat.pos_of_ne_zero hd
  have hNq : (0 : ℚ) < x.num.natAbs := by exact_mod_cast Nat.pos_of_ne_zero hN
  obtain ⟨hk1, hk2⟩ := ilog2_spec x.num.natAbs x.den hN hd
  set k := ilog2 x.num.natAbs x.den with hk
  set e : ℤ := k + 1 - (prec : ℤ) with he
  have hm := rneDiv_spec (x.num.natAbs * 2 ^ (-e).toNat) (x.den * 2 ^ e.toNat)
    (by positivity)
  set m := rneDiv (x.num.natAbs * 2 ^ (-e).toNat) (x.den * 2 ^ e.toNat) with hmdef
  have hr : roundPrec prec x = ⟨x.num.sign * (m : ℤ) * 2 ^ e.toNat, 2 ^ (-e).toNat⟩ := by
    unfold roundPrec
    rw [if_neg (by simp [h0, hd])]
  have h2e : (2 : ℚ) ^ e = (2 : ℚ) ^ e.toNat / (2 : ℚ) ^ (-e).toNat := two_zpow_split e
  have hpe : (0 : ℚ) < (2 : ℚ) ^ e := by positivity
  have hp1 : (0 : ℚ) < (2 : ℚ) ^ e.toNat := by positivity
  have hp2 : (0 : ℚ) < (2 : ℚ) ^ (-e).toNat := by positivity
  -- the value of the rounded float
  have hval : (roundPrec prec x).toRat = (x.num.sign : ℚ) * m * (2 : ℚ) ^ e := by
    rw [hr, h2e]
    simp only [BigFloat.toRat]
    push_cast
    field_simp
  have hx : x.toRat = (x.num.sign : ℚ) * ((x.num.natAbs : ℚ) / x.den) := by
    simp only [BigFloat.toRat]
    rw [← cast_sign_mul_natAbs x.num]; ring
  have hy : ((x.num.natAbs * 2 ^ (-e).toNat : ℕ) : ℚ) / ((x.den * 2 ^ e.toNat : ℕ) : ℚ)
      = ((x.num.natAbs : ℚ) / x.den) / (2 : ℚ) ^ e := by
    rw [h2e]; push_cast; field_simp
  rw [hy] at hm
  have hsign : |(x.num.sign : ℚ)| = 1 := by
    rcases lt_trichotomy x.num 0 with h | h | h
    · simp [Int.sign_eq_neg_one_of_neg h]
    · exact absurd h h0
    · simp [Int.sign_eq_one_of_pos h]
  have habsx : |x.toRat| = (x.num.natAbs : ℚ) / x.den := by
    rw [hx, abs_mul, hsign, one_mul, abs_of_pos (by positivity)]
  rw [habsx, hval, hx]
  have hfac : (x.num.sign : ℚ) * m * (2 : ℚ) ^ e - (x.num.sign : ℚ) * ((x.num.natAbs : ℚ) / x.den)
      = (x.num.sign : ℚ) * ((m - ((x.num.natAbs : ℚ) / x.den) / (2 : ℚ) ^ e) * (2 : ℚ) ^ e) := by
    field_simp
    ring
  rw [hfac, abs_mul, hsign, one_mul, abs_mul, abs_of_pos hpe]
  have hke : (2 : ℚ) ^ e = (2 : ℚ) ^ k * 2 / 2 ^ prec := by
    rw [he, zpow_sub₀ (by norm_num), zpow_add₀ (by norm_num)]; simp
  have hpp : (0 : ℚ) < 2 ^ prec := by positivity
  calc |(m : ℚ) - ((x.num.natAbs : ℚ) / x.den) / (2 : ℚ) ^ e| * (2 : ℚ) ^ e
      ≤ 1 / 2 * (2 : ℚ) ^ e := by gcongr
    _ = (2 : ℚ) ^ k / 2 ^ prec := by rw [hke]; ring
    _ ≤ ((x.num.natAbs : ℚ) / x.den) / 2 ^ prec := by gcongr

theorem SetInt_den_ne_zero (prec : ℕ) (x : ℤ) : (BigFloat.SetInt prec x).den ≠ 0 :=
  roundPrec_den_ne_zero prec _

theorem SetInt_exact (prec : ℕ) (x : ℤ) (hx : x.natAbs < 2 ^ prec) :
    (BigFloat.SetInt prec x).toRat = x := by
  by_cases h0 : x = 0
  · simp [BigFloat.SetInt, roundPrec, h0, BigFloat.toRat]
  have hN : x.natAbs ≠ 0 := by simpa using h0
  obtain ⟨hk1, hk2⟩ := ilog2_spec x.natAbs 1 hN one_ne_zero
  set k := ilog2 x.natAbs 1 with hk
  have hkp : k < prec := by
    have h1 : (2 : ℚ) ^ k < (2 : ℚ) ^ (prec : ℤ) := by
      have : ((x.natAbs : ℕ) : ℚ) < 2 ^ prec := by exact_mod_cast hx
      calc (2 : ℚ) ^ k ≤ (x.natAbs : ℚ) / (1 : ℕ) := hk1
        _ = x.natAbs := by simp
        _ < 2 ^ (prec : ℤ) := by simpa using this
    exact (zpow_lt_zpow_iff_right₀ (by norm_num : (1 : ℚ) < 2)).1 h1
  have he : (k + 1 - (prec : ℤ)).toNat = 0 := by
    apply Int.toNat_eq_zero.2; omega
  unfold BigFloat.SetInt roundPrec
  rw [if_neg (by simp [h0])]
  simp only [← hk, he, pow_zero, mul_one, rneDiv_one, BigFloat.toRat]
  rw [Int.cast_mul, Int.cast_natCast, Nat.cast_mul, ← mul_assoc, cast_sign_mul_natAbs,
    mul_div_assoc, div_self, mul_one]
  positivity

theorem Quo_den_ne_zero (prec : ℕ) (x y : BigFloat) : (BigFloat.Quo prec x y).den ≠ 0 :=
  roundPrec_den_ne_zero prec _

theorem Mul_den_ne_zero (prec : ℕ) (x y : BigFloat) : (BigFloat.Mul prec x y).den ≠ 0 :=
  roundPrec_den_ne_zero prec _

theorem Quo_err (prec : ℕ) (x y : BigFloat) (hx : x.den ≠ 0) (hy : y.den ≠ 0)
    (hy0 : y.num ≠ 0) :
    |(BigFloat.Quo prec x y).toRat - x.toRat / y.toRat| ≤ |x.toRat / y.toRat| / 2 ^ prec := by
  have hraw : (⟨x.num * (y.den : ℤ) * y.num.sign, x.den * y.num.natAbs⟩ : BigFloat).toRat
      = x.toRat / y.toRat := by
    have hxd : (x.den : ℚ) ≠ 0 := by exact_mod_cast hx
    have hyd : (y.den : ℚ) ≠ 0 := by exact_mod_cast hy
    have hyn : (y.num : ℚ) ≠ 0 := by exact_mod_cast hy0
    have hya : (y.num.natAbs : ℚ) ≠ 0 := by
      have : y.num.natAbs ≠ 0 := by simpa using hy0
      exact_mod_cast this
    simp only [BigFloat.toRat]
    rw [Int.cast_mul, Int.cast_mul, Int.cast_natCast, Nat.cast_mul]
    rw [div_div_eq_mul_div, div_eq_div_iff (mul_ne_zero hxd hya) hyn, div_mul_eq_mul_div,
      div_mul_eq_mul_div, eq_div_iff hxd]
    have h := cast_sign_mul_natAbs y.num
    calc (x.num : ℚ) * y.den * y.num.sign * y.num * x.den
        = (x.num : ℚ) * y.den * y.num * x.den * y.num.sign := by ring
      _ = (x.num : ℚ) * y.den * (y.num.sign * y.num.natAbs) * x.den * y.num.sign := by rw [h]
      _ = (x.num : ℚ) * y.den * (x.den * y.num.natAbs) * (y.num.sign * y.num.sign) := by ring
      _ = (x.num : ℚ) * y.den * (x.den * y.num.natAbs) := by
          have hs : (y.num.sign : ℚ) * y.num.sign = 1 := by
            rcases lt_trichotomy y.num 0 with h | h | h
            · simp [Int.sign_eq_neg_one_of_neg h]
            · exact absurd h hy0
            · simp [Int.sign_eq_one_of_pos h]
          rw [hs, mul_one]
  have hden : (⟨x.num * (y.den : ℤ) * y.num.sign, x.den * y.num.natAbs⟩ : BigFloat).den ≠ 0 := by
    have : y.num.natAbs ≠ 0 := by simpa using hy0
    exact mul_ne_zero hx this
  have h := roundPrec_err prec _ hden
  rw [hraw] at h
  exact h

theorem Mul_err (prec : ℕ) (x y : BigFloat) (hx : x.den ≠ 0) (hy : y.den ≠ 0) :
    |(BigFloat.Mul prec x y).toRat - x.toRat * y.toRat| ≤ |x.toRat * y.toRat| / 2 ^ prec := by
  have hraw : (⟨x.num * y.num, x.den * y.den⟩ : BigFloat).toRat = x.toRat * y.toRat := by
    simp only [BigFloat.toRat]
    rw [Int.cast_mul, Nat.cast_mul, mul_div_mul_comm]
  have h := roundPrec_err prec ⟨x.num * y.num, x.den * y.den⟩ (mul_ne_zero hx hy)
  rw [hraw] at h
  exact h

/-- The tentative share differs from the exact quotient `pool * part / total` by at
most one half plus three relative rounding units, when the three integers fit the
mantissa. -/
theorem tentativeShare_err (prec : ℕ) (R : BigFloat → ℤ) (hR : NearestInt R)
    (total part pool : ℤ) (ht : total ≠ 0) (h1 : total.natAbs < 2 ^ prec)
    (h2 : part.natAbs < 2 ^ prec) (h3 : pool.natAbs < 2 ^ prec) :
    |((tentativeShare prec R total part pool : ℤ) : ℚ) - (pool : ℚ) * part / total|
      ≤ 1 / 2 + 3 * |(pool : ℚ) * part / total| / 2 ^ prec := by
  have ht' : (BigFloat.SetInt prec total).num ≠ 0 := by
    intro h
    have h4 := SetInt_exact prec total h1
    simp only [BigFloat.toRat, h, Int.cast_zero, zero_div] at h4
    exact ht (by exact_mod_cast h4.symm)
  have hq := Quo_err prec (BigFloat.SetInt prec part) (BigFloat.SetInt prec total)
    (SetInt_den_ne_zero _ _) (SetInt_den_ne_zero _ _) ht'
  rw [SetInt_exact prec total h1, SetInt_exact prec part h2] at hq
  set u := (BigFloat.Quo prec (BigFloat.SetInt prec part) (BigFloat.SetInt prec total)).toRat
    with hu
  have hm := Mul_err prec (BigFloat.SetInt prec pool)
    (BigFloat.Quo prec (BigFloat.SetInt prec part) (BigFloat.SetInt prec total))
    (SetInt_den_ne_zero _ _) (Quo_den_ne_zero _ _ _)
  rw [SetInt_exact prec pool h3, ← hu] at hm
  have hr := hR _ (Mul_den_ne_zero prec (BigFloat.SetInt prec pool)
    (BigFloat.Quo prec (BigFloat.SetInt prec part) (BigFloat.SetInt prec total)))
  set v := (BigFloat.Mul prec (BigFloat.SetInt prec pool)
    (BigFloat.Quo prec (BigFloat.SetInt prec part) (BigFloat.SetInt prec total))).toRat with hv
  have hs : ((tentativeShare prec R total part pool : ℤ) : ℚ)
      = ((R (BigFloat.Mul prec (BigFloat.SetInt prec pool)
          (BigFloat.Quo prec (BigFloat.SetInt prec part) (BigFloat.SetInt prec total))) : ℤ) : ℚ) := rfl
  rw [hs]
  set s : ℚ := ((R (BigFloat.Mul prec (BigFloat.SetInt prec pool)
          (BigFloat.Quo prec (BigFloat.SetInt prec part) (BigFloat.SetInt prec total))) : ℤ) : ℚ)
  set ε : ℚ := 1 / 2 ^ prec with hε
  have hε0 : 0 < ε := by positivity
  have hε1 : ε ≤ 1 := by
    rw [hε, div_le_one (by positivity)]
    exact one_le_pow₀ (by norm_num)
  set r : ℚ := (part : ℚ) / total with hrdef
  have hq' : |u - r| ≤ |r| * ε := by rw [hε, mul_one_div]; exact hq
  have hm' : |v - pool * u| ≤ |(pool : ℚ) * u| * ε := by rw [hε, mul_one_div]; exact hm
  have hexact : (pool : ℚ) * part / total = pool * r := by rw [hrdef]; ring
  rw [hexact]
  have hu_abs : |u| ≤ |r| * (1 + ε) := by
    have := abs_sub_abs_le_abs_sub u r
    linarith
  have h5 : |(pool : ℚ) * u - pool * r| ≤ |(pool : ℚ) * r| * ε := by
    rw [← mul_sub, abs_mul, abs_mul]
    have := mul_le_mul_of_nonneg_left hq' (abs_nonneg (pool : ℚ))
    linarith
  have h6 : |(pool : ℚ) * u| ≤ |(pool : ℚ) * r| * (1 + ε) := by
    rw [abs_mul, abs_mul]
    have := mul_le_mul_of_nonneg_left hu_abs (abs_nonneg (pool : ℚ))
    linarith
  have h7 : |v - pool * r| ≤ |(pool : ℚ) * r| * (3 * ε) := by
    have hA : |v - pool * r| ≤ |v - pool * u| + |(pool : ℚ) * u - pool * r| := by
      have := abs_add (v - pool * u) ((pool : ℚ) * u - pool * r)
      simpa using this
    have hB : |(pool : ℚ) * u| * ε ≤ |(pool : ℚ) * r| * (1 + ε) * ε :=
      mul_le_mul_of_nonneg_right h6 hε0.le
    have hC : |(pool : ℚ) * r| * (1 + ε) * ε ≤ |(pool : ℚ) * r| * 2 * ε := by
      have h0 : 0 ≤ |(pool : ℚ) * r| * ε := mul_nonneg (abs_nonneg _) hε0.le
      have := mul_le_mul_of_nonneg_left hε1 h0
      linarith
    linarith
  have h8 : |s - pool * r| ≤ |s - v| + |v - pool * r| := by
    have := abs_add (s - v) (v - pool * r)
    simpa using this
  have h9 : 3 * |(pool : ℚ) * r| / 2 ^ prec = |(pool : ℚ) * r| * (3 * ε) := by
    rw [hε]; ring
  rw [h9]
  linarith

theorem toRat_nonneg_of_num_nonneg (x : BigFloat) (h : 0 ≤ x.num) : 0 ≤ x.toRat := by
  unfold BigFloat.toRat
  have h1 : (0 : ℚ) ≤ (x.num : ℚ) := by exact_mod_cast h
  have h2 : (0 : ℚ) ≤ (x.den : ℚ) := by positivity
  exact div_nonneg h1 h2

theorem roundPrec_num_nonneg (prec : ℕ) (x : BigFloat) (h : 0 ≤ x.num) :
    0 ≤ (roundPrec prec x).num := by
  unfold roundPrec
  split_ifs with h0
  · simp
  · simp only
    have hs : 0 ≤ x.num.sign := Int.sign_nonneg.2 h
    positivity

theorem SetInt_num_nonneg (prec : ℕ) (x : ℤ) (h : 0 ≤ x) : 0 ≤ (BigFloat.SetInt prec x).num :=
  roundPrec_num_nonneg prec _ h

theorem Quo_num_nonneg (prec : ℕ) (x y : BigFloat) (hx : 0 ≤ x.num) (hy : 0 ≤ y.num) :
    0 ≤ (BigFloat.Quo prec x y).num := by
  apply roundPrec_num_nonneg
  have hs : 0 ≤ y.num.sign := Int.sign_nonneg.2 hy
  positivity

theorem Mul_num_nonneg (prec : ℕ) (x y : BigFloat) (hx : 0 ≤ x.num) (hy : 0 ≤ y.num) :
    0 ≤ (BigFloat.Mul prec x y).num := by
  apply roundPrec_num_nonneg
  positivity

theorem NearestInt.nonneg {R : BigFloat → ℤ} (hR : NearestInt R) (x : BigFloat)
    (hd : x.den ≠ 0) (hx : 0 ≤ x.toRat) : 0 ≤ R x := by
  have h := abs_le.1 (hR x hd)
  have h1 : (-1 : ℚ) < ((R x : ℤ) : ℚ) := by linarith [h.1]
  have h2 : (-1 : ℤ) < R x := by exact_mod_cast h1
  omega

/-- The tentative share of non-negative amounts is not negative, under any
nearest-integer rounding. -/
theorem tentativeShare_nonneg (prec : ℕ) (R : BigFloat → ℤ) (hR : NearestInt R)
    (total part pool : ℤ) (ht : 0 ≤ total) (hp : 0 ≤ part) (hpool : 0 ≤ pool) :
    0 ≤ tentativeShare prec R total part pool := by
  unfold tentativeShare
  apply hR.nonneg _ (Mul_den_ne_zero _ _ _)
  apply toRat_nonneg_of_num_nonneg
  exact Mul_num_nonneg _ _ _ (SetInt_num_nonneg _ _ hpool)
    (Quo_num_nonneg _ _ _ (SetInt_num_nonneg _ _ hp) (SetInt_num_nonneg _ _ ht))

theorem roundHalfUp_nearest : NearestInt roundHalfUp := by
  intro x hd
  have hdq : (0 : ℚ) < x.den := by exact_mod_cast Nat.pos_of_ne_zero hd
  have hdz : (0 : ℤ) < 2 * (x.den : ℤ) := by
    have : (0 : ℤ) < x.den := by exact_mod_cast Nat.pos_of_ne_zero hd
    omega
  have h1 := Int.emod_add_ediv (2 * x.num + (x.den : ℤ)) (2 * (x.den : ℤ))
  have h2 := Int.emod_nonneg (2 * x.num + (x.den : ℤ)) (ne_of_gt hdz)
  have h3 := Int.emod_lt_of_pos (2 * x.num + (x.den : ℤ)) hdz
  set q := (2 * x.num + (x.den : ℤ)) / (2 * (x.den : ℤ)) with hq
  set r := (2 * x.num + (x.den : ℤ)) % (2 * (x.den : ℤ)) with hr
  have h1q : (r : ℚ) + 2 * (x.den : ℚ) * q = 2 * x.num + x.den := by exact_mod_cast h1
  have h2q : (0 : ℚ) ≤ r := by exact_mod_cast h2
  have h3q : (r : ℚ) < 2 * x.den := by exact_mod_cast h3
  have hval : ((roundHalfUp x : ℤ) : ℚ) = q := rfl
  rw [hval]
  simp only [BigFloat.toRat]
  have : (q : ℚ) - (x.num : ℚ) / x.den = ((x.den : ℚ) - r) / (2 * x.den) := by
    field_simp
    linear_combination (x.den : ℚ) * h1q
  rw [this, abs_div, abs_of_pos (by positivity : (0 : ℚ) < 2 * x.den), div_le_iff₀ (by positivity),
    abs_le]
  constructor <;> linarith

/-- An integer within less than one of another integer is that integer. -/
theorem int_eq_of_abs_sub_lt_one (a b : ℤ) (h : |(a : ℚ) - b| < 1) : a = b := by
  have h' : |((a - b : ℤ) : ℚ)| < 1 := by simpa using h
  have h2 : |a - b| < 1 := by exact_mod_cast h'
  have := abs_lt.1 h2
  omega

theorem tentativeShare_100_60 (prec : ℕ) (R : BigFloat → ℤ) (hprec : 24 ≤ prec)
    (hR : NearestInt R) : tentativeShare prec R 100 60 1000000 = 600000 := by
  have hp : (2 : ℕ) ^ 24 ≤ 2 ^ prec := Nat.pow_le_pow_right (by norm_num) hprec
  have hpq : ((2 : ℚ) ^ 24) ≤ (2 : ℚ) ^ prec := by exact_mod_cast hp
  have h := tentativeShare_err prec R hR 100 60 1000000 (by norm_num)
    (by simp; omega) (by simp; omega) (by simp; omega)
  apply int_eq_of_abs_sub_lt_one
  have he : ((1000000 : ℤ) : ℚ) * ((60 : ℤ) : ℚ) / ((100 : ℤ) : ℚ) = 600000 := by
    norm_num
  rw [he] at h
  have hb : 3 * |(600000 : ℚ)| / 2 ^ prec ≤ 3 * 600000 / 2 ^ 24 := by
    rw [abs_of_nonneg (by norm_num)]
    gcongr
  have : (3 : ℚ) * 600000 / 2 ^ 24 < 1 / 2 := by norm_num
  push_cast
  linarith

theorem tentativeShare_unit_stake (prec : ℕ) (R : BigFloat → ℤ) (hprec : 24 ≤ prec)
    (hR : NearestInt R) : tentativeShare prec R 999999 1 1000000 = 1 := by
  have hp : (2 : ℕ) ^ 24 ≤ 2 ^ prec := Nat.pow_le_pow_right (by norm_num) hprec
  have hpq : ((2 : ℚ) ^ 24) ≤ (2 : ℚ) ^ prec := by exact_mod_cast hp
  have h := tentativeShare_err prec R hR 999999 1 1000000 (by norm_num)
    (by simp; omega) (by simp; omega) (by simp; omega)
  have he : ((1000000 : ℤ) : ℚ) * ((1 : ℤ) : ℚ) / ((999999 : ℤ) : ℚ) = 1000000 / 999999 := by
    norm_num
  rw [he] at h
  have hb : 3 * |(1000000 : ℚ) / 999999| / 2 ^ prec ≤ 3 * (1000000 / 999999) / 2 ^ 24 := by
    rw [abs_of_nonneg (by norm_num)]
    gcongr
  have hs : (3 : ℚ) * (1000000 / 999999) / 2 ^ 24 < 1 / 4 := by norm_num
  have h4 := abs_le.1 h
  set s := tentativeShare prec R 999999 1 1000000 with hsdef
  have hlo : (0 : ℚ) < (s : ℚ) := by
    have : (1000000 : ℚ) / 999999 > 1 := by norm_num
    linarith [h4.1]
  have hhi : (s : ℚ) < 2 := by
    have : (1000000 : ℚ) / 999999 < 5 / 4 := by norm_num
    linarith [h4.2]
  have hlo' : (0 : ℤ) < s := by exact_mod_cast hlo
  have hhi' : s < (2 : ℤ) := by exact_mod_cast hhi
  omega

/-- C8. Single-holder full allocation: for every `totalRef > 0` and every pool amount,
the first call for a token (`dividedRef = 0`, `poolRemaining = poolTotal`) with
`partRef = totalRef` returns `share = poolTotal` and `finished = true` and leaves
`poolRemaining = 0`. -/
theorem C8_single_holder_full_allocation (prec : ℕ) (RoundAmount : BigFloat → ℤ)
    (totalRef poolTotal : ℤ) (hTotal : 0 < totalRef) :
    DivideByProportion prec RoundAmount totalRef totalRef 0 poolTotal poolTotal
      = some ⟨poolTotal, true, totalRef, 0⟩ := by
  unfold DivideByProportion
  simp only [if_neg (ne_of_gt hTotal)]
  rw [if_pos (Or.inr (by simp))]
  simp

/-- The single holder of C8 with a stake of 100 and a pool of 1,000,000. -/
theorem C8_single_holder_full_allocation_witness :
    (0 : ℤ) < 100 ∧
    DivideByProportion 120 roundHalfUp 100 100 0 1000000 1000000
      = some ⟨1000000, true, 100, 0⟩ :=
  ⟨by decide, C8_single_holder_full_allocation 120 roundHalfUp 100 1000000 (by decide)⟩

/-- C9. The worked example: with `totalRef = 100` and a pool of 1,000,000, from
`dividedRef = 0` and `poolRemaining = 1,000,000`, the call for A (`partRef = 60`)
returns `(600000, false)` and the call for B (`partRef = 40`) then returns
`(400000, true)` and leaves `poolRemaining = 0`; this for every precision of at
least 24 bits and every nearest-integer `RoundAmount`. -/
theorem C9_worked_example (prec : ℕ) (RoundAmount : BigFloat → ℤ) (hprec : 24 ≤ prec)
    (hRound : NearestInt RoundAmount) :
    DivideByProportion prec RoundAmount 100 60 0 1000000 1000000
      = some ⟨600000, false, 60, 400000⟩ ∧
    DivideByProportion prec RoundAmount 100 40 60 1000000 400000
      = some ⟨400000, true, 100, 0⟩ := by
  have h := tentativeShare_100_60 prec RoundAmount hprec hRound
  constructor
  · unfold DivideByProportion
    simp only [h]
    decide
  · unfold DivideByProportion
    rw [if_neg (by decide)]
    simp only []
    rw [if_pos (Or.inr (by decide))]
    rfl

/-- The worked example of C9 at 120 bits with halves rounded upwards. -/
theorem C9_worked_example_witness :
    24 ≤ 120 ∧ NearestInt roundHalfUp ∧
    DivideByProportion 120 roundHalfUp 100 60 0 1000000 1000000
      = some ⟨600000, false, 60, 400000⟩ ∧
    DivideByProportion 120 roundHalfUp 100 40 60 1000000 400000
      = some ⟨400000, true, 100, 0⟩ :=
  ⟨by decide, roundHalfUp_nearest, C9_worked_example 120 roundHalfUp (by decide) roundHalfUp_nearest⟩

/-! ## The fee pool map -/

theorem FeeSumMap.get_set (m : FeeSumMap) (t : TokenTypeId) (v : ℤ) (t' : TokenTypeId) :
    (m.set t v).get t' = if t = t' then some v else m.get t' := by
  induction m with
  | nil => simp [FeeSumMap.set, FeeSumMap.get]
  | cons kv rest ih =>
    obtain ⟨k, w⟩ := kv
    by_cases hk : k = t
    · subst hk
      by_cases ht : k = t' <;> simp [FeeSumMap.set, FeeSumMap.get, ht]
    · by_cases ht : t = t'
      · subst ht
        simp [FeeSumMap.set, FeeSumMap.get, hk, ih]
      · by_cases hk' : k = t'
        · subst hk'
          simp [FeeSumMap.set, FeeSumMap.get, hk, ht]
        · simp [FeeSumMap.set, FeeSumMap.get, hk, hk', ih, ht]

theorem mergeFeeAccounts_get (env : Env) (accounts : List FeeAccount) :
    ∀ (m m' : FeeSumMap), mergeFeeAccounts env accounts m = .ok m' →
      ∀ t, (m'.get t).getD 0 = (m.get t).getD 0 + dividendPoolOf env accounts t := by
  induction accounts with
  | nil =>
    intro m m' h t
    simp only [mergeFeeAccounts, Except.ok.injEq] at h
    simp [dividendPoolOf, h]
  | cons fa rest ih =>
    intro m m' h t
    unfold mergeFeeAccounts at h
    cases hdec : env.BytesToTokenTypeId fa.Token with
    | error e => rw [hdec] at h; simp at h
    | ok tokenId =>
      rw [hdec] at h
      simp only at h
      have hpool : dividendPoolOf env (fa :: rest) t
          = (if tokenId = t then (env.splitDividendPool fa).1 else 0)
            + dividendPoolOf env rest t := by
        simp [dividendPoolOf, hdec]
      cases hget : m.get tokenId with
      | none =>
        rw [hget] at h
        simp only at h
        rw [ih _ _ h t, FeeSumMap.get_set, hpool]
        by_cases ht : tokenId = t
        · subst ht; simp [hget]
        · simp [ht]
      | some amt =>
        rw [hget] at h
        simp only at h
        rw [ih _ _ h t, FeeSumMap.get_set, hpool]
        by_cases ht : tokenId = t
        · subst ht; simp [hget, add_assoc]
        · simp [ht]

theorem mergeFeeAccounts_ok_iff (env : Env) (accounts : List FeeAccount) :
    ∀ m : FeeSumMap, (∃ m', mergeFeeAccounts env accounts m = .ok m') ↔
      GoodAccounts env accounts := by
  induction accounts with
  | nil => intro m; simp [mergeFeeAccounts, GoodAccounts]
  | cons fa rest ih =>
    intro m
    unfold mergeFeeAccounts
    cases hdec : env.BytesToTokenTypeId fa.Token with
    | error e =>
      simp only [GoodAccounts, List.mem_cons, forall_eq_or_imp, hdec]
      simp
    | ok tokenId =>
      simp only [GoodAccounts, List.mem_cons, forall_eq_or_imp, hdec]
      cases hget : m.get tokenId with
      | none => simp only; rw [ih]; simp [GoodAccounts]
      | some amt => simp only; rw [ih]; simp [GoodAccounts]

/-- What the merge loop leaves: the pool amounts, the periods it marked, and the
stores it does not touch. -/
theorem mergeLoop_spec (env : Env) (periods : List (ℕ × DexFeesByPeriod)) :
    ∀ (db : VmDb) (m : FeeSumMap) (db' : VmDb) (m' : FeeSumMap) (err : Option DexError),
      mergeLoop env periods db m = (db', m', err) →
      (∀ p, db'.dexFees p = db.dexFees p ∨
        ∃ fee, (p, fee) ∈ periods ∧ GoodAccounts env fee.FeesForDividend ∧
          db'.dexFees p = some { fee with FinishDividend := true }) ∧
      db'.fund = db.fund ∧ db'.events = db.events ∧ db'.vxFunds = db.vxFunds ∧
      db'.vxSumFunds = db.vxSumFunds ∧ db'.operatorFees = db.operatorFees ∧
      (err = none →
        (∀ pf ∈ periods, ∃ fee', db'.dexFees pf.1 = some fee' ∧ fee'.FinishDividend = true) ∧
        ∀ t, (m'.get t).getD 0 = (m.get t).getD 0 + mergedPool env periods t) ∧
      (∀ e, err = some e → ∃ pf ∈ periods, ¬ GoodAccounts env pf.2.FeesForDividend) := by
  induction periods with
  | nil =>
    intro db m db' m' err h
    simp only [mergeLoop, Prod.mk.injEq] at h
    obtain ⟨rfl, rfl, rfl⟩ := h
    simp [mergedPool]
  | cons pf rest ih =>
    intro db m db' m' err h
    obtain ⟨pId, fee⟩ := pf
    unfold mergeLoop at h
    cases hm : mergeFeeAccounts env fee.FeesForDividend m with
    | error e =>
      rw [hm] at h
      simp only [Prod.mk.injEq] at h
      obtain ⟨rfl, rfl, rfl⟩ := h
      refine ⟨fun p => Or.inl rfl, rfl, rfl, rfl, rfl, rfl, by simp, ?_⟩
      intro e' _
      refine ⟨(pId, fee), by simp, ?_⟩
      intro hgood
      obtain ⟨m2, hm2⟩ := (mergeFeeAccounts_ok_iff env fee.FeesForDividend m).2 hgood
      rw [hm] at hm2
      cases hm2
    | ok m1 =>
      rw [hm] at h
      simp only at h
      have hgood : GoodAccounts env fee.FeesForDividend :=
        (mergeFeeAccounts_ok_iff env fee.FeesForDividend m).1 ⟨m1, hm⟩
      obtain ⟨h1, h2, h3, h4, h5, h6, h7, h8⟩ := ih _ _ _ _ _ h
      refine ⟨?_, ?_, ?_, ?_, ?_, ?_, ?_, ?_⟩
      · intro p
        rcases h1 p with hp | ⟨fee', hmem, hg, hp⟩
        · by_cases hpp : p = pId
          · subst hpp
            right
            refine ⟨fee, by simp, hgood, ?_⟩
            rw [hp]
            simp [MarkDexFeesFinishDividend]
          · left
            rw [hp]
            simp [MarkDexFeesFinishDividend, Function.update_noteq hpp]
        · right
          exact ⟨fee', List.mem_cons_of_mem _ hmem, hg, hp⟩
      · rw [h2]; rfl
      · rw [h3]; rfl
      · rw [h4]; rfl
      · rw [h5]; rfl
      · rw [h6]; rfl
      · intro herr
        obtain ⟨h7a, h7b⟩ := h7 herr
        constructor
        · intro pf hpf
          rcases List.mem_cons.1 hpf with rfl | hpf
          · rcases h1 pId with hp | ⟨fee', _, _, hp⟩
            · refine ⟨{ fee with FinishDividend := true }, ?_, rfl⟩
              rw [hp]
              simp [MarkDexFeesFinishDividend]
            · exact ⟨_, hp, rfl⟩
          · exact h7a pf hpf
        · intro t
          rw [h7b t, mergeFeeAccounts_get env _ _ _ hm t]
          simp [mergedPool, add_assoc]
      · intro e he
        obtain ⟨pf, hpf, hbad⟩ := h8 e he
        exact ⟨pf, List.mem_cons_of_mem _ hpf, hbad⟩

theorem mergedPool_perm (env : Env) {l₁ l₂ : List (ℕ × DexFeesByPeriod)} (h : l₁.Perm l₂)
    (t : TokenTypeId) : mergedPool env l₁ t = mergedPool env l₂ t := by
  unfold mergedPool
  exact (h.map _).sum_eq

/-! ## Stake matching -/

theorem findLastCheckpoint_eq_none (funds : List VxFundWithPeriod) (periodId : ℕ) :
    findLastCheckpoint funds periodId = none ↔ ∀ c ∈ funds, periodId < c.Period := by
  induction funds with
  | nil => simp [findLastCheckpoint]
  | cons f rest ih =>
    unfold findLastCheckpoint
    cases hr : findLastCheckpoint rest periodId with
    | none =>
      have := ih.1 hr
      simp only [List.mem_cons, forall_eq_or_imp]
      constructor
      · intro h
        split_ifs at h with hf
        exact ⟨by omega, this⟩
      · intro h
        rw [if_neg (by omega)]
    | some ig =>
      simp only [List.mem_cons, forall_eq_or_imp]
      constructor
      · intro h; cases h
      · intro h
        have := ih.2 h.2
        rw [hr] at this
        cases this

theorem Match_found_eq_false (vxFunds : VxFunds) (periodId : ℕ) (checkDelete : Bool) :
    (MatchVxFundsByPeriod vxFunds periodId checkDelete).found = false ↔
      ∀ c ∈ vxFunds.Funds, periodId < c.Period := by
  rw [← findLastCheckpoint_eq_none]
  unfold MatchVxFundsByPeriod
  cases h : findLastCheckpoint vxFunds.Funds periodId with
  | none => simp
  | some ig => simp

theorem Match_nondestructive_vxFunds (vxFunds : VxFunds) (periodId : ℕ) :
    (MatchVxFundsByPeriod vxFunds periodId false).vxFunds = vxFunds := by
  unfold MatchVxFundsByPeriod
  cases h : findLastCheckpoint vxFunds.Funds periodId with
  | none => rfl
  | some ig => simp

theorem SaveVxSumFunds_same (db : VmDb) (v : VxFunds) (h : db.vxSumFunds = some v) :
    SaveVxSumFunds db v = db := by
  cases db
  simp only [SaveVxSumFunds] at *
  simp [h]

/-! ## What the scan leaves untouched -/

theorem housekeep_frame (env : Env) (db : VmDb) (address : Address) (m : MatchResult) :
    (housekeep env db address m).dexFees = db.dexFees ∧
    (housekeep env db address m).vxSumFunds = db.vxSumFunds ∧
    (housekeep env db address m).operatorFees = db.operatorFees ∧
    (housekeep env db address m).fund = db.fund ∧
    (housekeep env db address m).events = db.events := by
  unfold housekeep
  split_ifs <;> simp [DeleteVxFunds, SaveVxFunds]

theorem allocateToken_frame (env : Env) (vxSumAmt userVxAmount : ℤ) (address : Address)
    (tk tk' : AmountWithToken) (st st' : TokenLoopState)
    (h : allocateToken env vxSumAmt userVxAmount address tk st = some (tk', st')) :
    st'.db.dexFees = st.db.dexFees ∧ st'.db.vxSumFunds = st.db.vxSumFunds ∧
    st'.db.operatorFees = st.db.operatorFees ∧ st'.db.fund = st.db.fund ∧
    st'.db.vxFunds = st.db.vxFunds := by
  unfold allocateToken at h
  simp only at h
  split at h
  · split at h
    · cases h
    · simp only [Option.some.injEq, Prod.mk.injEq] at h
      obtain ⟨-, rfl⟩ := h
      simp [AddFeeDividendEvent]
  · cases h

theorem tokenLoop_frame (env : Env) (vxSumAmt userVxAmount : ℤ) (address : Address)
    (tokens : List AmountWithToken) :
    ∀ (st : TokenLoopState) (tokens' : List AmountWithToken) (st' : TokenLoopState),
      tokenLoop env vxSumAmt userVxAmount address tokens st = some (tokens', st') →
      st'.db.dexFees = st.db.dexFees ∧ st'.db.vxSumFunds = st.db.vxSumFunds ∧
      st'.db.operatorFees = st.db.operatorFees ∧ st'.db.fund = st.db.fund ∧
      st'.db.vxFunds = st.db.vxFunds := by
  induction tokens with
  | nil =>
    intro st tokens' st' h
    simp only [tokenLoop, Option.some.injEq, Prod.mk.injEq] at h
    obtain ⟨-, rfl⟩ := h
    exact ⟨rfl, rfl, rfl, rfl, rfl⟩
  | cons tk rest ih =>
    intro st tokens' st' h
    unfold tokenLoop at h
    split at h
    · simp only [Option.map_eq_some'] at h
      obtain ⟨r, hr, hrr⟩ := h
      simp only [Prod.mk.injEq] at hrr
      obtain ⟨-, rfl⟩ := hrr
      exact ih _ _ _ hr
    · split at h
      · cases h
      · rename_i tk1 st1 hal
        simp only [Option.map_eq_some'] at h
        obtain ⟨q, hq, hqq⟩ := h
        simp only [Prod.mk.injEq] at hqq
        obtain ⟨-, rfl⟩ := hqq
        have h1 := ih _ _ _ hq
        have h2 := allocateToken_frame env _ _ _ _ _ _ _ hal
        exact ⟨h1.1.trans h2.1, h1.2.1.trans h2.2.1, h1.2.2.1.trans h2.2.2.1,
          h1.2.2.2.1.trans h2.2.2.2.1, h1.2.2.2.2.trans h2.2.2.2.2⟩

theorem scanLoop_frame (env : Env) (periodId : ℕ) (vxSumAmt : ℤ)
    (entries : List (Bytes × Bytes)) :
    ∀ (st : ScanState) (db' : VmDb) (err : Option DexError),
      scanLoop env periodId vxSumAmt entries st = some (db', err) →
      db'.dexFees = st.db.dexFees ∧ db'.vxSumFunds = st.db.vxSumFunds ∧
      db'.operatorFees = st.db.operatorFees := by
  induction entries with
  | nil =>
    intro st db' err h
    simp only [scanLoop, Option.some.injEq, Prod.mk.injEq] at h
    obtain ⟨rfl, -⟩ := h
    exact ⟨rfl, rfl, rfl⟩
  | cons kv rest ih =>
    intro st db' err h
    obtain ⟨key, value⟩ := kv
    unfold scanLoop at h
    split_ifs at h with h1 h2
    · simp only [Option.some.injEq, Prod.mk.injEq] at h
      obtain ⟨rfl, -⟩ := h
      exact ⟨rfl, rfl, rfl⟩
    · exact ih _ _ _ h
    · split at h
      · simp only [Option.some.injEq, Prod.mk.injEq] at h
        obtain ⟨rfl, -⟩ := h
        exact ⟨rfl, rfl, rfl⟩
      · split at h
        · simp only [Option.some.injEq, Prod.mk.injEq] at h
          obtain ⟨rfl, -⟩ := h
          exact ⟨rfl, rfl, rfl⟩
        · simp only at h
          split_ifs at h with h3 h4
          · exact ih _ _ _ h
          · have := ih _ _ _ h
            have hk := housekeep_frame env st.db ‹Address› (MatchVxFundsByPeriod ‹VxFunds› periodId true)
            simp only at this
            exact ⟨this.1.trans hk.1, this.2.1.trans hk.2.1, this.2.2.trans hk.2.2.1⟩
          · split at h
            · cases h
            · rename_i tokens tl htl
              have ht := tokenLoop_frame env _ _ _ _ _ _ _ htl
              have hk := housekeep_frame env st.db ‹Address› (MatchVxFundsByPeriod ‹VxFunds› periodId true)
              simp only at ht
              split at h
              · simp only [Option.some.injEq, Prod.mk.injEq] at h
                obtain ⟨rfl, -⟩ := h
                exact ⟨ht.1.trans hk.1, ht.2.1.trans hk.2.1, ht.2.2.1.trans hk.2.2.1⟩
              · rename_i db2 hup
                have := ih _ _ _ h
                simp only [UpdateFund, Except.ok.injEq] at hup
                subst hup
                simp only at this
                exact ⟨this.1.trans (ht.1.trans hk.1), this.2.1.trans (ht.2.1.trans hk.2.1),
                  this.2.2.trans (ht.2.2.1.trans hk.2.2.1)⟩

/-! ## The entry of `DoFeesDividend` -/

theorem mem_GetNotFinish (db : VmDb) (periodId : ℕ) (p : ℕ) (fee : DexFeesByPeriod) :
    (p, fee) ∈ GetNotFinishDividendDexFeesByPeriodMap db periodId ↔
      p ≤ periodId ∧ db.dexFees p = some fee ∧ fee.FinishDividend = false := by
  unfold GetNotFinishDividendDexFeesByPeriodMap
  simp only [List.mem_filterMap, List.mem_range]
  constructor
  · rintro ⟨q, hq, h⟩
    cases hfee : db.dexFees q with
    | none => rw [hfee] at h; simp at h
    | some fee' =>
      rw [hfee] at h
      simp only at h
      split_ifs at h with hfin
      simp only [Option.some.injEq, Prod.mk.injEq] at h
      obtain ⟨rfl, rfl⟩ := h
      exact ⟨by omega, hfee, by simpa using hfin⟩
  · rintro ⟨hp, hfee, hfin⟩
    exact ⟨p, by omega, by simp [hfee, hfin]⟩

/-- Past the stake check `DoFeesDividend` is the merge loop followed by the scan. -/
theorem DoFeesDividend_past_check (env : Env) (ord : MapOrder) (db : VmDb) (periodId : ℕ)
    (hne : GetNotFinishDividendDexFeesByPeriodMap db periodId ≠ [])
    (hpos : 0 < stakeSumAt db periodId) :
    DoFeesDividend env ord db periodId =
      match mergeLoop env (ord (GetNotFinishDividendDexFeesByPeriodMap db periodId)) db [] with
      | (db1, _, some err) => some (db1, some err)
      | (db1, feeSumMap, none) =>
        scanLoop env periodId (stakeSumAt db periodId) db1.vxFunds
          ⟨db1, feeSumMap, MapToAmountWithTokens feeSumMap, fun _ => none, fun _ => none⟩ := by
  unfold DoFeesDividend
  have hlen : (GetNotFinishDividendDexFeesByPeriodMap db periodId).length ≠ 0 := by
    simpa using hne
  simp only [if_neg hlen]
  unfold stakeSumAt at hpos ⊢
  cases hv : GetVxSumFunds db with
  | none => rw [hv] at hpos; simp at hpos
  | some v =>
    rw [hv] at hpos
    simp only at hpos ⊢
    have hfound : (MatchVxFundsByPeriod v periodId false).found = true := by
      by_contra hnf
      have hnf' : (MatchVxFundsByPeriod v periodId false).found = false := by simpa using hnf
      have hamt : (MatchVxFundsByPeriod v periodId false).amount = 0 := by
        unfold MatchVxFundsByPeriod at hnf' ⊢
        cases h : findLastCheckpoint v.Funds periodId with
        | none => rfl
        | some ig => rw [h] at hnf'; simp at hnf'
      rw [hamt] at hpos
      simp at hpos
    have hsave : (if (MatchVxFundsByPeriod v periodId false).needUpdate = true then
        SaveVxSumFunds db (MatchVxFundsByPeriod v periodId false).vxFunds else db) = db := by
      split_ifs
      · rw [Match_nondestructive_vxFunds]
        exact SaveVxSumFunds_same db v hv
      · rfl
    simp only [hfound, Bool.not_true, Bool.false_eq_true, if_false, hsave, if_neg (not_le.2 hpos)]
    try rfl

/-- C4. Deferred settlement: when the global stake sum is absent, has no checkpoint at
or before the period, or resolves to an amount that is not positive,
`DoFeesDividend` returns success, marks none of the collected unsettled periods
finished (the fee store and so the collected periods are as before) and changes no
balance of the fund ledger. -/
theorem C4_deferred_settlement (env : Env) (ord : MapOrder) (db : VmDb) (periodId : ℕ)
    (hdefer : GetVxSumFunds db = none ∨
      ∃ vxSumFunds, GetVxSumFunds db = some vxSumFunds ∧
        ((∀ c ∈ vxSumFunds.Funds, periodId < c.Period) ∨
          ((MatchVxFundsByPeriod vxSumFunds periodId false).amount : ℤ) ≤ 0)) :
    ∃ db', DoFeesDividend env ord db periodId = some (db', none) ∧
      (∀ p, db'.dexFees p = db.dexFees p) ∧
      GetNotFinishDividendDexFeesByPeriodMap db' periodId
        = GetNotFinishDividendDexFeesByPeriodMap db periodId ∧
      (∀ address token, db'.fund address token = db.fund address token) := by
  refine ⟨db, ?_, fun _ => rfl, rfl, fun _ _ => rfl⟩
  unfold DoFeesDividend
  simp only
  split_ifs with h0
  · rfl
  · rcases hdefer with hnone | ⟨v, hv, hcase⟩
    · rw [hnone]
    · rw [hv]
      simp only
      rcases hcase with hno | hle
      · have := (Match_found_eq_false v periodId false).2 hno
        simp [this]
      · split_ifs
        · rfl
        · rw [Match_nondestructive_vxFunds, SaveVxSumFunds_same db v hv]
        · rfl

theorem FeeSumMap.mem_keys_set (m : FeeSumMap) (t : TokenTypeId) (v : ℤ) (t' : TokenTypeId) :
    t' ∈ (m.set t v).map Prod.fst ↔ t' = t ∨ t' ∈ m.map Prod.fst := by
  induction m with
  | nil => simp [FeeSumMap.set]
  | cons kv rest ih =>
    obtain ⟨k, w⟩ := kv
    by_cases hk : k = t
    · subst hk
      simp [FeeSumMap.set]
    · simp only [FeeSumMap.set, if_neg hk, List.map_cons, List.mem_cons, ih]
      tauto

theorem FeeSumMap.nodup_keys_set (m : FeeSumMap) (t : TokenTypeId) (v : ℤ)
    (h : (m.map Prod.fst).Nodup) : ((m.set t v).map Prod.fst).Nodup := by
  induction m with
  | nil => simp [FeeSumMap.set]
  | cons kv rest ih =>
    obtain ⟨k, w⟩ := kv
    simp only [List.map_cons, List.nodup_cons] at h
    by_cases hk : k = t
    · subst hk
      simpa [FeeSumMap.set] using h
    · simp only [FeeSumMap.set, if_neg hk, List.map_cons, List.nodup_cons]
      refine ⟨?_, ih h.2⟩
      rw [FeeSumMap.mem_keys_set]
      rintro (h1 | h1)
      · exact hk h1
      · exact h.1 h1

theorem FeeSumMap.get_eq_none_iff (m : FeeSumMap) (t : TokenTypeId) :
    m.get t = none ↔ t ∉ m.map Prod.fst := by
  induction m with
  | nil => simp [FeeSumMap.get]
  | cons kv rest ih =>
    obtain ⟨k, w⟩ := kv
    by_cases hk : k = t
    · subst hk; simp [FeeSumMap.get]
    · simp only [FeeSumMap.get, if_neg hk, ih, List.map_cons, List.mem_cons, not_or]
      constructor
      · intro h; exact ⟨fun h' => hk h'.symm, h⟩
      · intro h; exact h.2

theorem FeeSumMap.get_of_mem (m : FeeSumMap) (h : (m.map Prod.fst).Nodup) (t : TokenTypeId)
    (a : ℤ) (hmem : (t, a) ∈ m) : m.get t = some a := by
  induction m with
  | nil => simp at hmem
  | cons kv rest ih =>
    obtain ⟨k, w⟩ := kv
    simp only [List.map_cons, List.nodup_cons] at h
    rcases List.mem_cons.1 hmem with heq | hmem
    · simp only [Prod.mk.injEq] at heq
      obtain ⟨rfl, rfl⟩ := heq
      simp [FeeSumMap.get]
    · have hk : k ≠ t := by
        rintro rfl
        exact h.1 (List.mem_map.2 ⟨(k, a), hmem, rfl⟩)
      simp only [FeeSumMap.get, if_neg hk]
      exact ih h.2 hmem

theorem mergeFeeAccounts_nodup (env : Env) (accounts : List FeeAccount) :
    ∀ (m m' : FeeSumMap), mergeFeeAccounts env accounts m = .ok m' →
      (m.map Prod.fst).Nodup → (m'.map Prod.fst).Nodup := by
  induction accounts with
  | nil =>
    intro m m' h hn
    simp only [mergeFeeAccounts, Except.ok.injEq] at h
    rwa [← h]
  | cons fa rest ih =>
    intro m m' h hn
    unfold mergeFeeAccounts at h
    split at h
    · cases h
    · split at h
      · exact ih _ _ h (FeeSumMap.nodup_keys_set _ _ _ hn)
      · exact ih _ _ h (FeeSumMap.nodup_keys_set _ _ _ hn)

theorem mergeLoop_nodup (env : Env) (periods : List (ℕ × DexFeesByPeriod)) :
    ∀ (db : VmDb) (m : FeeSumMap) (db' : VmDb) (m' : FeeSumMap) (err : Option DexError),
      mergeLoop env periods db m = (db', m', err) →
      (m.map Prod.fst).Nodup → (m'.map Prod.fst).Nodup := by
  induction periods with
  | nil =>
    intro db m db' m' err h hn
    simp only [mergeLoop, Prod.mk.injEq] at h
    obtain ⟨-, rfl, -⟩ := h
    exact hn
  | cons pf rest ih =>
    intro db m db' m' err h hn
    obtain ⟨pId, fee⟩ := pf
    unfold mergeLoop at h
    split at h
    · simp only [Prod.mk.injEq] at h
      obtain ⟨-, rfl, -⟩ := h
      exact hn
    · rename_i m1 hm1
      exact ih _ _ _ _ _ h (mergeFeeAccounts_nodup env _ _ _ hm1 hn)

theorem mergeLoop_ok_of_good (env : Env) (periods : List (ℕ × DexFeesByPeriod))
    (hgood : ∀ pf ∈ periods, GoodAccounts env pf.2.FeesForDividend) (db : VmDb)
    (m : FeeSumMap) : ∃ db' m', mergeLoop env periods db m = (db', m', none) := by
  rcases hres : mergeLoop env periods db m with ⟨db', m', err⟩
  cases err with
  | none => exact ⟨db', m', rfl⟩
  | some e =>
    obtain ⟨pf, hpf, hbad⟩ := (mergeLoop_spec env periods db m db' m' (some e) hres).2.2.2.2.2.2.2 e rfl
    exact absurd (hgood pf hpf) hbad

/-- C10, amended. Catch-up merge: when `DoFeesDividend` gets past the stake check
(some period is collected and the global stake sum at the period is positive) and
every token of the fee accounts of the collected periods decodes, the merge completes
and what remains of the call is the scan over a pool that holds, for each token, the
sum over every collected unfinished period of that period's dividend amount for the
token, whatever the order in which the periods were merged; every token with a
non-zero sum is in the pool, each token once, none flagged. -/
theorem C10_catch_up_merge (env : Env) (ord : MapOrder) (db : VmDb) (periodId : ℕ)
    (hord : IsMapOrder ord)
    (hne : GetNotFinishDividendDexFeesByPeriodMap db periodId ≠ [])
    (hpos : 0 < stakeSumAt db periodId)
    (hgood : ∀ pf ∈ GetNotFinishDividendDexFeesByPeriodMap db periodId,
      GoodAccounts env pf.2.FeesForDividend) :
    ∃ db1 feeSumMap,
      mergeLoop env (ord (GetNotFinishDividendDexFeesByPeriodMap db periodId)) db []
        = (db1, feeSumMap, none) ∧
      DoFeesDividend env ord db periodId =
        scanLoop env periodId (stakeSumAt db periodId) db1.vxFunds
          ⟨db1, feeSumMap, MapToAmountWithTokens feeSumMap, fun _ => none, fun _ => none⟩ ∧
      (∀ tk ∈ MapToAmountWithTokens feeSumMap,
        tk.Amount = mergedPool env (GetNotFinishDividendDexFeesByPeriodMap db periodId) tk.Token ∧
        tk.Deleted = false) ∧
      ((MapToAmountWithTokens feeSumMap).map (fun tk => tk.Token)).Nodup ∧
      (∀ t, mergedPool env (GetNotFinishDividendDexFeesByPeriodMap db periodId) t ≠ 0 →
        ∃ tk ∈ MapToAmountWithTokens feeSumMap, tk.Token = t) := by
  have hperm := hord (GetNotFinishDividendDexFeesByPeriodMap db periodId)
  have hgood' : ∀ pf ∈ ord (GetNotFinishDividendDexFeesByPeriodMap db periodId),
      GoodAccounts env pf.2.FeesForDividend := fun pf hpf => hgood pf (hperm.mem_iff.1 hpf)
  obtain ⟨db1, m, hm⟩ := mergeLoop_ok_of_good env _ hgood' db []
  have hspec := mergeLoop_spec env _ db [] db1 m none hm
  have hget : ∀ t, (m.get t).getD 0
      = mergedPool env (GetNotFinishDividendDexFeesByPeriodMap db periodId) t := by
    intro t
    have := (hspec.2.2.2.2.2.2.1 rfl).2 t
    rw [this, mergedPool_perm env hperm]
    simp [FeeSumMap.get]
  have hnodup : (m.map Prod.fst).Nodup := mergeLoop_nodup env _ db [] db1 m none hm (by simp)
  refine ⟨db1, m, hm, ?_, ?_, ?_, ?_⟩
  · rw [DoFeesDividend_past_check env ord db periodId hne hpos, hm]
  · intro tk htk
    simp only [MapToAmountWithTokens, List.mem_map] at htk
    obtain ⟨⟨t, a⟩, hmem, rfl⟩ := htk
    refine ⟨?_, rfl⟩
    simp only
    rw [← hget t, FeeSumMap.get_of_mem m hnodup t a hmem]
    rfl
  · simpa [MapToAmountWithTokens, Function.comp_def] using hnodup
  · intro t ht
    rw [← hget t] at ht
    have hne' : m.get t ≠ none := by
      intro h; rw [h] at ht; simp at ht
    have hmem : t ∈ m.map Prod.fst := by
      by_contra h
      exact hne' ((FeeSumMap.get_eq_none_iff m t).2 h)
    obtain ⟨⟨k, a⟩, hka, rfl⟩ := List.mem_map.1 hmem
    exact ⟨⟨k, a, false⟩, by simp only [MapToAmountWithTokens, List.mem_map]; exact ⟨(k, a), hka, rfl⟩, rfl⟩

theorem mergeLoop_err_of_bad (env : Env) (periods : List (ℕ × DexFeesByPeriod)) :
    (∃ pf ∈ periods, ¬ GoodAccounts env pf.2.FeesForDividend) →
    ∀ (db : VmDb) (m : FeeSumMap), ∃ db' m' e, mergeLoop env periods db m = (db', m', some e) := by
  intro hbad db m
  rcases hres : mergeLoop env periods db m with ⟨db', m', err⟩
  cases err with
  | some e => exact ⟨db', m', e, rfl⟩
  | none =>
    exfalso
    revert db m db' m'
    induction periods with
    | nil => simp at hbad
    | cons pf rest ih =>
      intro db m db' m' hres
      obtain ⟨pId, fee⟩ := pf
      unfold mergeLoop at hres
      split at hres
      · simp at hres
      · rename_i m1 hm1
        have hg : GoodAccounts env fee.FeesForDividend :=
          (mergeFeeAccounts_ok_iff env fee.FeesForDividend m).1 ⟨m1, hm1⟩
        obtain ⟨pf, hpf, hb⟩ := hbad
        rcases List.mem_cons.1 hpf with rfl | hpf
        · exact hb hg
        · exact ih ⟨pf, hpf, hb⟩ _ _ _ _ hres

/-- Without a positive global stake sum at the period the call returns at once with
the state as it was. -/
theorem DoFeesDividend_of_not_pos (env : Env) (ord : MapOrder) (db : VmDb) (periodId : ℕ)
    (h : ¬ 0 < stakeSumAt db periodId) : DoFeesDividend env ord db periodId = some (db, none) := by
  unfold DoFeesDividend
  simp only
  split_ifs with h0
  · rfl
  · unfold stakeSumAt at h
    cases hv : GetVxSumFunds db with
    | none => rfl
    | some v =>
      rw [hv] at h
      simp only at h ⊢
      split_ifs
      · rfl
      · rw [Match_nondestructive_vxFunds, SaveVxSumFunds_same db v hv]
      · rfl
      · exfalso; omega
      · exfalso; omega

theorem DoFeesDividend_of_nil (env : Env) (ord : MapOrder) (db : VmDb) (periodId : ℕ)
    (h : GetNotFinishDividendDexFeesByPeriodMap db periodId = []) :
    DoFeesDividend env ord db periodId = some (db, none) := by
  unfold DoFeesDividend
  simp [h]

/-- C3. Settlement is idempotent: when `DoFeesDividend` has returned for a period,
a second call for the same period on the state the first one left returns too and
leaves every balance of the fund ledger, and the event log, as the first call left
them; and when the first call succeeded past the stake check, the second call
collects no unfinished period. The two calls may visit the collected periods in
any order. -/
theorem C3_idempotent_settlement (env : Env) (ord₁ ord₂ : MapOrder) (db db' : VmDb)
    (periodId : ℕ) (err₁ : Option DexError) (hord₁ : IsMapOrder ord₁) (hord₂ : IsMapOrder ord₂)
    (hfirst : DoFeesDividend env ord₁ db periodId = some (db', err₁)) :
    ∃ dbTwice err₂, DoFeesDividend env ord₂ db' periodId = some (dbTwice, err₂) ∧
      (∀ address token, dbTwice.fund address token = db'.fund address token) ∧
      dbTwice.events = db'.events ∧
      (0 < stakeSumAt db periodId → err₁ = none →
        GetNotFinishDividendDexFeesByPeriodMap db' periodId = []) := by
  by_cases hne : GetNotFinishDividendDexFeesByPeriodMap db periodId = []
  · rw [DoFeesDividend_of_nil env ord₁ db periodId hne] at hfirst
    simp only [Option.some.injEq, Prod.mk.injEq] at hfirst
    obtain ⟨rfl, rfl⟩ := hfirst
    exact ⟨db, none, DoFeesDividend_of_nil env ord₂ db periodId hne, fun _ _ => rfl, rfl,
      fun _ _ => hne⟩
  by_cases hpos : 0 < stakeSumAt db periodId
  swap
  · rw [DoFeesDividend_of_not_pos env ord₁ db periodId hpos] at hfirst
    simp only [Option.some.injEq, Prod.mk.injEq] at hfirst
    obtain ⟨rfl, rfl⟩ := hfirst
    exact ⟨db, none, DoFeesDividend_of_not_pos env ord₂ db periodId hpos, fun _ _ => rfl, rfl,
      fun h _ => absurd h hpos⟩
  rw [DoFeesDividend_past_check env ord₁ db periodId hne hpos] at hfirst
  have hperm := hord₁ (GetNotFinishDividendDexFeesByPeriodMap db periodId)
  rcases hres : mergeLoop env (ord₁ (GetNotFinishDividendDexFeesByPeriodMap db periodId)) db []
    with ⟨db1, m, err⟩
  rw [hres] at hfirst
  obtain ⟨hmark, hfund, hev, hvx, hsum, hop, hok, hbad⟩ := mergeLoop_spec env _ db [] db1 m err hres
  cases err with
  | some e =>
    simp only [Option.some.injEq, Prod.mk.injEq] at hfirst
    obtain ⟨rfl, rfl⟩ := hfirst
    -- the period at which the merge failed is still unfinished
    obtain ⟨⟨p, fee⟩, hpf, hb⟩ := hbad e rfl
    have hpf' := (mem_GetNotFinish db periodId p fee).1 (hperm.mem_iff.1 hpf)
    have hkeep : db1.dexFees p = some fee := by
      rcases hmark p with h | ⟨fee', hmem, hg, -⟩
      · rw [h]; exact hpf'.2.1
      · have := (mem_GetNotFinish db periodId p fee').1 (hperm.mem_iff.1 hmem)
        have heq : fee' = fee := by
          have h1 := this.2.1
          rw [hpf'.2.1] at h1
          exact (Option.some.inj h1).symm
        subst heq
        exact absurd hg hb
    have hmem2 : (p, fee) ∈ GetNotFinishDividendDexFeesByPeriodMap db1 periodId :=
      (mem_GetNotFinish db1 periodId p fee).2 ⟨hpf'.1, hkeep, hpf'.2.2⟩
    have hne2 : GetNotFinishDividendDexFeesByPeriodMap db1 periodId ≠ [] :=
      List.ne_nil_of_mem hmem2
    have hpos2 : 0 < stakeSumAt db1 periodId := by
      have : stakeSumAt db1 periodId = stakeSumAt db periodId := by
        simp only [stakeSumAt, GetVxSumFunds, hsum]
      rw [this]; exact hpos
    have hperm2 := hord₂ (GetNotFinishDividendDexFeesByPeriodMap db1 periodId)
    obtain ⟨db2, m2, e2, hres2⟩ := mergeLoop_err_of_bad env
      (ord₂ (GetNotFinishDividendDexFeesByPeriodMap db1 periodId))
      ⟨(p, fee), hperm2.mem_iff.2 hmem2, hb⟩ db1 []
    obtain ⟨-, hfund2, hev2, -⟩ := mergeLoop_spec env _ db1 [] db2 m2 (some e2) hres2
    refine ⟨db2, some e2, ?_, fun a t => by rw [hfund2], hev2, fun _ h => by cases h⟩
    rw [DoFeesDividend_past_check env ord₂ db1 periodId hne2 hpos2, hres2]
  | none =>
    simp only at hfirst
    obtain ⟨hdex, -, -⟩ := scanLoop_frame env _ _ _ _ _ _ hfirst
    simp only at hdex
    have hnil : GetNotFinishDividendDexFeesByPeriodMap db' periodId = [] := by
      apply List.eq_nil_iff_forall_not_mem.2
      rintro ⟨p, fee⟩ hmem
      obtain ⟨hp, hfee, hfin⟩ := (mem_GetNotFinish db' periodId p fee).1 hmem
      rw [hdex] at hfee
      rcases hmark p with h | ⟨fee', -, -, h⟩
      · rw [h] at hfee
        have hin : (p, fee) ∈ ord₁ (GetNotFinishDividendDexFeesByPeriodMap db periodId) :=
          hperm.mem_iff.2 ((mem_GetNotFinish db periodId p fee).2 ⟨hp, hfee, hfin⟩)
        obtain ⟨fee'', h1, h2⟩ := (hok rfl).1 (p, fee) hin
        simp only at h1
        rw [h, hfee] at h1
        have : fee = fee'' := Option.some.inj h1
        subst this
        rw [hfin] at h2
        cases h2
      · rw [h] at hfee
        have : ({ fee' with FinishDividend := true } : DexFeesByPeriod) = fee :=
          Option.some.inj hfee
        rw [← this] at hfin
        cases hfin
    exact ⟨db', none, DoFeesDividend_of_nil env ord₂ db' periodId hnil, fun _ _ => rfl, rfl,
      fun _ _ => hnil⟩

/-! ## The operator fee settlement -/

theorem marketFeesLoop_spec (addr : Address) (tokenId : TokenTypeId) (fees : List MarketFee) :
    ∀ (db : VmDb) (userFund : TokenTypeId → Option ℤ),
      (marketFeesLoop addr tokenId fees db userFund).1.fund = db.fund ∧
      (marketFeesLoop addr tokenId fees db userFund).1.operatorFees = db.operatorFees ∧
      (marketFeesLoop addr tokenId fees db userFund).1.dexFees = db.dexFees ∧
      (marketFeesLoop addr tokenId fees db userFund).1.vxFunds = db.vxFunds ∧
      (marketFeesLoop addr tokenId fees db userFund).1.vxSumFunds = db.vxSumFunds ∧
      ∀ t, ((marketFeesLoop addr tokenId fees db userFund).2 t).getD 0 =
        (userFund t).getD 0 + (if tokenId = t then marketFeesTotal fees else 0) := by
  induction fees with
  | nil => intro db userFund; simp [marketFeesLoop, marketFeesTotal]
  | cons mkFee rest ih =>
    intro db userFund
    have hsum : marketFeesTotal (mkFee :: rest) = (mkFee.Amount : ℤ) + marketFeesTotal rest := by
      simp [marketFeesTotal]
    unfold marketFeesLoop
    cases hu : userFund tokenId with
    | none =>
      simp only
      obtain ⟨h1, h2, h3, h4, h5, h6⟩ := ih (AddOperatorFeeDividendEvent db addr mkFee)
        (Function.update userFund tokenId (some (mkFee.Amount : ℤ)))
      refine ⟨h1, h2, h3, h4, h5, ?_⟩
      intro t
      rw [h6 t]
      by_cases ht : tokenId = t
      · subst ht
        simp [hu, hsum]
      · simp [ht, Function.update_noteq (Ne.symm ht)]
    | some fd =>
      simp only
      obtain ⟨h1, h2, h3, h4, h5, h6⟩ := ih (AddOperatorFeeDividendEvent db addr mkFee)
        (Function.update userFund tokenId (some (fd + (mkFee.Amount : ℤ))))
      refine ⟨h1, h2, h3, h4, h5, ?_⟩
      intro t
      rw [h6 t]
      by_cases ht : tokenId = t
      · subst ht
        simp [hu, hsum]
        ring
      · simp [ht, Function.update_noteq (Ne.symm ht)]

theorem operatorFeesLoop_spec (env : Env) (addr : Address) (accounts : List OperatorFeeAccount) :
    ∀ (db : VmDb) (userFund : TokenTypeId → Option ℤ) (db' : VmDb)
      (userFund' : TokenTypeId → Option ℤ),
      operatorFeesLoop env addr accounts db userFund = some (db', userFund') →
      db'.fund = db.fund ∧ db'.operatorFees = db.operatorFees ∧ db'.dexFees = db.dexFees ∧
      db'.vxFunds = db.vxFunds ∧ db'.vxSumFunds = db.vxSumFunds ∧
      ∀ t, (userFund' t).getD 0 = (userFund t).getD 0 + recordTotal env accounts t := by
  induction accounts with
  | nil =>
    intro db userFund db' userFund' h
    simp only [operatorFeesLoop, Option.some.injEq, Prod.mk.injEq] at h
    obtain ⟨rfl, rfl⟩ := h
    simp [recordTotal]
  | cons feeAcc rest ih =>
    intro db userFund db' userFund' h
    unfold operatorFeesLoop at h
    cases hdec : env.BytesToTokenTypeId feeAcc.Token with
    | error e => rw [hdec] at h; simp at h
    | ok tokenId =>
      rw [hdec] at h
      simp only at h
      obtain ⟨h1, h2, h3, h4, h5, h6⟩ := ih _ _ _ _ h
      obtain ⟨g1, g2, g3, g4, g5, g6⟩ := marketFeesLoop_spec addr tokenId feeAcc.MarketFees db userFund
      refine ⟨h1.trans g1, h2.trans g2, h3.trans g3, h4.trans g4, h5.trans g5, ?_⟩
      intro t
      rw [h6 t, g6 t]
      simp [recordTotal, hdec, add_assoc]

theorem mem_storeDelete (k : Bytes) (store : List (Bytes × Bytes)) (kv : Bytes × Bytes) :
    kv ∈ storeDelete k store ↔ kv ∈ store ∧ kv.1 ≠ k := by
  simp [storeDelete]

/-- What the loop over the operator records leaves: the credits, the records that
remain, and the stores it does not touch. -/
theorem operatorLoop_spec (env : Env) (entries : List (Bytes × Bytes)) :
    ∀ (db db' : VmDb), operatorLoop env entries db = some db' →
      (∀ a t, db'.fund a t = db.fund a t +
        (entries.map (fun kv => if kv.1.drop 11 = a then entryTotal env kv t else 0)).sum) ∧
      (∀ kv, kv ∈ db'.operatorFees ↔
        kv ∈ db.operatorFees ∧ ∀ e ∈ entries, e.2.length ≠ 0 → kv.1 ≠ e.1) ∧
      db'.dexFees = db.dexFees ∧ db'.vxFunds = db.vxFunds ∧ db'.vxSumFunds = db.vxSumFunds := by
  induction entries with
  | nil =>
    intro db db' h
    simp only [operatorLoop, Option.some.injEq] at h
    subst h
    simp
  | cons kv rest ih =>
    intro db db' h
    obtain ⟨key, value⟩ := kv
    unfold operatorLoop at h
    split_ifs at h with h1 h2
    · obtain ⟨i1, i2, i3, i4, i5⟩ := ih _ _ h
      refine ⟨?_, ?_, i3, i4, i5⟩
      · intro a t
        rw [i1 a t]
        have h0 : entryTotal env (key, value) t = 0 := by
          unfold entryTotal
          rw [if_pos h1]
        simp [h0]
      · intro kv
        rw [i2 kv]
        simp only [List.mem_cons, forall_eq_or_imp]
        constructor
        · rintro ⟨ha, hb⟩
          exact ⟨ha, fun hc => absurd h1 hc, hb⟩
        · rintro ⟨ha, -, hb⟩
          exact ⟨ha, hb⟩
    · simp only at h
      cases hdes : env.DeSerializeOperatorFees value with
      | error e => rw [hdes] at h; simp at h
      | ok rec =>
        rw [hdes] at h
        simp only at h
        cases haddr : BytesToAddress (key.drop 11) with
        | error e => rw [haddr] at h; simp at h
        | ok addr =>
          rw [haddr] at h
          simp only at h
          have haddr' : addr = key.drop 11 := by
            unfold BytesToAddress Address.SetBytes at haddr
            split_ifs at haddr
            exact (Except.ok.inj haddr).symm
          cases hloop : operatorFeesLoop env addr rec.OperatorFees
              (DeleteOperatorFeesByKey db key) (fun _ => none) with
          | none => rw [hloop] at h; simp at h
          | some r =>
            obtain ⟨db1, userFund⟩ := r
            rw [hloop] at h
            simp only [UpdateFund] at h
            obtain ⟨g1, g2, g3, g4, g5, g6⟩ := operatorFeesLoop_spec env addr _ _ _ _ _ hloop
            obtain ⟨i1, i2, i3, i4, i5⟩ := ih _ _ h
            refine ⟨?_, ?_, ?_, ?_, ?_⟩
            · intro a t
              rw [i1 a t]
              simp only [List.map_cons, List.sum_cons]
              have hentry : entryTotal env (key, value) t = recordTotal env rec.OperatorFees t := by
                simp [entryTotal, h1, hdes]
              rw [hentry, g1]
              have hu := g6 t
              simp only [Option.getD_none, zero_add] at hu
              by_cases ha : a = addr
              · subst ha
                rw [if_pos rfl, hu, if_pos haddr'.symm]
                simp [DeleteOperatorFeesByKey]
                ring
              · rw [if_neg ha, if_neg (fun hc => ha (hc.symm.trans haddr'.symm))]
                simp [DeleteOperatorFeesByKey]
            · intro kv
              rw [i2 kv]
              simp only [g2, DeleteOperatorFeesByKey, mem_storeDelete, List.mem_cons,
                forall_eq_or_imp]
              constructor
              · rintro ⟨⟨ha, hb⟩, hc⟩
                exact ⟨ha, fun _ => hb, hc⟩
              · rintro ⟨ha, hb, hc⟩
                exact ⟨⟨ha, hb h1⟩, hc⟩
            · rw [i3, g3]; rfl
            · rw [i4, g4]; rfl
            · rw [i5, g5]; rfl

theorem operatorLoop_skip (env : Env) (entries : List (Bytes × Bytes))
    (h : ∀ kv ∈ entries, kv.2.length = 0) (db : VmDb) : operatorLoop env entries db = some db := by
  induction entries with
  | nil => rfl
  | cons kv rest ih =>
    obtain ⟨key, value⟩ := kv
    unfold operatorLoop
    rw [if_pos (h (key, value) (List.mem_cons_self _ _))]
    exact ih (fun kv hkv => h kv (List.mem_cons_of_mem _ hkv))

theorem sum_map_ite_single {α β : Type} [DecidableEq β] (f : α → β) (g : α → ℤ) (x : α) :
    ∀ l : List α, l.Nodup → x ∈ l → (∀ e ∈ l, f e = f x → e = x) →
      (l.map (fun e => if f e = f x then g e else 0)).sum = g x := by
  intro l
  induction l with
  | nil => intro _ h; simp at h
  | cons y rest ih =>
    intro hn hx hinj
    simp only [List.nodup_cons] at hn
    simp only [List.map_cons, List.sum_cons]
    rcases List.mem_cons.1 hx with rfl | hx'
    · have hzero : (rest.map (fun e => if f e = f x then g e else 0)).sum = 0 := by
        apply List.sum_eq_zero
        intro z hz
        obtain ⟨e, he, rfl⟩ := List.mem_map.1 hz
        have hne : f e ≠ f x := by
          intro hfe
          have := hinj e (List.mem_cons_of_mem _ he) hfe
          subst this
          exact hn.1 he
        simp [hne]
      simp [hzero]
    · have hy : f y ≠ f x := by
        intro hfy
        have := hinj y (List.mem_cons_self _ _) hfy
        subst this
        exact hn.1 hx'
      rw [if_neg hy, zero_add]
      exact ih hn.2 hx' (fun e he => hinj e (List.mem_cons_of_mem _ he))

theorem Uint64ToBytes_length (n : ℕ) : (Uint64ToBytes n).length = 8 := by
  simp [Uint64ToBytes]

theorem mem_iterate (start : Bytes) (store : List (Bytes × Bytes)) (kv : Bytes × Bytes) :
    kv ∈ iterate start store ↔ kv ∈ store ∧ start <+: kv.1 := by
  simp [iterate, List.isPrefixOf_iff_prefix]

/-- C5. When `DoOperatorFeesDividend` has run for a period (operator keys being
distinct and the key prefix three bytes long): for every non-empty operator record
of the period and every token, the balance of the operator (the address in the
key) has been credited with exactly the sum of all per-market fee amounts the
record lists for the token; no other address has been credited; hence the credits
summed over the operators of the period equal the per-market fee amounts summed
over the records of the period. -/
theorem C5_operator_credit (env : Env) (db db' : VmDb) (periodId : ℕ)
    (hrun : DoOperatorFeesDividend env db periodId = some db')
    (hkeys : (db.operatorFees.map Prod.fst).Nodup)
    (hstart : env.operatorFeesKeyPrefix.length = 3) :
    (∀ kv ∈ operatorRecords env db periodId, kv.2.length ≠ 0 →
      ∃ operatorFeesByPeriod, env.DeSerializeOperatorFees kv.2 = .ok operatorFeesByPeriod ∧
        ∀ t, db'.fund (kv.1.drop 11) t
          = db.fund (kv.1.drop 11) t + recordTotal env operatorFeesByPeriod.OperatorFees t) ∧
    (∀ a, (∀ kv ∈ operatorRecords env db periodId, kv.2.length ≠ 0 → kv.1.drop 11 ≠ a) →
      ∀ t, db'.fund a t = db.fund a t) ∧
    (∀ t, (((operatorRecords env db periodId).filter (fun kv => decide (kv.2.length ≠ 0))).map
        (fun kv => db'.fund (kv.1.drop 11) t - db.fund (kv.1.drop 11) t)).sum
      = ((operatorRecords env db periodId).map (fun kv => entryTotal env kv t)).sum) := by
  unfold DoOperatorFeesDividend at hrun
  obtain ⟨hfund, -, -⟩ := operatorLoop_spec env _ db db' hrun
  have hfund' : ∀ a t, db'.fund a t = db.fund a t +
      ((operatorRecords env db periodId).map
        (fun kv => if kv.1.drop 11 = a then entryTotal env kv t else 0)).sum := hfund
  set pre := env.operatorFeesKeyPrefix ++ Uint64ToBytes periodId with hpre
  have hprelen : pre.length = 11 := by
    simp [hpre, hstart, Uint64ToBytes_length]
  have hsub : ∀ kv ∈ operatorRecords env db periodId, kv ∈ db.operatorFees ∧ pre <+: kv.1 :=
    fun kv hkv => (mem_iterate pre db.operatorFees kv).1 hkv
  have hnodup : (operatorRecords env db periodId).Nodup := by
    have : (db.operatorFees).Nodup := List.Nodup.of_map _ hkeys
    exact this.filter _
  have hinj : ∀ kv ∈ operatorRecords env db periodId, ∀ e ∈ operatorRecords env db periodId,
      e.1.drop 11 = kv.1.drop 11 → e = kv := by
    intro kv hkv e he hdrop
    obtain ⟨hkv1, s1, hs1⟩ := hsub kv hkv
    obtain ⟨he1, s2, hs2⟩ := hsub e he
    have hk : e.1 = kv.1 := by
      have h1 : kv.1.drop 11 = s1 := by
        rw [← hs1, ← hprelen, List.drop_left]
      have h2 : e.1.drop 11 = s2 := by
        rw [← hs2, ← hprelen, List.drop_left]
      rw [← hs1, ← hs2, ← h1, ← h2, hdrop]
    exact List.inj_on_of_nodup_map hkeys he1 hkv1 hk
  have hcredit : ∀ kv ∈ operatorRecords env db periodId, ∀ t,
      db'.fund (kv.1.drop 11) t = db.fund (kv.1.drop 11) t + entryTotal env kv t := by
    intro kv hkv t
    rw [hfund' (kv.1.drop 11) t]
    congr 1
    exact sum_map_ite_single (fun e : Bytes × Bytes => e.1.drop 11)
      (fun e => entryTotal env e t) kv _ hnodup hkv (fun e he h => hinj kv hkv e he h)
  refine ⟨?_, ?_, ?_⟩
  · intro kv hkv hlen
    -- the record was decoded by the run
    have hdec : ∃ r, env.DeSerializeOperatorFees kv.2 = .ok r := by
      clear hfund hfund' hcredit hinj hnodup hsub
      have hmem : kv ∈ iterate pre db.operatorFees := hkv
      revert hrun
      generalize iterate pre db.operatorFees = entries at hmem
      generalize db = db0
      clear hkv
      induction entries generalizing db0 with
      | nil => simp at hmem
      | cons e rest ih =>
        intro hrun
        obtain ⟨key, value⟩ := e
        unfold operatorLoop at hrun
        rcases List.mem_cons.1 hmem with rfl | hmem'
        · simp only [if_neg hlen] at hrun
          split_ifs at hrun
          cases hdes : env.DeSerializeOperatorFees value with
          | error e => rw [hdes] at hrun; simp at hrun
          | ok r => exact ⟨r, rfl⟩
        · split_ifs at hrun
          · exact ih hmem' _ hrun
          · simp only at hrun
            split at hrun
            · cases hrun
            · split at hrun
              · cases hrun
              · split at hrun
                · cases hrun
                · split at hrun
                  · exact ih hmem' _ hrun
                  · exact ih hmem' _ hrun
    obtain ⟨r, hr⟩ := hdec
    refine ⟨r, hr, fun t => ?_⟩
    rw [hcredit kv hkv t]
    simp [entryTotal, hlen, hr]
  · intro a ha t
    rw [hfund' a t]
    have : ((operatorRecords env db periodId).map
        (fun kv => if kv.1.drop 11 = a then entryTotal env kv t else 0)).sum = 0 := by
      apply List.sum_eq_zero
      intro z hz
      obtain ⟨e, he, rfl⟩ := List.mem_map.1 hz
      by_cases hlen : e.2.length = 0
      · simp [entryTotal, hlen]
      · simp [ha e he hlen]
    rw [this, add_zero]
  · intro t
    have h1 : ∀ l : List (Bytes × Bytes), (∀ kv ∈ l, kv ∈ operatorRecords env db periodId) →
        ((l.filter (fun kv => decide (kv.2.length ≠ 0))).map
          (fun kv => db'.fund (kv.1.drop 11) t - db.fund (kv.1.drop 11) t)).sum
        = (l.map (fun kv => entryTotal env kv t)).sum := by
      intro l
      induction l with
      | nil => intro _; rfl
      | cons kv rest ih =>
        intro hl
        have ih' := ih (fun e he => hl e (List.mem_cons_of_mem _ he))
        by_cases hlen : kv.2.length = 0
        · have h0 : entryTotal env kv t = 0 := by
            unfold entryTotal; rw [if_pos hlen]
          have hd : decide (kv.2.length ≠ 0) = false := by simp [hlen]
          simp only [List.filter_cons, hd, Bool.false_eq_true, if_false, List.map_cons,
            List.sum_cons, h0, zero_add]
          exact ih'
        · have hc := hcredit kv (hl kv (List.mem_cons_self _ _)) t
          have hd : decide (kv.2.length ≠ 0) = true := by simp [hlen]
          simp only [List.filter_cons, hd, if_true, List.map_cons, List.sum_cons]
          rw [ih', hc]
          ring
    exact h1 _ (fun _ h => h)

/-- C6. Operator consume-once: when `DoOperatorFeesDividend` has run for a period,
every operator record it processed (the non-empty records of the period) is deleted
from the store, the records of the period that remain are empty, and a second call
for the period on the state reached processes none and returns with that state
unchanged, so no balance of the fund ledger changes. -/
theorem C6_operator_consume_once (env : Env) (db db' : VmDb) (periodId : ℕ)
    (hrun : DoOperatorFeesDividend env db periodId = some db') :
    (∀ kv ∈ operatorRecords env db periodId, kv.2.length ≠ 0 →
      ∀ kv' ∈ db'.operatorFees, kv'.1 ≠ kv.1) ∧
    (∀ kv ∈ operatorRecords env db' periodId, kv.2.length = 0) ∧
    DoOperatorFeesDividend env db' periodId = some db' ∧
    (∀ dbTwice, DoOperatorFeesDividend env db' periodId = some dbTwice →
      ∀ address token, dbTwice.fund address token = db'.fund address token) := by
  unfold DoOperatorFeesDividend at hrun
  obtain ⟨-, hleft, -⟩ := operatorLoop_spec env _ db db' hrun
  have hempty : ∀ kv ∈ operatorRecords env db' periodId, kv.2.length = 0 := by
    intro kv hkv
    obtain ⟨hmem, hp⟩ := (mem_iterate _ _ kv).1 hkv
    obtain ⟨hin, hdel⟩ := (hleft kv).1 hmem
    by_contra hlen
    exact hdel kv ((mem_iterate _ _ kv).2 ⟨hin, hp⟩) hlen rfl
  have hsecond : DoOperatorFeesDividend env db' periodId = some db' :=
    operatorLoop_skip env _ hempty db'
  refine ⟨?_, hempty, hsecond, ?_⟩
  · intro kv hkv hlen kv' hkv'
    exact ((hleft kv').1 hkv').2 kv hkv hlen
  · intro dbTwice h address token
    rw [hsecond] at h
    cases h
    rfl

/-! ## The scan: one address -/

theorem DivideByProportion_facts (prec : ℕ) (R : BigFloat → ℤ)
    (total part dv amount lv : ℤ) (r : DivideResult)
    (h : DivideByProportion prec R total part dv amount lv = some r) :
    r.proportionAmt + r.toDivideLeaveAmt = lv ∧ r.dividedReferAmt = dv + part ∧
    (r.finished = true → r.toDivideLeaveAmt = 0) ∧
    (r.finished = false → dv + part < total) := by
  unfold DivideByProportion at h
  simp only at h
  split_ifs at h with h0 h1
  · simp only [Option.some.injEq] at h
    subst h
    simp
  · simp only [Option.some.injEq] at h
    subst h
    refine ⟨by simp, rfl, by simp, fun _ => ?_⟩
    simp only [not_or, not_le] at h1
    omega

theorem sharesOf_append_event (t : TokenTypeId) (events : List Event) (a : Address)
    (t' : TokenTypeId) (u amt : ℤ) :
    sharesOf t (events ++ [Event.FeeDividend a t' u amt])
      = sharesOf t events + (if t' = t then amt else 0) := by
  simp [sharesOf]

theorem FeeSumMap.mem_keys_delete (m : FeeSumMap) (t t' : TokenTypeId) :
    t ∈ (m.delete t').map Prod.fst ↔ t ∈ m.map Prod.fst ∧ t ≠ t' := by
  simp only [FeeSumMap.delete, List.mem_map, List.mem_filter, decide_eq_true_eq]
  constructor
  · rintro ⟨kv, ⟨hkv, hne⟩, rfl⟩
    exact ⟨⟨kv, hkv, rfl⟩, hne⟩
  · rintro ⟨⟨kv, hkv, rfl⟩, hne⟩
    exact ⟨kv, ⟨hkv, hne⟩, rfl⟩

/-- The loop body for a token leaves the variables of every other token alone, and
keeps the token and its amount. -/
theorem allocateToken_other (env : Env) (vxSumAmt userVxAmount : ℤ) (address : Address)
    (tk tk' : AmountWithToken) (st st' : TokenLoopState)
    (h : allocateToken env vxSumAmt userVxAmount address tk st = some (tk', st')) :
    tk'.Token = tk.Token ∧ tk'.Amount = tk.Amount ∧
    ∀ t, t ≠ tk.Token → SameTokenView t st st' := by
  unfold allocateToken at h
  simp only at h
  split at h
  · split at h
    · cases h
    · rename_i r hr
      simp only [Option.some.injEq, Prod.mk.injEq] at h
      obtain ⟨rfl, rfl⟩ := h
      refine ⟨by split_ifs <;> rfl, by split_ifs <;> rfl, ?_⟩
      intro t ht
      refine ⟨?_, ?_, ?_, ?_⟩
      · simp only [AddFeeDividendEvent, sharesOf_append_event, if_neg (Ne.symm ht), add_zero]
      · simp only [Function.update_noteq ht]
        split_ifs
        · simp only [Function.update_noteq ht]
        · rfl
      · simp only [Function.update_noteq ht]
        split_ifs
        · simp only [Function.update_noteq ht]
        · rfl
      · simp only
        split_ifs
        · rw [FeeSumMap.mem_keys_delete]
          exact ⟨fun h => h.1, fun h => ⟨h, ht⟩⟩
        · rfl
  · cases h

/-- The loop body for token `t` allocates one share of it. -/
theorem allocateToken_self (env : Env) (vxSumAmt userVxAmount : ℤ) (address : Address)
    (tk tk' : AmountWithToken) (st st' : TokenLoopState) (hlive : tk.Deleted = false)
    (h : allocateToken env vxSumAmt userVxAmount address tk st = some (tk', st')) :
    ∃ r, AllocatedShare env vxSumAmt userVxAmount tk.Token tk.Amount st st' r ∧
      tk'.Deleted = r.finished := by
  unfold allocateToken at h
  simp only at h
  split at h
  · rename_i dv lv hdv hlv
    split at h
    · cases h
    · rename_i r hr
      simp only [Option.some.injEq, Prod.mk.injEq] at h
      obtain ⟨rfl, rfl⟩ := h
      refine ⟨r, ⟨dv, lv, ?_, hr, ?_, ?_, ?_, ?_⟩, ?_⟩
      · cases hl : st.feeSumLeavedMap tk.Token with
        | none =>
          left
          simp only [hl, Option.isNone_none, if_true, Function.update_same,
            Option.some.injEq] at hdv hlv
          exact ⟨rfl, hdv.symm, hlv.symm⟩
        | some l0 =>
          right
          simp only [hl, Option.isNone_some, Bool.false_eq_true, if_false] at hdv hlv
          exact ⟨hlv, hdv⟩
      · simp only [AddFeeDividendEvent, sharesOf_append_event, if_true]
      · simp only [Function.update_same]
      · simp only [Function.update_same]
      · simp only
        split_ifs with hfin
        · rw [FeeSumMap.mem_keys_delete]
          simp [hfin]
        · simp [hfin]
      · split_ifs with hfin
        · simp [hfin]
        · simp only [Bool.not_eq_true] at hfin
          rw [hfin]; exact hlive
  · cases h

theorem SameTokenView.refl (t : TokenTypeId) (st : TokenLoopState) : SameTokenView t st st :=
  ⟨rfl, rfl, rfl, Iff.rfl⟩

theorem SameTokenView.trans {t : TokenTypeId} {st₁ st₂ st₃ : TokenLoopState}
    (h₁ : SameTokenView t st₁ st₂) (h₂ : SameTokenView t st₂ st₃) : SameTokenView t st₁ st₃ :=
  ⟨h₂.1.trans h₁.1, h₂.2.1.trans h₁.2.1, h₂.2.2.1.trans h₁.2.2.1, h₂.2.2.2.trans h₁.2.2.2⟩

/-- The token loop, seen from one token `t`: the tokens of the slice stay, a slice
without `t` leaves the variables of `t` alone, and the entry of `t` is either
flagged and skipped or allocated one share. -/
theorem tokenLoop_token (env : Env) (vxSumAmt userVxAmount : ℤ) (address : Address)
    (t : TokenTypeId) (l : List AmountWithToken) :
    ∀ (st : TokenLoopState) (l' : List AmountWithToken) (st' : TokenLoopState),
      tokenLoop env vxSumAmt userVxAmount address l st = some (l', st') →
      (l.map (fun tk => tk.Token)).Nodup →
      l'.map (fun tk => tk.Token) = l.map (fun tk => tk.Token) ∧
      (t ∉ l.map (fun tk => tk.Token) → SameTokenView t st st') ∧
      (∀ tk ∈ l, tk.Token = t → ∃ tk' ∈ l', tk'.Token = t ∧ tk'.Amount = tk.Amount ∧
        (tk.Deleted = true → tk'.Deleted = true ∧ SameTokenView t st st') ∧
        (tk.Deleted = false → ∃ r,
          AllocatedShare env vxSumAmt userVxAmount t tk.Amount st st' r ∧
          tk'.Deleted = r.finished)) := by
  induction l with
  | nil =>
    intro st l' st' h _
    simp only [tokenLoop, Option.some.injEq, Prod.mk.injEq] at h
    obtain ⟨rfl, rfl⟩ := h
    exact ⟨rfl, fun _ => SameTokenView.refl t st, by simp⟩
  | cons hd rest ih =>
    intro st l' st' h hn
    simp only [List.map_cons, List.nodup_cons] at hn
    unfold tokenLoop at h
    split at h
    · rename_i hdel
      simp only [Option.map_eq_some'] at h
      obtain ⟨q, hq, hqq⟩ := h
      simp only [Prod.mk.injEq] at hqq
      obtain ⟨rfl, rfl⟩ := hqq
      obtain ⟨i1, i2, i3⟩ := ih _ _ _ hq hn.2
      refine ⟨by simp [i1], ?_, ?_⟩
      · intro hnot
        simp only [List.map_cons, List.mem_cons, not_or] at hnot
        exact i2 hnot.2
      · intro tk htk htok
        rcases List.mem_cons.1 htk with rfl | htk'
        · have hnot : t ∉ rest.map (fun tk => tk.Token) := by
            rw [← htok]; exact hn.1
          refine ⟨tk, List.mem_cons_self _ _, htok, rfl, fun _ => ⟨hdel, i2 hnot⟩, ?_⟩
          intro hl
          rw [hdel] at hl
          cases hl
        · obtain ⟨tk', htk'mem, h1, h2, h3, h4⟩ := i3 tk htk' htok
          exact ⟨tk', List.mem_cons_of_mem _ htk'mem, h1, h2, h3, h4⟩
    · rename_i hdel
      split at h
      · cases h
      · rename_i hd1 st1 hal
        simp only [Option.map_eq_some'] at h
        obtain ⟨q, hq, hqq⟩ := h
        simp only [Prod.mk.injEq] at hqq
        obtain ⟨rfl, rfl⟩ := hqq
        obtain ⟨i1, i2, i3⟩ := ih _ _ _ hq hn.2
        obtain ⟨o1, o2, o3⟩ := allocateToken_other env _ _ _ _ _ _ _ hal
        refine ⟨by simp [i1, o1], ?_, ?_⟩
        · intro hnot
          simp only [List.map_cons, List.mem_cons, not_or] at hnot
          exact (o3 t hnot.1).trans (i2 hnot.2)
        · intro tk htk htok
          rcases List.mem_cons.1 htk with rfl | htk'
          · have hnot : t ∉ rest.map (fun tk => tk.Token) := by
              rw [← htok]; exact hn.1
            have hlive : tk.Deleted = false := by simpa using hdel
            obtain ⟨r, hr, hfin⟩ := allocateToken_self env _ _ _ _ _ _ _ hlive hal
            refine ⟨hd1, List.mem_cons_self _ _, o1.trans htok, o2, ?_, ?_⟩
            · intro hd; rw [hlive] at hd; cases hd
            · intro _
              refine ⟨r, ?_, hfin⟩
              subst htok
              obtain ⟨dv, lv, c1, c2, c3, c4, c5, c6⟩ := hr
              obtain ⟨s1, s2, s3, s4⟩ := i2 hnot
              exact ⟨dv, lv, c1, c2, s1.trans c3, s2.trans c4, s3.trans c5, s4.trans c6⟩
          · have hne : t ≠ hd.Token := by
              intro heq
              apply hn.1
              rw [← heq, ← htok]
              exact List.mem_map.2 ⟨tk, htk', rfl⟩
            obtain ⟨tk', htk'mem, h1, h2, h3, h4⟩ := i3 tk htk' htok
            have hsame := o3 t hne
            refine ⟨tk', List.mem_cons_of_mem _ htk'mem, h1, h2, ?_, ?_⟩
            · intro hd
              obtain ⟨g1, g2⟩ := h3 hd
              exact ⟨g1, hsame.trans g2⟩
            · intro hl
              obtain ⟨r, ⟨dv, lv, c1, c2, c3, c4, c5, c6⟩, hfin⟩ := h4 hl
              obtain ⟨s1, s2, s3, s4⟩ := hsame
              refine ⟨r, ⟨dv, lv, ?_, c2, ?_, c4, c5, ?_⟩, hfin⟩
              · rcases c1 with ⟨a1, a2, a3⟩ | ⟨a1, a2⟩
                · left; exact ⟨s2 ▸ a1, a2, a3⟩
                · right; exact ⟨s2 ▸ a1, s3 ▸ a2⟩
              · rw [c3, s1]
              · rw [c6, s4]

/-- The invariant of a token survives the visit of an eligible stakeholder. -/
theorem TokenInv_step (env : Env) (t : TokenTypeId) (amount base vxSumAmt k u : ℤ)
    (address : Address) (st : ScanState) (db1 db2 : VmDb) (tokens : List AmountWithToken)
    (tl : TokenLoopState) (hinv : TokenInv t amount base vxSumAmt k st)
    (hev1 : db1.events = st.db.events)
    (hloop : tokenLoop env vxSumAmt u address st.feeSumWithTokens
      ⟨db1, st.feeSumMap, st.feeSumLeavedMap, st.dividedVxAmtMap, fun _ => none⟩
        = some (tokens, tl))
    (hev2 : db2.events = tl.db.events) :
    TokenInv t amount base vxSumAmt (k + u)
      ⟨db2, tl.feeSumMap, tokens, tl.feeSumLeavedMap, tl.dividedVxAmtMap⟩ := by
  obtain ⟨hnodup, tk, htk, htok, hamt, hdel, hlive⟩ := hinv
  obtain ⟨i1, -, i3⟩ := tokenLoop_token env vxSumAmt u address t _ _ _ _ hloop hnodup
  obtain ⟨tk', htk', htok', hamt', hd, hl⟩ := i3 tk htk htok
  refine ⟨by simpa [i1] using hnodup, tk', htk', htok', hamt'.trans hamt, ?_, ?_⟩
  · intro hdel'
    simp only [hev2]
    cases hdk : tk.Deleted with
    | true =>
      obtain ⟨-, hview⟩ := hd hdk
      have hv1 := hview.1
      dsimp only at hv1
      rw [hv1]
      simp only [hev1]
      exact hdel hdk
    | false =>
      obtain ⟨r, ⟨dv, lv, c1, c2, c3, c4, c5, c6⟩, hfin⟩ := hl hdk
      dsimp only at c1 c3 c6
      obtain ⟨f1, f2, f3, f4⟩ := DivideByProportion_facts _ _ _ _ _ _ _ _ c2
      have hfin' : r.finished = true := by rw [← hfin]; exact hdel'
      have hz := f3 hfin'
      simp only [hev1] at c3
      rw [c3]
      obtain ⟨-, hcase⟩ := hlive hdk
      rcases hcase with ⟨a1, a2, a3⟩ | ⟨lv0, dv0, a1, a2, a3, a4, a5⟩
      · rcases c1 with ⟨b1, b2, b3⟩ | ⟨b1, b2⟩
        · rw [a2]; rw [hamt] at b3; omega
        · rw [a1] at b1; cases b1
      · rcases c1 with ⟨b1, b2, b3⟩ | ⟨b1, b2⟩
        · rw [a1] at b1; cases b1
        · rw [a1] at b1
          have : lv0 = lv := Option.some.inj b1
          rw [a3]; omega
  · intro hlive'
    simp only [hev2]
    cases hdk : tk.Deleted with
    | true =>
      obtain ⟨hdt, -⟩ := hd hdk
      rw [hdt] at hlive'
      cases hlive'
    | false =>
      obtain ⟨r, ⟨dv, lv, c1, c2, c3, c4, c5, c6⟩, hfin⟩ := hl hdk
      dsimp only at c1 c3 c6
      obtain ⟨f1, f2, f3, f4⟩ := DivideByProportion_facts _ _ _ _ _ _ _ _ c2
      have hfin' : r.finished = false := by rw [← hfin]; exact hlive'
      have hlt := f4 hfin'
      simp only [hev1] at c3
      obtain ⟨hmem, hcase⟩ := hlive hdk
      refine ⟨c6.2 ⟨hmem, hfin'⟩, Or.inr ⟨r.toDivideLeaveAmt, r.dividedReferAmt, c4, c5, ?_, ?_, ?_⟩⟩
      · rw [c3]
        rcases hcase with ⟨a1, a2, a3⟩ | ⟨lv0, dv0, a1, a2, a3, a4, a5⟩
        · rcases c1 with ⟨b1, b2, b3⟩ | ⟨b1, b2⟩
          · rw [a2]; rw [hamt] at b3; omega
          · rw [a1] at b1; cases b1
        · rcases c1 with ⟨b1, b2, b3⟩ | ⟨b1, b2⟩
          · rw [a1] at b1; cases b1
          · rw [a1] at b1
            have : lv0 = lv := Option.some.inj b1
            rw [a3]; omega
      · rcases hcase with ⟨a1, a2, a3⟩ | ⟨lv0, dv0, a1, a2, a3, a4, a5⟩
        · rcases c1 with ⟨b1, b2, b3⟩ | ⟨b1, b2⟩
          · omega
          · rw [a1] at b1; cases b1
        · rcases c1 with ⟨b1, b2, b3⟩ | ⟨b1, b2⟩
          · rw [a1] at b1; cases b1
          · rw [a2] at b2
            have : dv0 = dv := Option.some.inj b2
            omega
      · omega

theorem TokenInv_db (t : TokenTypeId) (amount base vxSumAmt k : ℤ) (st : ScanState) (db1 : VmDb)
    (hinv : TokenInv t amount base vxSumAmt k st) (hev : db1.events = st.db.events) :
    TokenInv t amount base vxSumAmt k { st with db := db1 } := by
  obtain ⟨hnodup, tk, htk, htok, hamt, hdel, hlive⟩ := hinv
  refine ⟨hnodup, tk, htk, htok, hamt, ?_, ?_⟩
  · intro h; simp only [hev]; exact hdel h
  · intro h; simp only [hev]; exact hlive h

/-- At the end of a scan that returned without error, the shares of a token add up
to its pool amount once the stake of the eligible stakeholders has reached the
global stake sum. -/
theorem scanLoop_conservation (env : Env) (periodId : ℕ) (vxSumAmt : ℤ) (t : TokenTypeId)
    (amount base : ℤ) (hpos : 0 < vxSumAmt) (entries : List (Bytes × Bytes)) :
    ∀ (st : ScanState) (k : ℤ) (db' : VmDb),
      TokenInv t amount base vxSumAmt k st →
      scanLoop env periodId vxSumAmt entries st = some (db', none) →
      vxSumAmt ≤ k + eligibleStake env periodId entries →
      sharesOf t db'.events = base + amount := by
  induction entries with
  | nil =>
    intro st k db' hinv h hstake
    simp only [scanLoop, Option.some.injEq, Prod.mk.injEq, and_true] at h
    subst h
    obtain ⟨-, tk, -, -, -, hdel, hlive⟩ := hinv
    simp only [eligibleStake, List.map_nil, List.sum_nil, add_zero] at hstake
    cases hdk : tk.Deleted with
    | true => exact hdel hdk
    | false =>
      obtain ⟨-, hcase⟩ := hlive hdk
      rcases hcase with ⟨-, -, a3⟩ | ⟨lv0, dv0, -, -, -, a4, a5⟩
      · omega
      · omega
  | cons kv rest ih =>
    intro st k db' hinv h hstake
    obtain ⟨key, value⟩ := kv
    have hsum : eligibleStake env periodId ((key, value) :: rest)
        = eligibleStakeOf env periodId (key, value) + eligibleStake env periodId rest := by
      simp [eligibleStake]
    rw [hsum] at hstake
    unfold scanLoop at h
    split_ifs at h with h1 h2
    · simp only [Option.some.injEq, Prod.mk.injEq, and_true] at h
      subst h
      obtain ⟨-, tk, -, -, -, hdel, hlive⟩ := hinv
      cases hdk : tk.Deleted with
      | true => exact hdel hdk
      | false =>
        obtain ⟨hmem, -⟩ := hlive hdk
        have : st.feeSumMap = [] := List.length_eq_zero.1 h1
        rw [this] at hmem
        simp at hmem
    · have h0 : eligibleStakeOf env periodId (key, value) = 0 := by
        simp only [eligibleStakeOf, if_pos h2]
      rw [h0, zero_add] at hstake
      exact ih _ _ _ hinv h hstake
    · split at h
      · simp at h
      · rename_i address haddr
        split at h
        · simp at h
        · rename_i userVxFunds hdec
          simp only at h
          have hk := housekeep_frame env st.db address
            (MatchVxFundsByPeriod userVxFunds periodId true)
          split_ifs at h with h3 h4
          · have h0 : eligibleStakeOf env periodId (key, value) = 0 := by
              simp only [Bool.not_eq_true', Bool.not_eq_true] at h3
              simp [eligibleStakeOf, h2, hdec, h3]
            rw [h0, zero_add] at hstake
            exact ih _ _ _ hinv h hstake
          · have h0 : eligibleStakeOf env periodId (key, value) = 0 := by
              simp only [Bool.not_eq_true', Bool.not_eq_true] at h4
              simp [eligibleStakeOf, h2, hdec, h4]
            rw [h0, zero_add] at hstake
            exact ih _ _ _ (TokenInv_db t amount base vxSumAmt k st _ hinv hk.2.2.2.2) h hstake
          · have hu : eligibleStakeOf env periodId (key, value)
                = ((MatchVxFundsByPeriod userVxFunds periodId true).amount : ℤ) := by
              simp only [Bool.not_eq_true', Bool.not_eq_true, Bool.not_eq_false] at h3 h4
              simp [eligibleStakeOf, h2, hdec, h3, h4]
            split at h
            · cases h
            · rename_i tokens tl htl
              split at h
              · simp at h
              · rename_i db2 hup
                simp only [UpdateFund, Except.ok.injEq] at hup
                have hev2 : db2.events = tl.db.events := by rw [← hup]
                have hinv' := TokenInv_step env t amount base vxSumAmt k _ address st _ db2 tokens
                  tl hinv hk.2.2.2.2 htl hev2
                refine ih _ _ _ hinv' h ?_
                rw [hu] at hstake
                omega

theorem mergeFeeAccounts_keys (env : Env) (accounts : List FeeAccount) :
    ∀ (m m' : FeeSumMap), mergeFeeAccounts env accounts m = .ok m' →
      ∀ t, t ∈ m'.map Prod.fst ↔
        t ∈ m.map Prod.fst ∨ ∃ fa ∈ accounts, env.BytesToTokenTypeId fa.Token = .ok t := by
  induction accounts with
  | nil =>
    intro m m' h t
    simp only [mergeFeeAccounts, Except.ok.injEq] at h
    simp [h]
  | cons fa rest ih =>
    intro m m' h t
    unfold mergeFeeAccounts at h
    cases hdec : env.BytesToTokenTypeId fa.Token with
    | error e => rw [hdec] at h; simp at h
    | ok tokenId =>
      rw [hdec] at h
      simp only at h
      have key : ∀ v, t ∈ (m.set tokenId v).map Prod.fst ∨
            (∃ fa ∈ rest, env.BytesToTokenTypeId fa.Token = .ok t) ↔
          t ∈ m.map Prod.fst ∨
            ∃ fa' ∈ fa :: rest, env.BytesToTokenTypeId fa'.Token = .ok t := by
        intro v
        rw [FeeSumMap.mem_keys_set]
        simp only [List.mem_cons, exists_eq_or_imp, hdec, Except.ok.injEq]
        constructor
        · rintro ((h1 | h1) | h1)
          · exact Or.inr (Or.inl h1.symm)
          · exact Or.inl h1
          · exact Or.inr (Or.inr h1)
        · rintro (h1 | h1 | h1)
          · exact Or.inl (Or.inr h1)
          · exact Or.inl (Or.inl h1.symm)
          · exact Or.inr h1
      split at h
      · rw [ih _ _ h t]; exact key _
      · rw [ih _ _ h t]; exact key _

theorem mergeLoop_keys (env : Env) (periods : List (ℕ × DexFeesByPeriod)) :
    ∀ (db : VmDb) (m : FeeSumMap) (db' : VmDb) (m' : FeeSumMap),
      mergeLoop env periods db m = (db', m', none) →
      ∀ t, t ∈ m'.map Prod.fst ↔
        t ∈ m.map Prod.fst ∨
          ∃ pf ∈ periods, ∃ fa ∈ pf.2.FeesForDividend, env.BytesToTokenTypeId fa.Token = .ok t := by
  induction periods with
  | nil =>
    intro db m db' m' h t
    simp only [mergeLoop, Prod.mk.injEq] at h
    obtain ⟨-, rfl, -⟩ := h
    simp
  | cons pf rest ih =>
    intro db m db' m' h t
    obtain ⟨pId, fee⟩ := pf
    unfold mergeLoop at h
    split at h
    · simp at h
    · rename_i m1 hm1
      rw [ih _ _ _ _ h t, mergeFeeAccounts_keys env _ _ _ hm1 t]
      simp only [List.mem_cons, exists_eq_or_imp]
      constructor
      · rintro ((h1 | h1) | h1)
        · exact Or.inl h1
        · exact Or.inr (Or.inl h1)
        · exact Or.inr (Or.inr h1)
      · rintro (h1 | h1 | h1)
        · exact Or.inl (Or.inl h1)
        · exact Or.inl (Or.inr h1)
        · exact Or.inr h1

theorem option_eq_some_getD {α : Type} (o : Option α) (d : α) (h : o.isSome = true) :
    o = some (o.getD d) := by
  cases o with
  | none => cases h
  | some a => rfl

theorem option_eq_some_pair {α β : Type} (o : Option (α × β)) (d : α) (b : β)
    (h : o.map Prod.snd = some b) : o = some ((o.map Prod.fst).getD d, b) := by
  cases o with
  | none => cases h
  | some a =>
    obtain ⟨x, y⟩ := a
    simp only [Option.map_some', Option.some.injEq] at h
    subst h
    rfl

set_option maxRecDepth 100000 in
theorem demoDb_run : DoFeesDividend demoEnv id demoDb 1 = some (demoDbSettled, none) :=
  option_eq_some_pair _ demoDb none (by decide)

theorem isMapOrder_id : IsMapOrder id := fun l => List.Perm.refl l

set_option maxRecDepth 100000 in
theorem operatorDb_run : DoOperatorFeesDividend demoEnv operatorDb 1 = some operatorDbSettled :=
  option_eq_some_getD _ operatorDb (by decide)

set_option maxRecDepth 100000 in
/-- The settlement of `demoDb` credits A with 600,000 and B with 400,000 of the
token, logs the two shares, compacts nothing, and leaves period 1 finished. -/
theorem demoDb_settlement :
    (DoFeesDividend demoEnv id demoDb 1).map
        (fun r => (r.1.fund addrA tokenX, r.1.fund addrB tokenX, r.2))
      = some (600000, 400000, none) ∧
    (DoFeesDividend demoEnv id demoDb 1).map (fun r => r.1.events)
      = some [Event.FeeDividend addrA tokenX 60 600000,
          Event.FeeDividend addrB tokenX 40 400000] ∧
    (DoFeesDividend demoEnv id demoDb 1).map (fun r => r.1.vxFunds)
      = some [(addrA, [0, 60]), (addrB, [0, 40])] ∧
    (DoFeesDividend demoEnv id demoDb 1).map
        (fun r => GetNotFinishDividendDexFeesByPeriodMap r.1 1)
      = some [] := by
  decide

set_option maxRecDepth 100000 in
/-- The operator settlement of `operatorDb` credits A with 11 of the token, logs the
two market fees, and deletes the record. -/
theorem operatorDb_settlement :
    (DoOperatorFeesDividend demoEnv operatorDb 1).map (fun r => r.fund addrA tokenX)
      = some 11 ∧
    (DoOperatorFeesDividend demoEnv operatorDb 1).map (fun r => r.events)
      = some [Event.OperatorFeeDividend addrA ⟨0, 5⟩, Event.OperatorFeeDividend addrA ⟨0, 6⟩] ∧
    (DoOperatorFeesDividend demoEnv operatorDb 1).map (fun r => r.operatorFees) = some [] := by
  decide

set_option maxRecDepth 100000 in
/-- C1, as stated, fails: with a threshold of 50, a global stake sum of 100 and the
stakes A = 60 and B = 40, the settlement returns without error, only A is
eligible, and the shares logged for the token add up to 600,000 while the merged
pool amount is 1,000,000. -/
theorem C1_conservation_counterexample :
    (DoFeesDividend strictEnv id demoDb 1).map
        (fun r => (sharesOf tokenX r.1.events - sharesOf tokenX demoDb.events, r.2))
      = some (600000, none) ∧
    mergedPool strictEnv (GetNotFinishDividendDexFeesByPeriodMap demoDb 1) tokenX = 1000000 ∧
    eligibleStake strictEnv 1 demoDb.vxFunds = 60 ∧ stakeSumAt demoDb 1 = 100 := by
  decide

/-- C1, amended. For every token of the merged pool and every settlement that gets
past the stake check and runs to completion, if the stakes of the eligible
stakeholders of the scan add up to at least the global stake sum, then the shares
that `DivideByProportion` returned for the token in the scan (the amounts of the
fee-dividend events the call logged) add up to the merged pool amount of the token
exactly. In the example of 999,999 stakeholders of stake 1 against a pool of
1,000,000 (floats of at least 24 bits, nearest-integer rounding) every call but
the last returns 1 and the last returns the remaining 2. -/
theorem C1_exact_conservation (env : Env) (ord : MapOrder) (db db' : VmDb) (periodId : ℕ)
    (t : TokenTypeId) (hord : IsMapOrder ord)
    (hpos : 0 < stakeSumAt db periodId)
    (hrun : DoFeesDividend env ord db periodId = some (db', none))
    (htoken : ∃ pf ∈ GetNotFinishDividendDexFeesByPeriodMap db periodId,
      ∃ fa ∈ pf.2.FeesForDividend, env.BytesToTokenTypeId fa.Token = .ok t)
    (hstake : stakeSumAt db periodId ≤ eligibleStake env periodId db.vxFunds) :
    sharesOf t db'.events - sharesOf t db.events
      = mergedPool env (GetNotFinishDividendDexFeesByPeriodMap db periodId) t ∧
    (24 ≤ env.bigFloatPrec → NearestInt env.RoundAmount →
      (∀ k : ℤ, 0 ≤ k → k < 999998 →
        DivideByProportion env.bigFloatPrec env.RoundAmount 999999 1 k 1000000 (1000000 - k)
          = some ⟨1, false, k + 1, 1000000 - k - 1⟩) ∧
      DivideByProportion env.bigFloatPrec env.RoundAmount 999999 1 999998 1000000 2
        = some ⟨2, true, 999999, 0⟩) := by
  constructor
  · obtain ⟨pf, hpf, fa, hfa, hdec⟩ := htoken
    have hne : GetNotFinishDividendDexFeesByPeriodMap db periodId ≠ [] :=
      List.ne_nil_of_mem hpf
    have hperm := hord (GetNotFinishDividendDexFeesByPeriodMap db periodId)
    rw [DoFeesDividend_past_check env ord db periodId hne hpos] at hrun
    rcases hres : mergeLoop env (ord (GetNotFinishDividendDexFeesByPeriodMap db periodId)) db []
      with ⟨db1, m, err⟩
    rw [hres] at hrun
    obtain ⟨-, -, hev, hvx, -, -, hok, -⟩ := mergeLoop_spec env _ db [] db1 m err hres
    cases err with
    | some e => simp at hrun
    | none =>
      simp only at hrun
      have hget : (m.get t).getD 0
          = mergedPool env (GetNotFinishDividendDexFeesByPeriodMap db periodId) t := by
        rw [(hok rfl).2 t, mergedPool_perm env hperm]
        simp [FeeSumMap.get]
      have hnodup : (m.map Prod.fst).Nodup :=
        mergeLoop_nodup env _ db [] db1 m none hres (by simp)
      have hmem : t ∈ m.map Prod.fst :=
        (mergeLoop_keys env _ db [] db1 m hres t).2
          (Or.inr ⟨pf, hperm.mem_iff.2 hpf, fa, hfa, hdec⟩)
      obtain ⟨⟨k, a⟩, hka, hkt⟩ := List.mem_map.1 hmem
      simp only at hkt
      subst hkt
      have ha : a = mergedPool env (GetNotFinishDividendDexFeesByPeriodMap db periodId) k := by
        rw [← hget, FeeSumMap.get_of_mem m hnodup k a hka]
        rfl
      have hinv : TokenInv k a (sharesOf k db.events) (stakeSumAt db periodId) 0
          ⟨db1, m, MapToAmountWithTokens m, fun _ => none, fun _ => none⟩ := by
        refine ⟨by simpa [MapToAmountWithTokens, Function.comp_def] using hnodup,
          ⟨k, a, false⟩, ?_, rfl, rfl, ?_, ?_⟩
        · simp only [MapToAmountWithTokens, List.mem_map]
          exact ⟨(k, a), hka, rfl⟩
        · intro h; cases h
        · intro _
          exact ⟨hmem, Or.inl ⟨rfl, by rw [hev], rfl⟩⟩
      have := scanLoop_conservation env periodId (stakeSumAt db periodId) k a
        (sharesOf k db.events) hpos db1.vxFunds _ 0 db' hinv hrun (by rw [hvx]; omega)
      rw [this, ← ha]
      ring
  · intro hprec hR
    have hs := tentativeShare_unit_stake env.bigFloatPrec env.RoundAmount hprec hR
    constructor
    · intro k hk0 hk
      unfold DivideByProportion
      simp only [hs]
      rw [if_neg (by decide), if_neg (by simp only [not_or, not_le, ge_iff_le]; omega)]
    · unfold DivideByProportion
      simp only [hs]
      decide

set_option maxRecDepth 100000 in
/-- The amended C1 on the two stakeholders A = 60 and B = 40 with a threshold of 10:
their stakes add up to the global stake sum of 100. -/
theorem C1_exact_conservation_witness :
    IsMapOrder id ∧ 0 < stakeSumAt demoDb 1 ∧
    DoFeesDividend demoEnv id demoDb 1 = some (demoDbSettled, none) ∧
    (∃ pf ∈ GetNotFinishDividendDexFeesByPeriodMap demoDb 1,
      ∃ fa ∈ pf.2.FeesForDividend, demoEnv.BytesToTokenTypeId fa.Token = .ok tokenX) ∧
    stakeSumAt demoDb 1 ≤ eligibleStake demoEnv 1 demoDb.vxFunds ∧
    (sharesOf tokenX demoDbSettled.events - sharesOf tokenX demoDb.events
      = mergedPool demoEnv (GetNotFinishDividendDexFeesByPeriodMap demoDb 1) tokenX ∧
    (24 ≤ demoEnv.bigFloatPrec → NearestInt demoEnv.RoundAmount →
      (∀ k : ℤ, 0 ≤ k → k < 999998 →
        DivideByProportion demoEnv.bigFloatPrec demoEnv.RoundAmount 999999 1 k 1000000
            (1000000 - k)
          = some ⟨1, false, k + 1, 1000000 - k - 1⟩) ∧
      DivideByProportion demoEnv.bigFloatPrec demoEnv.RoundAmount 999999 1 999998 1000000 2
        = some ⟨2, true, 999999, 0⟩)) :=
  ⟨isMapOrder_id, by decide, demoDb_run,
    ⟨(1, ⟨[⟨tokenX, 0, 0, 1000000⟩], false⟩), by decide, ⟨tokenX, 0, 0, 1000000⟩, by decide, rfl⟩,
    by decide,
    C1_exact_conservation demoEnv id demoDb demoDbSettled 1 tokenX isMapOrder_id (by decide)
      demoDb_run
      ⟨(1, ⟨[⟨tokenX, 0, 0, 1000000⟩], false⟩), by decide, ⟨tokenX, 0, 0, 1000000⟩, by decide,
        rfl⟩
      (by decide)⟩

set_option maxRecDepth 100000 in
/-- The idempotence of C3 on `demoDb`: the second settlement of period 1 credits
nothing. -/
theorem C3_idempotent_settlement_witness :
    IsMapOrder id ∧ DoFeesDividend demoEnv id demoDb 1 = some (demoDbSettled, none) ∧
    ∃ dbTwice err₂, DoFeesDividend demoEnv id demoDbSettled 1 = some (dbTwice, err₂) ∧
      (∀ address token, dbTwice.fund address token = demoDbSettled.fund address token) ∧
      dbTwice.events = demoDbSettled.events ∧
      (0 < stakeSumAt demoDb 1 → (none : Option DexError) = none →
        GetNotFinishDividendDexFeesByPeriodMap demoDbSettled 1 = []) :=
  ⟨isMapOrder_id, demoDb_run,
    C3_idempotent_settlement demoEnv id id demoDb demoDbSettled 1 none isMapOrder_id
      isMapOrder_id demoDb_run⟩

/-- The deferral of C4 on a state without a global stake sum. -/
theorem C4_deferred_settlement_witness :
    (GetVxSumFunds noSumDb = none ∨
      ∃ vxSumFunds, GetVxSumFunds noSumDb = some vxSumFunds ∧
        ((∀ c ∈ vxSumFunds.Funds, 1 < c.Period) ∨
          ((MatchVxFundsByPeriod vxSumFunds 1 false).amount : ℤ) ≤ 0)) ∧
    ∃ db', DoFeesDividend demoEnv id noSumDb 1 = some (db', none) ∧
      (∀ p, db'.dexFees p = noSumDb.dexFees p) ∧
      GetNotFinishDividendDexFeesByPeriodMap db' 1
        = GetNotFinishDividendDexFeesByPeriodMap noSumDb 1 ∧
      (∀ address token, db'.fund address token = noSumDb.fund address token) :=
  ⟨Or.inl rfl, C4_deferred_settlement demoEnv id noSumDb 1 (Or.inl rfl)⟩

set_option maxRecDepth 100000 in
/-- The operator credit of C5 on the record of operator A. -/
theorem C5_operator_credit_witness :
    DoOperatorFeesDividend demoEnv operatorDb 1 = some operatorDbSettled ∧
    (operatorDb.operatorFees.map Prod.fst).Nodup ∧
    demoEnv.operatorFeesKeyPrefix.length = 3 ∧
    ((∀ kv ∈ operatorRecords demoEnv operatorDb 1, kv.2.length ≠ 0 →
      ∃ operatorFeesByPeriod,
        demoEnv.DeSerializeOperatorFees kv.2 = .ok operatorFeesByPeriod ∧
        ∀ t, operatorDbSettled.fund (kv.1.drop 11) t
          = operatorDb.fund (kv.1.drop 11) t
            + recordTotal demoEnv operatorFeesByPeriod.OperatorFees t) ∧
    (∀ a, (∀ kv ∈ operatorRecords demoEnv operatorDb 1, kv.2.length ≠ 0 → kv.1.drop 11 ≠ a) →
      ∀ t, operatorDbSettled.fund a t = operatorDb.fund a t) ∧
    (∀ t, (((operatorRecords demoEnv operatorDb 1).filter
          (fun kv => decide (kv.2.length ≠ 0))).map
        (fun kv => operatorDbSettled.fund (kv.1.drop 11) t - operatorDb.fund (kv.1.drop 11) t)).sum
      = ((operatorRecords demoEnv operatorDb 1).map (fun kv => entryTotal demoEnv kv t)).sum)) :=
  ⟨operatorDb_run, by decide, by decide,
    C5_operator_credit demoEnv operatorDb operatorDbSettled 1 operatorDb_run (by decide)
      (by decide)⟩

/-- The consume-once of C6 on the record of operator A. -/
theorem C6_operator_consume_once_witness :
    DoOperatorFeesDividend demoEnv operatorDb 1 = some operatorDbSettled ∧
    ((∀ kv ∈ operatorRecords demoEnv operatorDb 1, kv.2.length ≠ 0 →
      ∀ kv' ∈ operatorDbSettled.operatorFees, kv'.1 ≠ kv.1) ∧
    (∀ kv ∈ operatorRecords demoEnv operatorDbSettled 1, kv.2.length = 0) ∧
    DoOperatorFeesDividend demoEnv operatorDbSettled 1 = some operatorDbSettled ∧
    (∀ dbTwice, DoOperatorFeesDividend demoEnv operatorDbSettled 1 = some dbTwice →
      ∀ address token, dbTwice.fund address token = operatorDbSettled.fund address token)) :=
  ⟨operatorDb_run, C6_operator_consume_once demoEnv operatorDb operatorDbSettled 1 operatorDb_run⟩

/-! ## Bounds of one call and of a sequence of calls -/

theorem DivideByProportion_isSome (prec : ℕ) (R : BigFloat → ℤ)
    (total part dv amount lv : ℤ) (h : total ≠ 0) :
    ∃ r, DivideByProportion prec R total part dv amount lv = some r := by
  unfold DivideByProportion
  simp only [if_neg h]
  split_ifs
  · exact ⟨_, rfl⟩
  · exact ⟨_, rfl⟩

/-- One call on non-negative amounts: the share lies between zero and the pool
remaining, and what remains is the difference, not negative. -/
theorem DivideByProportion_bounds (prec : ℕ) (R : BigFloat → ℤ) (hR : NearestInt R)
    (total part dv amount lv : ℤ) (hT : 0 < total) (hpart : 0 ≤ part) (hamount : 0 ≤ amount)
    (hlv : 0 ≤ lv) :
    ∃ r, DivideByProportion prec R total part dv amount lv = some r ∧
      0 ≤ r.proportionAmt ∧ r.proportionAmt ≤ lv ∧
      r.toDivideLeaveAmt = lv - r.proportionAmt ∧ 0 ≤ r.toDivideLeaveAmt ∧
      (r.finished = true → r.toDivideLeaveAmt = 0) := by
  have hs := tentativeShare_nonneg prec R hR total part amount hT.le hpart hamount
  unfold DivideByProportion
  simp only [if_neg (ne_of_gt hT)]
  split_ifs with h
  · exact ⟨_, rfl, hlv, le_refl _, by simp, le_refl _, fun _ => rfl⟩
  · simp only [not_or, not_le] at h
    refine ⟨_, rfl, hs, ?_, rfl, ?_, fun hf => by simp at hf⟩
    · simp only; omega
    · simp only; omega

theorem callSequence_spec (prec : ℕ) (R : BigFloat → ℤ) (hR : NearestInt R)
    (total amount : ℤ) (hT : 0 < total) (hamount : 0 ≤ amount) (parts : List ℤ) :
    ∀ (dv lv : ℤ), (∀ p ∈ parts, 0 ≤ p) → 0 ≤ lv →
      ∃ rs, callSequence prec R total amount parts dv lv = some rs ∧
        (rs.map (fun r => r.proportionAmt)).sum + remainingAfter lv rs = lv ∧
        0 ≤ (rs.map (fun r => r.proportionAmt)).sum ∧ 0 ≤ remainingAfter lv rs ∧
        ((∃ r ∈ rs, r.finished = true) → (rs.map (fun r => r.proportionAmt)).sum = lv) := by
  induction parts with
  | nil =>
    intro dv lv _ hlv
    exact ⟨[], rfl, by simp [remainingAfter], by simp, by simpa [remainingAfter] using hlv,
      by simp⟩
  | cons part rest ih =>
    intro dv lv hparts hlv
    obtain ⟨r, hr, h1, h2, h3, h4, h5⟩ := DivideByProportion_bounds prec R hR total part dv
      amount lv hT (hparts part (List.mem_cons_self _ _)) hamount hlv
    obtain ⟨rs, hrs, g1, g2, g3, g4⟩ := ih r.dividedReferAmt r.toDivideLeaveAmt
      (fun p hp => hparts p (List.mem_cons_of_mem _ hp)) h4
    refine ⟨r :: rs, ?_, ?_, ?_, ?_, ?_⟩
    · unfold callSequence
      rw [hr]
      simp only [hrs, Option.map_some']
    · simp only [List.map_cons, List.sum_cons, remainingAfter]
      omega
    · simp only [List.map_cons, List.sum_cons]
      omega
    · simpa [remainingAfter] using g3
    · rintro ⟨r', hr', hfin⟩
      simp only [List.map_cons, List.sum_cons]
      rcases List.mem_cons.1 hr' with rfl | hmem
      · have := h5 hfin
        omega
      · have := g4 ⟨r', hmem, hfin⟩
        omega

/-- C13. Per-call conservation and bounds of the allocator, under a nearest-integer
`RoundAmount`: for every call with `totalRef > 0`, `partRef ≥ 0`, `poolTotal ≥ 0`
and `poolRemaining ≥ 0` the call returns, `0 ≤ share ≤ poolRemaining`, and the
pool remaining afterwards is `poolRemaining - share ≥ 0`; and over every sequence
of calls for one token that starts from `poolRemaining = poolTotal`, the shares
returned plus the pool remaining add up to `poolTotal` after the last call (so
after every call, each prefix being such a sequence), and the shares alone add up
to `poolTotal` once some call has returned `finished = true`. -/
theorem C13_call_conservation_and_bounds (prec : ℕ) (RoundAmount : BigFloat → ℤ)
    (totalRef poolTotal : ℤ) (hRound : NearestInt RoundAmount) (hTotal : 0 < totalRef)
    (hPool : 0 ≤ poolTotal) :
    (∀ partRef dividedRef poolRemaining : ℤ, 0 ≤ partRef → 0 ≤ poolRemaining →
      ∃ r, DivideByProportion prec RoundAmount totalRef partRef dividedRef poolTotal
          poolRemaining = some r ∧
        0 ≤ r.proportionAmt ∧ r.proportionAmt ≤ poolRemaining ∧
        r.toDivideLeaveAmt = poolRemaining - r.proportionAmt ∧ 0 ≤ r.toDivideLeaveAmt) ∧
    (∀ parts : List ℤ, (∀ p ∈ parts, 0 ≤ p) →
      ∃ rs, callSequence prec RoundAmount totalRef poolTotal parts 0 poolTotal = some rs ∧
        (rs.map (fun r => r.proportionAmt)).sum + remainingAfter poolTotal rs = poolTotal ∧
        ((∃ r ∈ rs, r.finished = true) →
          (rs.map (fun r => r.proportionAmt)).sum = poolTotal)) := by
  constructor
  · intro partRef dividedRef poolRemaining hpart hrem
    obtain ⟨r, hr, h1, h2, h3, h4, -⟩ := DivideByProportion_bounds prec RoundAmount hRound
      totalRef partRef dividedRef poolTotal poolRemaining hTotal hpart hPool hrem
    exact ⟨r, hr, h1, h2, h3, h4⟩
  · intro parts hparts
    obtain ⟨rs, hrs, g1, -, -, g4⟩ := callSequence_spec prec RoundAmount hRound totalRef
      poolTotal hTotal hPool parts 0 poolTotal hparts hPool
    exact ⟨rs, hrs, g1, g4⟩

/-- The bounds of C13 at 120 bits with halves rounded upwards, a stake sum of 100
and a pool of 1,000,000. -/
theorem C13_call_conservation_and_bounds_witness :
    NearestInt roundHalfUp ∧ (0 : ℤ) < 100 ∧ (0 : ℤ) ≤ 1000000 ∧
    ((∀ partRef dividedRef poolRemaining : ℤ, 0 ≤ partRef → 0 ≤ poolRemaining →
      ∃ r, DivideByProportion 120 roundHalfUp 100 partRef dividedRef 1000000
          poolRemaining = some r ∧
        0 ≤ r.proportionAmt ∧ r.proportionAmt ≤ poolRemaining ∧
        r.toDivideLeaveAmt = poolRemaining - r.proportionAmt ∧ 0 ≤ r.toDivideLeaveAmt) ∧
    (∀ parts : List ℤ, (∀ p ∈ parts, 0 ≤ p) →
      ∃ rs, callSequence 120 roundHalfUp 100 1000000 parts 0 1000000 = some rs ∧
        (rs.map (fun r => r.proportionAmt)).sum + remainingAfter 1000000 rs = 1000000 ∧
        ((∃ r ∈ rs, r.finished = true) →
          (rs.map (fun r => r.proportionAmt)).sum = 1000000))) :=
  ⟨roundHalfUp_nearest, by decide, by decide,
    C13_call_conservation_and_bounds 120 roundHalfUp 100 1000000 roundHalfUp_nearest (by decide)
      (by decide)⟩

set_option maxRecDepth 100000 in
/-- The sequence of the calls for A = 60 and B = 40 returns 600,000 and 400,000. -/
theorem callSequence_demo :
    callSequence 120 roundHalfUp 100 1000000 [60, 40] 0 1000000
      = some [⟨600000, false, 60, 400000⟩, ⟨400000, true, 100, 0⟩] := by
  decide

/-! ## The division guard -/

theorem allocateToken_isSome (env : Env) (vxSumAmt userVxAmount : ℤ) (address : Address)
    (tk : AmountWithToken) (st : TokenLoopState) (hsum : vxSumAmt ≠ 0)
    (hpair : AccumulatorsPaired st.feeSumLeavedMap st.dividedVxAmtMap) :
    ∃ tk' st', allocateToken env vxSumAmt userVxAmount address tk st = some (tk', st') ∧
      AccumulatorsPaired st'.feeSumLeavedMap st'.dividedVxAmtMap ∧
      st'.feeSumMap.length ≤ st.feeSumMap.length := by
  have hupd : ∀ (l d : TokenTypeId → Option ℤ) (x y : ℤ), AccumulatorsPaired l d →
      AccumulatorsPaired (Function.update l tk.Token (some x))
        (Function.update d tk.Token (some y)) := by
    intro l d x y hld t ht
    by_cases htk : t = tk.Token
    · subst htk; simp
    · rw [Function.update_noteq htk] at ht ⊢
      exact hld t ht
  have hlen : ∀ (b : Bool), (if b = true then st.feeSumMap.delete tk.Token
      else st.feeSumMap).length ≤ st.feeSumMap.length := by
    intro b
    split_ifs
    · exact List.length_filter_le _ _
    · exact le_refl _
  unfold allocateToken
  cases hl : st.feeSumLeavedMap tk.Token with
  | none =>
    simp only [hl, Option.isNone_none, if_true, Function.update_same]
    obtain ⟨r, hr⟩ := DivideByProportion_isSome env.bigFloatPrec env.RoundAmount vxSumAmt
      userVxAmount 0 tk.Amount tk.Amount hsum
    rw [hr]
    exact ⟨_, _, rfl, hupd _ _ _ _ (hupd _ _ _ _ hpair), hlen _⟩
  | some lv =>
    have hd := hpair tk.Token (by rw [hl]; rfl)
    obtain ⟨dv, hdv⟩ := Option.isSome_iff_exists.1 hd
    simp only [hl, Option.isNone_some, Bool.false_eq_true, if_false, hdv]
    obtain ⟨r, hr⟩ := DivideByProportion_isSome env.bigFloatPrec env.RoundAmount vxSumAmt
      userVxAmount dv tk.Amount lv hsum
    rw [hr]
    exact ⟨_, _, rfl, hupd _ _ _ _ hpair, hlen _⟩

theorem tokenLoop_isSome (env : Env) (vxSumAmt userVxAmount : ℤ) (address : Address)
    (hsum : vxSumAmt ≠ 0) (tokens : List AmountWithToken) :
    ∀ st : TokenLoopState, AccumulatorsPaired st.feeSumLeavedMap st.dividedVxAmtMap →
      ∃ tokens' st', tokenLoop env vxSumAmt userVxAmount address tokens st
          = some (tokens', st') ∧
        AccumulatorsPaired st'.feeSumLeavedMap st'.dividedVxAmtMap := by
  induction tokens with
  | nil => intro st h; exact ⟨[], st, rfl, h⟩
  | cons tk rest ih =>
    intro st h
    unfold tokenLoop
    split_ifs with hdel
    · obtain ⟨l', st', h1, h2⟩ := ih st h
      exact ⟨tk :: l', st', by simp [h1], h2⟩
    · obtain ⟨tk1, st1, h1, h2, -⟩ := allocateToken_isSome env vxSumAmt userVxAmount address tk
        st hsum h
      obtain ⟨l', st', h3, h4⟩ := ih st1 h2
      exact ⟨tk1 :: l', st', by simp [h1, h3], h4⟩

/-- With a non-zero stake sum the scan does not panic. -/
theorem scanLoop_isSome (env : Env) (periodId : ℕ) (vxSumAmt : ℤ) (hsum : vxSumAmt ≠ 0)
    (entries : List (Bytes × Bytes)) :
    ∀ st : ScanState, AccumulatorsPaired st.feeSumLeavedMap st.dividedVxAmtMap →
      ∃ res, scanLoop env periodId vxSumAmt entries st = some res := by
  induction entries with
  | nil => intro st _; exact ⟨_, rfl⟩
  | cons kv rest ih =>
    intro st h
    obtain ⟨key, value⟩ := kv
    unfold scanLoop
    split_ifs with h1 h2
    · exact ⟨_, rfl⟩
    · exact ih st h
    · split
      · exact ⟨_, rfl⟩
      · rename_i address haddr
        split
        · exact ⟨_, rfl⟩
        · rename_i userVxFunds hdec
          simp only
          split_ifs with h3 h4
          · exact ih st h
          · exact ih _ h
          · obtain ⟨tokens, tl, ht, hp⟩ := tokenLoop_isSome env vxSumAmt
              ((MatchVxFundsByPeriod userVxFunds periodId true).amount : ℤ) address hsum
              st.feeSumWithTokens
              ⟨housekeep env st.db address (MatchVxFundsByPeriod userVxFunds periodId true),
                st.feeSumMap, st.feeSumLeavedMap, st.dividedVxAmtMap, fun _ => none⟩ h
            rw [ht]
            simp only [UpdateFund]
            exact ih _ hp

/-- C14. Division guard: `DivideByProportion` fails only on a zero `totalReferAmt`;
`DoFeesDividend` returns before the scan, with the state as it was, whenever the
global stake sum is not positive; past that check the scan, and with it every call
of `DivideByProportion`, is given the positive global stake sum as `totalReferAmt`;
and so `DoFeesDividend` never fails on a division by zero: it returns on every
state. -/
theorem C14_division_guard (env : Env) (ord : MapOrder) (db : VmDb) (periodId : ℕ) :
    (∀ partRef dividedRef poolTotal poolRemaining,
      DivideByProportion env.bigFloatPrec env.RoundAmount 0 partRef dividedRef poolTotal
        poolRemaining = none) ∧
    (∀ totalRef partRef dividedRef poolTotal poolRemaining, 0 < totalRef →
      ∃ r, DivideByProportion env.bigFloatPrec env.RoundAmount totalRef partRef dividedRef
        poolTotal poolRemaining = some r) ∧
    (stakeSumAt db periodId ≤ 0 → DoFeesDividend env ord db periodId = some (db, none)) ∧
    (0 < stakeSumAt db periodId →
      GetNotFinishDividendDexFeesByPeriodMap db periodId ≠ [] →
      DoFeesDividend env ord db periodId =
        match mergeLoop env (ord (GetNotFinishDividendDexFeesByPeriodMap db periodId)) db []
          with
        | (db1, _, some err) => some (db1, some err)
        | (db1, feeSumMap, none) =>
          scanLoop env periodId (stakeSumAt db periodId) db1.vxFunds
            ⟨db1, feeSumMap, MapToAmountWithTokens feeSumMap, fun _ => none,
              fun _ => none⟩) ∧
    (∀ (tk : AmountWithToken) (st : TokenLoopState) (userVxAmount : ℤ) (address : Address),
      0 < stakeSumAt db periodId →
      AccumulatorsPaired st.feeSumLeavedMap st.dividedVxAmtMap →
      ∃ res, allocateToken env (stakeSumAt db periodId) userVxAmount address tk st
        = some res) ∧
    ∃ res, DoFeesDividend env ord db periodId = some res := by
  refine ⟨?_, ?_, ?_, ?_, ?_, ?_⟩
  · intro partRef dividedRef poolTotal poolRemaining
    simp [DivideByProportion]
  · intro totalRef partRef dividedRef poolTotal poolRemaining h
    exact DivideByProportion_isSome _ _ _ _ _ _ _ (ne_of_gt h)
  · intro h
    exact DoFeesDividend_of_not_pos env ord db periodId (not_lt.2 h)
  · intro hpos hne
    exact DoFeesDividend_past_check env ord db periodId hne hpos
  · intro tk st userVxAmount address hpos hpair
    obtain ⟨tk', st', h, -⟩ := allocateToken_isSome env (stakeSumAt db periodId) userVxAmount
      address tk st (ne_of_gt hpos) hpair
    exact ⟨_, h⟩
  · by_cases hne : GetNotFinishDividendDexFeesByPeriodMap db periodId = []
    · exact ⟨_, DoFeesDividend_of_nil env ord db periodId hne⟩
    by_cases hpos : 0 < stakeSumAt db periodId
    · rw [DoFeesDividend_past_check env ord db periodId hne hpos]
      rcases hres : mergeLoop env (ord (GetNotFinishDividendDexFeesByPeriodMap db periodId)) db []
        with ⟨db1, m, err⟩
      cases err with
      | some e => exact ⟨_, rfl⟩
      | none =>
        exact scanLoop_isSome env periodId (stakeSumAt db periodId) (ne_of_gt hpos) db1.vxFunds
          _ (fun t h => by simp at h)
    · exact ⟨_, DoFeesDividend_of_not_pos env ord db periodId hpos⟩

/-- The guard of C14 on the demo state: the settlement of period 1 returns. -/
theorem C14_division_guard_witness :
    ∃ res, DoFeesDividend demoEnv id demoDb 1 = some res :=
  (C14_division_guard demoEnv id demoDb 1).2.2.2.2.2

/-! ## Accuracy of the rounded share -/

theorem bitLen_eq_of_bounds (n b : ℕ) (h1 : 2 ^ b ≤ 2 * n) (h2 : n < 2 ^ b) : bitLen n = b := by
  have hn : n ≠ 0 := by
    rintro rfl
    have : 0 < 2 ^ b := by positivity
    omega
  obtain ⟨g1, g2⟩ := bitLen_spec n hn
  apply le_antisymm
  · by_contra hlt
    have hlt' : b + 1 ≤ bitLen n := by omega
    have : 2 ^ (b + 1) ≤ 2 ^ bitLen n := Nat.pow_le_pow_right (by norm_num) hlt'
    rw [pow_succ] at this
    omega
  · by_contra hlt
    have hlt' : bitLen n + 1 ≤ b := by omega
    have : 2 ^ (bitLen n + 1) ≤ 2 ^ b := Nat.pow_le_pow_right (by norm_num) hlt'
    rw [pow_succ] at this
    omega

/-- Two integers beyond the mantissa that become the same float. -/
theorem SetInt_collision (prec : ℕ) (hprec : 0 < prec) :
    BigFloat.SetInt prec (2 ^ (prec + 3)) = BigFloat.SetInt prec (2 ^ (prec + 3) + 4) := by
  obtain ⟨p, rfl⟩ : ∃ p, prec = p + 1 := ⟨prec - 1, by omega⟩
  have hpow : (2 : ℕ) ^ (p + 1 + 3) = 16 * 2 ^ p := by
    rw [pow_add, pow_add]; ring
  have hpos : 0 < 2 ^ p := by positivity
  have hb1 : bitLen (2 ^ (p + 1 + 3)) = p + 5 := by
    apply bitLen_eq_of_bounds
    · rw [hpow, show p + 5 = p + 1 + 4 from rfl, pow_add, pow_add]; omega
    · rw [hpow, show p + 5 = p + 1 + 4 from rfl, pow_add, pow_add]; omega
  have hb2 : bitLen (2 ^ (p + 1 + 3) + 4) = p + 5 := by
    apply bitLen_eq_of_bounds
    · rw [hpow, show p + 5 = p + 1 + 4 from rfl, pow_add, pow_add]; omega
    · rw [hpow, show p + 5 = p + 1 + 4 from rfl, pow_add, pow_add]; omega
  have hone : bitLen 1 = 1 := by decide
  have hn1 : ((2 : ℤ) ^ (p + 1 + 3)).natAbs = 2 ^ (p + 1 + 3) := by
    rw [Int.natAbs_pow]; rfl
  have hn2 : ((2 : ℤ) ^ (p + 1 + 3) + 4).natAbs = 2 ^ (p + 1 + 3) + 4 := by
    have : ((2 : ℤ) ^ (p + 1 + 3) + 4) = ((2 ^ (p + 1 + 3) + 4 : ℕ) : ℤ) := by push_cast; rfl
    rw [this, Int.natAbs_ofNat]
  have hs1 : ((2 : ℤ) ^ (p + 1 + 3)).sign = 1 := Int.sign_eq_one_of_pos (by positivity)
  have hs2 : ((2 : ℤ) ^ (p + 1 + 3) + 4).sign = 1 := Int.sign_eq_one_of_pos (by positivity)
  have hz1 : ((2 : ℤ) ^ (p + 1 + 3)) ≠ 0 := by positivity
  have hz2 : ((2 : ℤ) ^ (p + 1 + 3) + 4) ≠ 0 := by positivity
  have hk1 : ilog2 (2 ^ (p + 1 + 3)) 1 = ((p + 4 : ℕ) : ℤ) := by
    unfold ilog2
    simp only [hb1, hone]
    have : ((p + 5 : ℕ) : ℤ) - ((1 : ℕ) : ℤ) = ((p + 4 : ℕ) : ℤ) := by push_cast; ring
    rw [this]
    have ht : (((p + 4 : ℕ) : ℤ)).toNat = p + 4 := Int.toNat_natCast _
    have ht' : (-((p + 4 : ℕ) : ℤ)).toNat = 0 := by
      apply Int.toNat_eq_zero.2; omega
    rw [ht, ht', if_pos]
    rw [hpow]; omega
  have hk2 : ilog2 (2 ^ (p + 1 + 3) + 4) 1 = ((p + 4 : ℕ) : ℤ) := by
    unfold ilog2
    simp only [hb2, hone]
    have : ((p + 5 : ℕ) : ℤ) - ((1 : ℕ) : ℤ) = ((p + 4 : ℕ) : ℤ) := by push_cast; ring
    rw [this]
    have ht : (((p + 4 : ℕ) : ℤ)).toNat = p + 4 := Int.toNat_natCast _
    have ht' : (-((p + 4 : ℕ) : ℤ)).toNat = 0 := by
      apply Int.toNat_eq_zero.2; omega
    rw [ht, ht', if_pos]
    rw [hpow]; omega
  have he : ((p + 4 : ℕ) : ℤ) + 1 - ((p + 1 : ℕ) : ℤ) = 4 := by push_cast; ring
  have hr1 : rneDiv (2 ^ (p + 1 + 3) * 2 ^ 0) (1 * 2 ^ 4) = 2 ^ p := by
    unfold rneDiv
    have hq : 2 ^ (p + 1 + 3) * 2 ^ 0 / (1 * 2 ^ 4) = 2 ^ p := by
      rw [hpow]; omega
    have hr : 2 ^ (p + 1 + 3) * 2 ^ 0 % (1 * 2 ^ 4) = 0 := by
      rw [hpow]; omega
    simp only [hq, hr]
    simp
  have hr2 : rneDiv ((2 ^ (p + 1 + 3) + 4) * 2 ^ 0) (1 * 2 ^ 4) = 2 ^ p := by
    unfold rneDiv
    have hq : (2 ^ (p + 1 + 3) + 4) * 2 ^ 0 / (1 * 2 ^ 4) = 2 ^ p := by
      rw [hpow]; omega
    have hr : (2 ^ (p + 1 + 3) + 4) * 2 ^ 0 % (1 * 2 ^ 4) = 4 := by
      rw [hpow]; omega
    simp only [hq, hr]
    simp
  have h4 : (4 : ℤ).toNat = 4 := rfl
  have h4' : (-(4 : ℤ)).toNat = 0 := rfl
  unfold BigFloat.SetInt roundPrec
  simp only [hz1, hz2, one_ne_zero, or_self, if_false, hn1, hn2, hk1, hk2, he, h4, h4', hr1, hr2,
    hs1, hs2]

/-- The share of a call that does not finish is the tentative share. -/
theorem DivideByProportion_share_of_not_finished (prec : ℕ) (R : BigFloat → ℤ)
    (total part dv amount lv : ℤ) (r : DivideResult)
    (h : DivideByProportion prec R total part dv amount lv = some r)
    (hnf : r.finished = false) : r.proportionAmt = tentativeShare prec R total part amount := by
  unfold DivideByProportion at h
  simp only at h
  split_ifs at h with h0 h1
  · simp only [Option.some.injEq] at h
    subst h
    simp at hnf
  · simp only [Option.some.injEq] at h
    subst h
    rfl

theorem natAbs_lt_of_lt (x : ℤ) (n : ℕ) (h0 : 0 ≤ x) (h : x < 2 ^ n) : x.natAbs < 2 ^ n := by
  have h1 : ((x.natAbs : ℕ) : ℤ) < (((2 : ℕ) ^ n : ℕ) : ℤ) := by
    rw [Int.natAbs_of_nonneg h0]
    push_cast
    exact h
  exact_mod_cast h1

/-- With a nearest-integer rounding and inputs that fit the mantissa, the tentative
share is within one half of the exact quotient as soon as `6 * pool * part` stays
below `2 ^ prec`. -/
theorem tentativeShare_nearest (prec : ℕ) (R : BigFloat → ℤ) (hR : NearestInt R)
    (total part pool : ℤ) (ht : 0 < total) (hp : 0 ≤ part) (ha : 0 ≤ pool)
    (h1 : total < 2 ^ prec) (h2 : part < 2 ^ prec) (h3 : pool < 2 ^ prec)
    (hsmall : 6 * pool * part < 2 ^ prec) :
    |((tentativeShare prec R total part pool : ℤ) : ℚ) - (pool : ℚ) * part / total| ≤ 1 / 2 := by
  have herr := tentativeShare_err prec R hR total part pool (ne_of_gt ht)
    (natAbs_lt_of_lt total prec ht.le h1) (natAbs_lt_of_lt part prec hp h2)
    (natAbs_lt_of_lt pool prec ha h3)
  set s : ℤ := tentativeShare prec R total part pool with hs
  have hT : (0 : ℚ) < total := by exact_mod_cast ht
  have hN : (0 : ℚ) ≤ (pool : ℚ) * part := by
    have h5 : (0 : ℚ) ≤ pool := by exact_mod_cast ha
    have h6 : (0 : ℚ) ≤ part := by exact_mod_cast hp
    positivity
  have hq : (0 : ℚ) ≤ (pool : ℚ) * part / total := div_nonneg hN hT.le
  rw [abs_of_nonneg hq] at herr
  have hpow : (0 : ℚ) < 2 ^ prec := by positivity
  have hsm : (6 : ℚ) * pool * part < 2 ^ prec := by exact_mod_cast hsmall
  -- the integer `2 * s * total - 2 * pool * part` has absolute value below `total + 1`
  have hkey : |((2 * s * total - 2 * pool * part : ℤ) : ℚ)| < (total : ℚ) + 1 := by
    have e : ((2 * s * total - 2 * pool * part : ℤ) : ℚ)
        = 2 * total * ((s : ℚ) - (pool : ℚ) * part / total) := by
      push_cast
      field_simp
      ring
    rw [e, abs_mul, abs_of_pos (by positivity : (0 : ℚ) < 2 * total)]
    have h7 : 3 * ((pool : ℚ) * part / total) / 2 ^ prec * (2 * total) < 1 := by
      have : 3 * ((pool : ℚ) * part / total) / 2 ^ prec * (2 * total)
          = 6 * pool * part / 2 ^ prec := by
        field_simp
        ring
      rw [this, div_lt_one hpow]
      exact hsm
    calc 2 * (total : ℚ) * |(s : ℚ) - (pool : ℚ) * part / total|
        ≤ 2 * total * (1 / 2 + 3 * ((pool : ℚ) * part / total) / 2 ^ prec) :=
          mul_le_mul_of_nonneg_left herr (by positivity)
      _ = total + 3 * ((pool : ℚ) * part / total) / 2 ^ prec * (2 * total) := by ring
      _ < total + 1 := by linarith
  have hint : |(2 * s * total - 2 * pool * part : ℤ)| ≤ total := by
    have : ((|(2 * s * total - 2 * pool * part : ℤ)| : ℤ) : ℚ) < ((total + 1 : ℤ) : ℚ) := by
      push_cast
      push_cast at hkey
      exact hkey
    have := Int.cast_lt.1 this
    omega
  have hint' : |((2 * s * total - 2 * pool * part : ℤ) : ℚ)| ≤ (total : ℚ) := by
    have : ((|(2 * s * total - 2 * pool * part : ℤ)| : ℤ) : ℚ) ≤ ((total : ℤ) : ℚ) :=
      Int.cast_le.2 hint
    rw [Int.cast_abs] at this
    exact this
  have e : ((2 * s * total - 2 * pool * part : ℤ) : ℚ)
      = 2 * total * ((s : ℚ) - (pool : ℚ) * part / total) := by
    push_cast
    field_simp
    ring
  rw [e, abs_mul, abs_of_pos (by positivity : (0 : ℚ) < 2 * total)] at hint'
  by_contra hcon
  push_neg at hcon
  have : 2 * (total : ℚ) * (1 / 2) < 2 * total * |(s : ℚ) - (pool : ℚ) * part / total| :=
    mul_lt_mul_of_pos_left hcon (by positivity)
  linarith

/-- No precision and no rounding helper make every unfinished call return a share within
one half of the exact quotient: two pools beyond the mantissa become the same float,
while their exact quotients lie two apart. -/
theorem no_precision_is_nearest (prec : ℕ) (R : BigFloat → ℤ) (hprec : 0 < prec) :
    ¬ ∀ (total part divided pool remaining : ℤ) (r : DivideResult),
        0 < total → 0 ≤ part → 0 ≤ pool →
        DivideByProportion prec R total part divided pool remaining = some r →
        r.finished = false →
        |((r.proportionAmt : ℤ) : ℚ) - (pool : ℚ) * part / total| ≤ 1 / 2 := by
  intro hall
  have hcol := SetInt_collision prec hprec
  set s : ℤ := tentativeShare prec R 2 1 (2 ^ (prec + 3)) with hs
  have hs2 : tentativeShare prec R 2 1 (2 ^ (prec + 3) + 4) = s := by
    rw [hs]
    unfold tentativeShare
    rw [hcol]
  have hcall : ∀ pool : ℤ, tentativeShare prec R 2 1 pool = s →
      DivideByProportion prec R 2 1 0 pool (s + 1) = some ⟨s, false, 1, 1⟩ := by
    intro pool hp
    unfold DivideByProportion
    simp only [hp]
    rw [if_neg (by norm_num), if_neg (by simp)]
    simp
  have hpos : (0 : ℤ) ≤ 2 ^ (prec + 3) := by positivity
  have g1 := hall 2 1 0 (2 ^ (prec + 3)) (s + 1) _ (by norm_num) (by norm_num) hpos
    (hcall _ hs.symm) rfl
  have g2 := hall 2 1 0 (2 ^ (prec + 3) + 4) (s + 1) _ (by norm_num) (by norm_num)
    (by positivity) (hcall _ hs2) rfl
  simp only at g1 g2
  rw [abs_le] at g1 g2
  push_cast at g1 g2
  obtain ⟨a1, a2⟩ := g1
  obtain ⟨b1, b2⟩ := g2
  linarith

set_option maxRecDepth 100000 in
/-- A call with eighteen-digit amounts whose share is not the nearest integer. -/
theorem DivideByProportion_not_nearest_demo :
    DivideByProportion 120 roundHalfUp 1000000000000000001 900000000000000001 0
      5000000000000000000 5000000000000000000
      = some ⟨4500000000000000001, false, 900000000000000001, 499999999999999999⟩ := by
  decide

/-- C12, as stated, fails: there is an unfinished call whose share is farther than one half
from the exact quotient `poolTotal * partRef / totalRef`, at precision 120 with half-up
rounding and eighteen-digit amounts; and for every positive precision and every rounding
helper there are such calls, since pools beyond the mantissa are not told apart. -/
theorem C12_nearest_integer_counterexample :
    (∃ r : DivideResult,
      DivideByProportion 120 roundHalfUp 1000000000000000001 900000000000000001 0
        5000000000000000000 5000000000000000000 = some r ∧ r.finished = false ∧
      ¬ |((r.proportionAmt : ℤ) : ℚ)
          - (5000000000000000000 : ℚ) * 900000000000000001 / 1000000000000000001| ≤ 1 / 2) ∧
    ∀ (prec : ℕ) (RoundAmount : BigFloat → ℤ), 0 < prec →
      ¬ ∀ (totalRef partRef dividedRef poolTotal poolRemaining : ℤ) (r : DivideResult),
        0 < totalRef → 0 ≤ partRef → 0 ≤ poolTotal →
        DivideByProportion prec RoundAmount totalRef partRef dividedRef poolTotal poolRemaining
          = some r →
        r.finished = false →
        |((r.proportionAmt : ℤ) : ℚ) - (poolTotal : ℚ) * partRef / totalRef| ≤ 1 / 2 := by
  refine ⟨⟨_, DivideByProportion_not_nearest_demo, rfl, ?_⟩, ?_⟩
  · simp only
    rw [abs_le]
    norm_num
  · intro prec R hprec
    exact no_precision_is_nearest prec R hprec

/-- C12, amended. With a rounding helper that rounds to a nearest integer and
`totalRef`, `partRef`, `poolTotal` below `2 ^ bigFloatPrec`, an unfinished call returns
a share within `1/2 + 3 * q / 2 ^ bigFloatPrec` of the exact quotient
`q = poolTotal * partRef / totalRef`; the share is within one half of `q`, the integer
nearest to it, whenever `6 * poolTotal * partRef < 2 ^ bigFloatPrec`. -/
theorem C12_nearest_integer_rounding (prec : ℕ) (RoundAmount : BigFloat → ℤ)
    (totalRef partRef dividedRef poolTotal poolRemaining : ℤ) (r : DivideResult)
    (hRound : NearestInt RoundAmount)
    (hTotal : 0 < totalRef) (hPart : 0 ≤ partRef) (hPool : 0 ≤ poolTotal)
    (hTotalFits : totalRef < 2 ^ prec) (hPartFits : partRef < 2 ^ prec)
    (hPoolFits : poolTotal < 2 ^ prec)
    (hcall : DivideByProportion prec RoundAmount totalRef partRef dividedRef poolTotal
      poolRemaining = some r)
    (hnot : r.finished = false) :
    |((r.proportionAmt : ℤ) : ℚ) - (poolTotal : ℚ) * partRef / totalRef|
        ≤ 1 / 2 + 3 * ((poolTotal : ℚ) * partRef / totalRef) / 2 ^ prec ∧
    (6 * poolTotal * partRef < 2 ^ prec →
      |((r.proportionAmt : ℤ) : ℚ) - (poolTotal : ℚ) * partRef / totalRef| ≤ 1 / 2) := by
  have hshare := DivideByProportion_share_of_not_finished prec RoundAmount totalRef partRef
    dividedRef poolTotal poolRemaining r hcall hnot
  rw [hshare]
  constructor
  · have herr := tentativeShare_err prec RoundAmount hRound totalRef partRef poolTotal
      (ne_of_gt hTotal) (natAbs_lt_of_lt totalRef prec hTotal.le hTotalFits)
      (natAbs_lt_of_lt partRef prec hPart hPartFits)
      (natAbs_lt_of_lt poolTotal prec hPool hPoolFits)
    have hq : (0 : ℚ) ≤ (poolTotal : ℚ) * partRef / totalRef := by
      have h5 : (0 : ℚ) ≤ poolTotal := by exact_mod_cast hPool
      have h6 : (0 : ℚ) ≤ partRef := by exact_mod_cast hPart
      have h7 : (0 : ℚ) < totalRef := by exact_mod_cast hTotal
      positivity
    rw [abs_of_nonneg hq] at herr
    exact herr
  · intro hsmall
    exact tentativeShare_nearest prec RoundAmount hRound totalRef partRef poolTotal hTotal hPart
      hPool hTotalFits hPartFits hPoolFits hsmall

set_option maxRecDepth 100000 in
/-- The bound of C12 at a call of the demo parameters: 60 of 100 staked, pool 1000000. -/
theorem C12_nearest_integer_rounding_witness :
    |(((⟨600000, false, 60, 400000⟩ : DivideResult).proportionAmt : ℤ) : ℚ)
        - ((1000000 : ℤ) : ℚ) * (60 : ℤ) / (100 : ℤ)|
        ≤ 1 / 2 + 3 * (((1000000 : ℤ) : ℚ) * (60 : ℤ) / (100 : ℤ)) / 2 ^ 120 ∧
    (6 * (1000000 : ℤ) * 60 < 2 ^ 120 →
      |(((⟨600000, false, 60, 400000⟩ : DivideResult).proportionAmt : ℤ) : ℚ)
        - ((1000000 : ℤ) : ℚ) * (60 : ℤ) / (100 : ℤ)| ≤ 1 / 2) :=
  C12_nearest_integer_rounding 120 roundHalfUp 100 60 0 1000000 1000000
    ⟨600000, false, 60, 400000⟩ roundHalfUp_nearest (by norm_num) (by norm_num) (by norm_num)
    (by norm_num) (by norm_num) (by norm_num) (by decide) rfl

/-! ## Exhausted tokens -/

/-- One allocation logs one event, for its token, and leaves the variables of every
other token as they were. -/
theorem allocateToken_events (env : Env) (vxSumAmt userVxAmount : ℤ) (address : Address)
    (tk tk' : AmountWithToken) (st st' : TokenLoopState)
    (h : allocateToken env vxSumAmt userVxAmount address tk st = some (tk', st')) :
    tk'.Token = tk.Token ∧
    (∃ amt, st'.db.events
      = st.db.events ++ [Event.FeeDividend address tk.Token userVxAmount amt]) ∧
    (∀ t, t ∉ st.feeSumMap.map Prod.fst → t ∉ st'.feeSumMap.map Prod.fst) ∧
    ∀ t, t ≠ tk.Token → st'.userFeeDividend t = st.userFeeDividend t ∧
      st'.feeSumLeavedMap t = st.feeSumLeavedMap t ∧
      st'.dividedVxAmtMap t = st.dividedVxAmtMap t := by
  unfold allocateToken at h
  simp only at h
  split at h
  · split at h
    · cases h
    · rename_i r hr
      simp only [Option.some.injEq, Prod.mk.injEq] at h
      obtain ⟨rfl, rfl⟩ := h
      refine ⟨?_, ⟨r.proportionAmt, rfl⟩, ?_, ?_⟩
      · split_ifs <;> rfl
      · intro t ht
        dsimp only
        split_ifs
        · intro hmem
          apply ht
          simp only [FeeSumMap.delete, List.mem_map, List.mem_filter] at hmem
          obtain ⟨kv, ⟨hkv, -⟩, rfl⟩ := hmem
          exact List.mem_map_of_mem _ hkv
        · exact ht
      · intro t ht
        dsimp only
        refine ⟨Function.update_noteq ht _ _, ?_, ?_⟩
        · rw [Function.update_noteq ht]
          split_ifs
          · exact Function.update_noteq ht _ _
          · rfl
        · rw [Function.update_noteq ht]
          split_ifs
          · exact Function.update_noteq ht _ _
          · rfl
  · cases h

/-- A token loop over a slice in which token `t` is flagged does nothing for `t`: the
flag stays, the accumulators and the credit of the address for `t` are as before, and
no event is logged for `t`. -/
theorem tokenLoop_retired (env : Env) (vxSumAmt userVxAmount : ℤ) (address : Address)
    (t : TokenTypeId) (l : List AmountWithToken) :
    ∀ (st : TokenLoopState) (l' : List AmountWithToken) (st' : TokenLoopState),
      tokenLoop env vxSumAmt userVxAmount address l st = some (l', st') →
      (∀ tk ∈ l, tk.Token = t → tk.Deleted = true) →
      (∀ tk ∈ l', tk.Token = t → tk.Deleted = true) ∧
      st'.userFeeDividend t = st.userFeeDividend t ∧
      st'.feeSumLeavedMap t = st.feeSumLeavedMap t ∧
      st'.dividedVxAmtMap t = st.dividedVxAmtMap t ∧
      (t ∉ st.feeSumMap.map Prod.fst → t ∉ st'.feeSumMap.map Prod.fst) ∧
      ∃ new, st'.db.events = st.db.events ++ new ∧
        ∀ e ∈ new, isFeeDividendFor t e = false := by
  induction l with
  | nil =>
    intro st l' st' h _
    simp only [tokenLoop, Option.some.injEq, Prod.mk.injEq] at h
    obtain ⟨rfl, rfl⟩ := h
    exact ⟨by simp, rfl, rfl, rfl, id, [], by simp, by simp⟩
  | cons hd rest ih =>
    intro st l' st' h hflag
    have hrest : ∀ tk ∈ rest, tk.Token = t → tk.Deleted = true :=
      fun tk htk => hflag tk (List.mem_cons_of_mem _ htk)
    unfold tokenLoop at h
    split at h
    · rename_i hdel
      simp only [Option.map_eq_some'] at h
      obtain ⟨q, hq, hqq⟩ := h
      simp only [Prod.mk.injEq] at hqq
      obtain ⟨rfl, rfl⟩ := hqq
      obtain ⟨g1, g2, g3, g4, g5, g6⟩ := ih _ _ _ hq hrest
      refine ⟨?_, g2, g3, g4, g5, g6⟩
      intro tk htk htt
      rcases List.mem_cons.1 htk with rfl | hmem
      · exact hdel
      · exact g1 tk hmem htt
    · rename_i hlive
      split at h
      · cases h
      · rename_i tk1 st1 hal
        simp only [Option.map_eq_some'] at h
        obtain ⟨q, hq, hqq⟩ := h
        simp only [Prod.mk.injEq] at hqq
        obtain ⟨rfl, rfl⟩ := hqq
        have hne : t ≠ hd.Token := by
          intro heq
          exact hlive (hflag hd (List.mem_cons_self _ _) heq.symm)
        obtain ⟨a1, ⟨amt, a2⟩, a3, a4⟩ := allocateToken_events env _ _ _ _ _ _ _ hal
        obtain ⟨b1, b2, b3⟩ := a4 t hne
        obtain ⟨g1, g2, g3, g4, g5, new, g6, g7⟩ := ih _ _ _ hq hrest
        refine ⟨?_, g2.trans b1, g3.trans b2, g4.trans b3, fun hn => g5 (a3 t hn),
          Event.FeeDividend address hd.Token userVxAmount amt :: new, ?_, ?_⟩
        · intro tk htk htt
          rcases List.mem_cons.1 htk with rfl | hmem
          · exact absurd (htt.symm.trans a1) hne
          · exact g1 tk hmem htt
        · rw [g6, a2, List.append_assoc]
          rfl
        · intro e he
          rcases List.mem_cons.1 he with rfl | hmem
          · simp only [isFeeDividendFor, decide_eq_false_iff_not]
            exact fun hc => hne hc.symm
          · exact g7 e hmem

/-- A scan from a state in which token `t` is flagged credits nothing of `t` to any
address and logs no event for `t`. -/
theorem scanLoop_retired (env : Env) (periodId : ℕ) (vxSumAmt : ℤ) (t : TokenTypeId)
    (entries : List (Bytes × Bytes)) :
    ∀ (st : ScanState) (db' : VmDb) (err : Option DexError),
      scanLoop env periodId vxSumAmt entries st = some (db', err) →
      (∀ tk ∈ st.feeSumWithTokens, tk.Token = t → tk.Deleted = true) →
      (∀ a, db'.fund a t = st.db.fund a t) ∧
      ∃ new, db'.events = st.db.events ++ new ∧
        ∀ e ∈ new, isFeeDividendFor t e = false := by
  have hrefl : ∀ db : VmDb, (∀ a, db.fund a t = db.fund a t) ∧
      ∃ new, db.events = db.events ++ new ∧ ∀ e ∈ new, isFeeDividendFor t e = false :=
    fun db => ⟨fun _ => rfl, [], by simp, by simp⟩
  induction entries with
  | nil =>
    intro st db' err h _
    simp only [scanLoop, Option.some.injEq, Prod.mk.injEq] at h
    obtain ⟨rfl, -⟩ := h
    exact hrefl _
  | cons kv rest ih =>
    intro st db' err h hflag
    obtain ⟨key, value⟩ := kv
    unfold scanLoop at h
    split_ifs at h with h1 h2
    · simp only [Option.some.injEq, Prod.mk.injEq] at h
      obtain ⟨rfl, -⟩ := h
      exact hrefl _
    · exact ih _ _ _ h hflag
    · split at h
      · simp only [Option.some.injEq, Prod.mk.injEq] at h
        obtain ⟨rfl, -⟩ := h
        exact hrefl _
      · rename_i address haddr
        split at h
        · simp only [Option.some.injEq, Prod.mk.injEq] at h
          obtain ⟨rfl, -⟩ := h
          exact hrefl _
        · rename_i userVxFunds hdec
          simp only at h
          have hk := housekeep_frame env st.db address
            (MatchVxFundsByPeriod userVxFunds periodId true)
          split_ifs at h with h3 h4
          · exact ih _ _ _ h hflag
          · have := ih _ _ _ h hflag
            simp only at this
            rw [hk.2.2.2.1, hk.2.2.2.2] at this
            exact this
          · split at h
            · cases h
            · rename_i tokens tl htl
              have hfr := tokenLoop_frame env _ _ _ _ _ _ _ htl
              obtain ⟨r1, r2, -, -, -, new1, r6, r7⟩ :=
                tokenLoop_retired env _ _ _ t _ _ _ _ htl hflag
              simp only at hfr r2 r6
              split at h
              · simp only [Option.some.injEq, Prod.mk.injEq] at h
                obtain ⟨rfl, -⟩ := h
                refine ⟨fun a => by rw [hfr.2.2.2.1, hk.2.2.2.1], new1, ?_, r7⟩
                rw [r6, hk.2.2.2.2]
              · rename_i db2 hup
                simp only [UpdateFund, Except.ok.injEq] at hup
                subst hup
                obtain ⟨s1, new2, s2, s3⟩ := ih _ _ _ h r1
                simp only at s1 s2
                refine ⟨?_, new1 ++ new2, ?_, ?_⟩
                · intro a
                  rw [s1 a, r2]
                  simp only [Option.getD_none, add_zero, ite_self]
                  rw [hfr.2.2.2.1, hk.2.2.2.1]
                · rw [s2, r6, hk.2.2.2.2, List.append_assoc]
                · intro e he
                  rcases List.mem_append.1 he with he | he
                  · exact r7 e he
                  · exact s3 e he

set_option maxRecDepth 100000 in
theorem demo_tokenY_call :
    DivideByProportion demoEnv.bigFloatPrec demoEnv.RoundAmount 100 60 0 1 1
      = some ⟨1, true, 60, 0⟩ := by
  decide

/-- C11. Exhausted tokens are retired: when the token loop of a visited address
reaches a live entry of the slice, `DivideByProportion` is called for its token, and
if that call returns finished = true then afterwards the token is out of the active
pool and its entry is flagged; any later token loop over the slice leaves the
accumulators and the credit for the token untouched and keeps the flag; and over the
rest of the scan no address is credited any amount of the token and no event is
logged for it. -/
theorem C11_exhausted_tokens_retired (env : Env) (periodId : ℕ) (vxSumAmt userVxAmount : ℤ)
    (address : Address) (tokens tokens' : List AmountWithToken) (st st' : TokenLoopState)
    (tk : AmountWithToken)
    (hnodup : (tokens.map (fun tk => tk.Token)).Nodup)
    (htk : tk ∈ tokens) (hlive : tk.Deleted = false)
    (hloop : tokenLoop env vxSumAmt userVxAmount address tokens st = some (tokens', st')) :
    ∃ r : DivideResult,
      AllocatedShare env vxSumAmt userVxAmount tk.Token tk.Amount st st' r ∧
      (r.finished = true →
        tk.Token ∉ st'.feeSumMap.map Prod.fst ∧
        (∀ tk' ∈ tokens', tk'.Token = tk.Token → tk'.Deleted = true) ∧
        (∀ (laterVxAmount : ℤ) (laterAddress : Address) (s : TokenLoopState)
            (tokens2 : List AmountWithToken) (s' : TokenLoopState),
          tokenLoop env vxSumAmt laterVxAmount laterAddress tokens' s = some (tokens2, s') →
          s'.feeSumLeavedMap tk.Token = s.feeSumLeavedMap tk.Token ∧
          s'.dividedVxAmtMap tk.Token = s.dividedVxAmtMap tk.Token ∧
          s'.userFeeDividend tk.Token = s.userFeeDividend tk.Token ∧
          (∀ tk' ∈ tokens2, tk'.Token = tk.Token → tk'.Deleted = true)) ∧
        ∀ (db2 : VmDb) (rest : List (Bytes × Bytes)) (db' : VmDb) (err : Option DexError),
          scanLoop env periodId vxSumAmt rest
            ⟨db2, st'.feeSumMap, tokens', st'.feeSumLeavedMap, st'.dividedVxAmtMap⟩
            = some (db', err) →
          (∀ a, db'.fund a tk.Token = db2.fund a tk.Token) ∧
          ∃ new, db'.events = db2.events ++ new ∧
            ∀ e ∈ new, isFeeDividendFor tk.Token e = false) := by
  obtain ⟨hmap, -, hall⟩ := tokenLoop_token env vxSumAmt userVxAmount address tk.Token tokens
    st tokens' st' hloop hnodup
  obtain ⟨tk1, htk1, htok1, -, -, hl⟩ := hall tk htk rfl
  obtain ⟨r, hr, hdel⟩ := hl hlive
  refine ⟨r, hr, ?_⟩
  intro hfin
  have hflag : ∀ tk' ∈ tokens', tk'.Token = tk.Token → tk'.Deleted = true := by
    intro tk2 htk2 htok2
    have hnd : (tokens'.map (fun tk => tk.Token)).Nodup := hmap ▸ hnodup
    have : tk2 = tk1 :=
      List.inj_on_of_nodup_map hnd htk2 htk1 (htok2.trans htok1.symm)
    rw [this, hdel, hfin]
  obtain ⟨dv, lv, -, -, -, -, -, hpool⟩ := hr
  refine ⟨fun hmem => ?_, hflag, ?_, ?_⟩
  · have := (hpool.1 hmem).2
    rw [hfin] at this
    cases this
  · intro laterVxAmount laterAddress s tokens2 s' hlater
    obtain ⟨g1, g2, g3, g4, -, -⟩ := tokenLoop_retired env vxSumAmt laterVxAmount laterAddress
      tk.Token tokens' s tokens2 s' hlater hflag
    exact ⟨g3, g4, g2, g1⟩
  · intro db2 rest db' err hscan
    exact scanLoop_retired env periodId vxSumAmt tk.Token rest _ db' err hscan hflag

set_option maxRecDepth 100000 in
/-- The retirement of C11 on the demo scan: the stakeholder with 60 of the 100 staked
takes the single unit of `tokenY`, which finishes it. -/
theorem C11_exhausted_tokens_retired_witness :
    tokenY ∉ demoLoopResult.2.feeSumMap.map Prod.fst ∧
    (∀ tk' ∈ demoLoopResult.1, tk'.Token = tokenY → tk'.Deleted = true) ∧
    ∀ (db2 : VmDb) (rest : List (Bytes × Bytes)) (db' : VmDb) (err : Option DexError),
      scanLoop demoEnv 1 100 rest
        ⟨db2, demoLoopResult.2.feeSumMap, demoLoopResult.1, demoLoopResult.2.feeSumLeavedMap,
          demoLoopResult.2.dividedVxAmtMap⟩ = some (db', err) →
      (∀ a, db'.fund a tokenY = db2.fund a tokenY) ∧
      ∃ new, db'.events = db2.events ++ new ∧
        ∀ e ∈ new, isFeeDividendFor tokenY e = false := by
  obtain ⟨r, hr, h⟩ := C11_exhausted_tokens_retired demoEnv 1 100 60 addrA
    [⟨tokenY, 1, false⟩, ⟨tokenX, 1000000, false⟩] demoLoopResult.1 demoLoopState
    demoLoopResult.2 ⟨tokenY, 1, false⟩ (by decide) (by decide) rfl
    (option_eq_some_getD _ ([], demoLoopState) (by decide))
  obtain ⟨dv, lv, hacc, hcall, -⟩ := hr
  have hfin : r.finished = true := by
    rcases hacc with ⟨-, rfl, rfl⟩ | ⟨hsome, -⟩
    · have := demo_tokenY_call
      simp only at hcall
      rw [this] at hcall
      cases hcall
      rfl
    · cases hsome
  obtain ⟨h1, h2, -, h4⟩ := h hfin
  exact ⟨h1, h2, h4⟩

/-! ## The contract of the allocator against the exact quotient -/

set_option maxRecDepth 100000 in
/-- C10, as stated, fails: with two unsettled periods, period 0 holding 5 of `tokenX`
and period 1 a fee account whose token does not decode, and a global stake sum of 100,
the settlement of period 1 gets past the stake check and returns the decoding error
of the merge: nothing is distributed, while the collected periods hold 5 of `tokenX`;
merged in the order 0, 1 the call has marked period 0 finished, so that a later
settlement collects period 1 alone, and merged in the order 1, 0 it has not. -/
theorem C10_undecodable_token_counterexample :
    (GetNotFinishDividendDexFeesByPeriodMap badTokenDb 1).map Prod.fst = [0, 1] ∧
    0 < stakeSumAt badTokenDb 1 ∧
    mergedPool demoEnv (GetNotFinishDividendDexFeesByPeriodMap badTokenDb 1) tokenX = 5 ∧
    (DoFeesDividend demoEnv id badTokenDb 1).map (fun r => (r.2, r.1.events))
      = some (some DexError.invalidTokenTypeId, []) ∧
    (DoFeesDividend demoEnv id badTokenDb 1).map
        (fun r => (r.1.fund addrA tokenX, r.1.fund addrB tokenX))
      = some (0, 0) ∧
    (DoFeesDividend demoEnv id badTokenDb 1).map (fun r => r.1.dexFees 0)
      = some (some ⟨[⟨tokenX, 0, 0, 5⟩], true⟩) ∧
    (DoFeesDividend demoEnv id badTokenDb 1).map
        (fun r => (GetNotFinishDividendDexFeesByPeriodMap r.1 1).map Prod.fst)
      = some [1] ∧
    (DoFeesDividend demoEnv List.reverse badTokenDb 1).map
        (fun r => (r.2, r.1.events, r.1.dexFees 0))
      = some (some DexError.invalidTokenTypeId, [], some ⟨[⟨tokenX, 0, 0, 5⟩], false⟩) := by
  refine ⟨by decide, by decide, by decide, by decide, by decide, by decide, by decide,
    by decide⟩

theorem catchUpDb_good : ∀ pf ∈ GetNotFinishDividendDexFeesByPeriodMap catchUpDb 1,
    GoodAccounts demoEnv pf.2.FeesForDividend := by
  have hl : GetNotFinishDividendDexFeesByPeriodMap catchUpDb 1
      = [(0, ⟨[⟨tokenX, 0, 0, 5⟩, ⟨tokenY, 0, 0, 7⟩], false⟩),
        (1, ⟨[⟨tokenX, 0, 0, 1000000⟩], false⟩)] := by decide
  intro pf hpf
  rw [hl] at hpf
  simp only [List.mem_cons, List.mem_singleton, List.not_mem_nil, or_false] at hpf
  rcases hpf with rfl | rfl
  · intro fa hfa
    simp only [List.mem_cons, List.mem_singleton, List.not_mem_nil, or_false] at hfa
    rcases hfa with rfl | rfl
    · exact ⟨tokenX, rfl⟩
    · exact ⟨tokenY, rfl⟩
  · intro fa hfa
    simp only [List.mem_cons, List.mem_singleton, List.not_mem_nil, or_false] at hfa
    subst hfa
    exact ⟨tokenX, rfl⟩

set_option maxRecDepth 100000 in
/-- The catch-up merge of C10 on two unsettled periods merged in the order 1, 0:
period 0 holds 5 of `tokenX` and 7 of `tokenY`, period 1 holds 1,000,000 of `tokenX`,
and the pool holds 1,000,005 of `tokenX` and 7 of `tokenY`. -/
theorem C10_catch_up_merge_witness :
    (GetNotFinishDividendDexFeesByPeriodMap catchUpDb 1).map Prod.fst = [0, 1] ∧
    mergedPool demoEnv (GetNotFinishDividendDexFeesByPeriodMap catchUpDb 1) tokenX = 1000005 ∧
    mergedPool demoEnv (GetNotFinishDividendDexFeesByPeriodMap catchUpDb 1) tokenY = 7 ∧
    (mergeLoop demoEnv (List.reverse (GetNotFinishDividendDexFeesByPeriodMap catchUpDb 1))
      catchUpDb []).2 = ([(tokenX, 1000005), (tokenY, 7)], none) ∧
    ∃ db1 feeSumMap,
      mergeLoop demoEnv (List.reverse (GetNotFinishDividendDexFeesByPeriodMap catchUpDb 1))
        catchUpDb [] = (db1, feeSumMap, none) ∧
      DoFeesDividend demoEnv List.reverse catchUpDb 1 =
        scanLoop demoEnv 1 (stakeSumAt catchUpDb 1) db1.vxFunds
          ⟨db1, feeSumMap, MapToAmountWithTokens feeSumMap, fun _ => none, fun _ => none⟩ ∧
      (∀ tk ∈ MapToAmountWithTokens feeSumMap,
        tk.Amount
          = mergedPool demoEnv (GetNotFinishDividendDexFeesByPeriodMap catchUpDb 1) tk.Token ∧
        tk.Deleted = false) ∧
      ((MapToAmountWithTokens feeSumMap).map (fun tk => tk.Token)).Nodup ∧
      (∀ t, mergedPool demoEnv (GetNotFinishDividendDexFeesByPeriodMap catchUpDb 1) t ≠ 0 →
        ∃ tk ∈ MapToAmountWithTokens feeSumMap, tk.Token = t) :=
  ⟨by decide, by decide, by decide, by decide,
    C10_catch_up_merge demoEnv List.reverse catchUpDb 1 (fun l => List.reverse_perm l)
      (by decide) (by decide) catchUpDb_good⟩

end Dex
